import Mathlib

/-!
The key-value store `gedis`: a verification development.

A shallow embedding of the Go sources of `gedis` (a Redis-compatible in-memory
key-value store) and theorems about it.

* `resp/reader.go`, `resp/writer.go`: the wire codec (`resp.Reader.Read`,
  `resp.Writer.write`).
* `aof/aof.go`: the replay loop over the append-only file (`aof.Read`).
* `handler.go`: the store handlers `set`, `get`, `del`, `exists`, `ttl`, pub/sub
  and the expiration job.
* `main.go`: the dispatcher `handleConnection` and the replay at start.

Conventions of the embedding.

* A Go `string` / `[]byte` is a list of byte values (`Bytes`); a byte is a natural
  number below 256.  No definition depends on that bound.
* A byte stream behind a `bufio.Reader` is the list of the bytes not yet consumed;
  a read returns the remaining stream.  A byte sink behind an `io.Writer` is the
  list of the bytes written so far; a write cannot fail.
* Go `int` is the 64-bit `int` of the usual platforms.
* An instant (`time.Time`) is an integer number of nanoseconds on the process
  clock.  `time.Now()` is a parameter of each handler: an instant `now` for `set`,
  `get` and `ttl`, and for `exists`, which reads the clock in every iteration of
  its loop, a function `now` from the position in the key list to the reading
  there.  A `time.Duration` is an `int64` number of nanoseconds, and its
  arithmetic wraps around as Go's does.
* A `float64` is the rational number it stands for; an operation rounds its exact
  result to the nearest `float64`, a tie going to the even one (`float64.round`).
* `make` panics for a negative size and for a size of more than `maxAlloc` bytes,
  as the Go runtime does; below that limit memory is taken to be available.
* The goroutines of the connections take the mutex of the file and the mutex of
  the store one after the other; `logRequest` and `runRequest` are the two parts
  of an iteration of `handleConnection` between which another goroutine can run,
  and `handleRequest` is the iteration run without such a step in between.
-/

namespace Gedis

/-- A Go string or byte slice: the list of its bytes. -/
abbrev Bytes := List Nat

/-- The bytes of an ASCII string literal of the source. -/
def lit (s : String) : Bytes := s.toList.map Char.toNat

/-- Carriage return. -/
def CR : Nat := 13

/-- Line feed. -/
def LF : Nat := 10

/-- The two bytes `"\r\n"`. -/
def CRLF : Bytes := [CR, LF]

/-! ## Go runtime outcomes -/

/-- The error values the codec can return. -/
inductive Err where
  /-- Go `io.EOF`: the stream ended where a byte was asked for. -/
  | EOF
  /-- Go `io.ErrUnexpectedEOF`: `io.ReadFull` got some bytes but not all. -/
  | ErrUnexpectedEOF
  /-- Go `*strconv.NumError`: `strconv.ParseInt` rejected its argument. -/
  | NumError
  /-- The error `fmt.Errorf("unknown type: %v", ...)` of `Reader.Read`, with the offending
  byte. -/
  | unknownType (t : Nat)
  deriving DecidableEq, Repr

/-- The outcome of a fallible Go call: a value (`err == nil`), an error
(`err != nil`; the value returned beside it is not used by any caller), or a
run-time panic that unwinds the goroutine. -/
inductive Result (α : Type) where
  | ok (a : α)
  | error (e : Err)
  | panic
  deriving DecidableEq, Repr

/-! ## `strconv` -/

namespace strconv

/-- The decimal digits of `n`, most significant first, as ASCII bytes, put in
front of `acc`; `fuel` bounds the number of digits. -/
def formatBits : Nat → Nat → Bytes → Bytes
  | 0, _, acc => acc
  | fuel + 1, n, acc =>
    if n < 10 then (48 + n) :: acc
    else formatBits fuel (n / 10) ((48 + n % 10) :: acc)

/-- Go `strconv.Itoa`: base-10 text of an `int`, with `-` in front of a negative
number. -/
def Itoa (i : Int) : Bytes :=
  if i < 0 then 45 :: formatBits (i.natAbs + 1) i.natAbs []
  else formatBits (i.toNat + 1) i.toNat []

/-- The digit loop of `strconv.ParseUint` in base 10: `none` on a byte that is not
a digit.  (The range check is made by the caller.) -/
def parseDigits : Bytes → Nat → Option Nat
  | [], acc => some acc
  | c :: cs, acc =>
    if 48 ≤ c ∧ c ≤ 57 then parseDigits cs (acc * 10 + (c - 48)) else none

/-- Go `strconv.ParseInt(s, 10, 64)` (and `strconv.Atoi` on a 64-bit platform):
an optional sign, then one or more decimal digits, the value in
`[-2^63, 2^63 - 1]`; `none` when Go returns an error (`ErrSyntax` or `ErrRange`). -/
def ParseInt (s : Bytes) : Option Int :=
  match s with
  | [] => none
  | c :: cs =>
    let digits := if c = 43 ∨ c = 45 then cs else s
    if digits = [] then none
    else
      match parseDigits digits 0 with
      | none => none
      | some un =>
        if c = 45 then
          if un ≤ 2 ^ 63 then some (-(un : Int)) else none
        else
          if un < 2 ^ 63 then some (un : Int) else none

/-- The ASCII decimal digits. -/
def IsDigit (c : Nat) : Prop := 48 ≤ c ∧ c ≤ 57

/-- Go `strconv.Atoi` for a 64-bit `int`. -/
def Atoi (s : Bytes) : Option Int := ParseInt s

end strconv

/-- The Go runtime constant `maxAlloc` of the 64-bit platforms with 48 heap address
bits (linux/amd64 among them): `make` panics when the bytes asked for are more. -/
def maxAlloc : Nat := 2 ^ 48

/-- The size in bytes of a `resp.Value` on a 64-bit platform, `unsafe.Sizeof`: three
strings of 16 bytes, an `int` of 8 and a slice header of 24. -/
def sizeofValue : Nat := 80

/-! ## `resp`: the wire value -/

namespace resp

/-- Type byte of a simple string. -/
def STRING : Nat := 43

/-- Type byte of an error. -/
def ERROR : Nat := 45

/-- Type byte of an integer. -/
def INTEGER : Nat := 58

/-- Type byte of a bulk string. -/
def BULK : Nat := 36

/-- Type byte of an array. -/
def ARRAY : Nat := 42

/-- Go `resp.Value`: a record with a type tag and one field per variant.  (The
field `Type` of the source is `Typ` here.) -/
inductive Value where
  | mk (Typ : String) (Str : Bytes) (Num : Int) (Bulk : Bytes) (Array : List Value)
  deriving Repr

namespace Value

/-- Field `Type`. -/
def Typ : Value → String
  | mk t _ _ _ _ => t

/-- Field `Str`. -/
def Str : Value → Bytes
  | mk _ s _ _ _ => s

/-- Field `Num`. -/
def Num : Value → Int
  | mk _ _ n _ _ => n

/-- Field `Bulk`. -/
def Bulk : Value → Bytes
  | mk _ _ _ b _ => b

/-- Field `Array`. -/
def Array : Value → List Value
  | mk _ _ _ _ a => a

/-- The assignment `v.Type = t`. -/
def setTyp : Value → String → Value
  | mk _ s n b a, t => mk t s n b a

/-- The zero value `Value{}`. -/
def zero : Value := mk "" [] 0 [] []

/-- The composite literal `Value{Type: "string", Str: s}`. -/
def SimpleString (s : Bytes) : Value := mk "string" s 0 [] []

/-- The composite literal `Value{Type: "error", Str: s}`. -/
def Error (s : Bytes) : Value := mk "error" s 0 [] []

/-- The composite literal `Value{Type: "integer", Num: n}`. -/
def Integer (n : Int) : Value := mk "integer" [] n [] []

/-- The composite literal `Value{Type: "bulk", Bulk: b}`. -/
def BulkString (b : Bytes) : Value := mk "bulk" [] 0 b []

/-- The composite literal `Value{Type: "null"}`. -/
def Null : Value := mk "null" [] 0 [] []

/-- The composite literal `Value{Type: "array", Array: xs}`. -/
def Arr (xs : List Value) : Value := mk "array" [] 0 [] xs

/-- The composite literal `Value{Type: "ignore"}`. -/
def Ignore : Value := mk "ignore" [] 0 [] []

end Value

/-! ## `resp/writer.go` -/

namespace Writer

mutual
/-- Go `(*Writer).write`: the sink after writing `v` to the sink `out`. -/
def write : Value → Bytes → Bytes
  | .mk ty s num bulk arr, out =>
    if ty = "string" then out ++ ([STRING] ++ s ++ lit "\r\n")
    else if ty = "error" then out ++ ([ERROR] ++ s ++ lit "\r\n")
    else if ty = "integer" then out ++ ([INTEGER] ++ strconv.Itoa num ++ lit "\r\n")
    else if ty = "null" then out ++ lit "$-1\r\n"
    else if ty = "bulk" then
      out ++ ([BULK] ++ strconv.Itoa bulk.length ++ lit "\r\n" ++ bulk ++ lit "\r\n")
    else if ty = "array" then
      writeRange arr (out ++ ([ARRAY] ++ strconv.Itoa arr.length ++ lit "\r\n"))
    else out
/-- The loop `for _, val := range v.Array` of `write`. -/
def writeRange : List Value → Bytes → Bytes
  | [], out => out
  | val :: vals, out => writeRange vals (write val out)
end

/-- Go `(*Writer).Write`: `write` under the writer's mutex. -/
def Write (v : Value) (out : Bytes) : Bytes := write v out

end Writer

/-- The bytes `encode` produces for `v`: what `Writer.Write` puts into an empty
sink. -/
def encode (v : Value) : Bytes := Writer.Write v []

/-! ## `resp/reader.go` -/

namespace Reader

/-- The loop of Go `(*Reader).readLine`: `line` and `n` are the local variables,
the last argument is the stream.  Returns the line without its last two bytes,
the number of bytes read and the remaining stream. -/
def readLineLoop : Bytes → Nat → Bytes → Result (Bytes × Nat × Bytes)
  | _, _, [] => .error .EOF
  | line, n, b :: rest =>
    let n := n + 1
    let line := line ++ [b]
    if line.length ≥ 2 ∧ line.get? (line.length - 2) = some CR then
      .ok (line.take (line.length - 2), n, rest)
    else readLineLoop line n rest

/-- Go `(*Reader).readLine`. -/
def readLine (input : Bytes) : Result (Bytes × Nat × Bytes) :=
  readLineLoop [] 0 input

/-- Go `(*Reader).readInteger`. -/
def readInteger (input : Bytes) : Result (Value × Bytes) :=
  match readLine input with
  | .error e => .error e
  | .panic => .panic
  | .ok (line, _, rest) =>
    match strconv.ParseInt line with
    | none => .error .NumError
    | some i64 => .ok (Value.mk "integer" [] i64 [] [], rest)

/-- Go `(*Reader).readSimpleString`. -/
def readSimpleString (input : Bytes) : Result (Value × Bytes) :=
  match readLine input with
  | .error e => .error e
  | .panic => .panic
  | .ok (line, _, rest) => .ok (Value.mk "string" line 0 [] [], rest)

/-- Go `io.ReadFull(r, buf)` with `len(buf) = n`: the `n` bytes and the remaining
stream; `io.EOF` when no byte could be read, `io.ErrUnexpectedEOF` when fewer than
`n` could. -/
def ReadFull (n : Nat) (input : Bytes) : Result (Bytes × Bytes) :=
  if n ≤ input.length then .ok (input.take n, input.drop n)
  else if input = [] then .error .EOF
  else .error .ErrUnexpectedEOF

/-- Go `(*Reader).readBulk`.  `make([]byte, len)` panics on a negative length and
on a length above `maxAlloc`. -/
def readBulk (input : Bytes) : Result (Value × Bytes) :=
  match readLine input with
  | .error e => .error e
  | .panic => .panic
  | .ok (line, _, rest) =>
    match strconv.ParseInt line with
    | none => .error .NumError
    | some len =>
      if len = -1 then .ok (Value.mk "null" [] 0 [] [], rest)
      else if len < 0 ∨ (maxAlloc : Int) < len then .panic
      else
        match ReadFull len.toNat rest with
        | .error e => .error e
        | .panic => .panic
        | .ok (bulk, rest) =>
          match readLine rest with
          | .error e => .error e
          | .panic => .panic
          | .ok (_, _, rest) => .ok (Value.mk "bulk" [] 0 bulk [], rest)

/-- The loop `for i := 0; i < int(len); i++` of Go `(*Reader).readArray`: the
first argument is `r.Read`, the second the number of iterations still to run, the
third `v.Array`. -/
def readArrayLoop (Read : Bytes → Result (Value × Bytes)) :
    Nat → List Value → Bytes → Result (Value × Bytes)
  | 0, arr, input => .ok (Value.mk "array" [] 0 [] arr, input)
  | n + 1, arr, input =>
    match Read input with
    | .error e => .error e
    | .panic => .panic
    | .ok (val, rest) => readArrayLoop Read n (arr ++ [val]) rest

/-- Go `(*Reader).readArray`, given `r.Read`.  `make([]Value, 0, len)` panics on a
negative capacity and on a capacity of more than `maxAlloc` bytes. -/
def readArray (Read : Bytes → Result (Value × Bytes)) (input : Bytes) :
    Result (Value × Bytes) :=
  match readLine input with
  | .error e => .error e
  | .panic => .panic
  | .ok (line, _, rest) =>
    match strconv.ParseInt line with
    | none => .error .NumError
    | some len =>
      if len < 0 ∨ (maxAlloc : Int) < len * sizeofValue then .panic
      else readArrayLoop Read len.toNat [] rest

/-- Go `(*Reader).Read` with a bound `fuel` on the nesting of the recursion
`Read → readArray → Read`.  Every nested call is on a strictly shorter stream, so
a bound above the length of the stream is never used up (`ReadFuel_eq_Read`). -/
def ReadFuel : Nat → Bytes → Result (Value × Bytes)
  | 0, _ => .error .EOF
  | _ + 1, [] => .error .EOF
  | fuel + 1, _type :: rest =>
    if _type = ARRAY then readArray (fun input => ReadFuel fuel input) rest
    else if _type = BULK then readBulk rest
    else if _type = STRING then readSimpleString rest
    else if _type = ERROR then
      match readSimpleString rest with
      | .ok (v, rest) => .ok (v.setTyp "error", rest)
      | .error e => .error e
      | .panic => .panic
    else if _type = INTEGER then readInteger rest
    else .error (.unknownType _type)

/-- Go `(*Reader).Read`: one value off the front of the stream, and the stream
that remains. -/
def Read (input : Bytes) : Result (Value × Bytes) :=
  ReadFuel (input.length + 1) input

end Reader

/-- What `decode` returns on the bytes `input`: the value `Reader.Read` returns, or
its error. -/
def decode (input : Bytes) : Result Value :=
  match Reader.Read input with
  | .ok (v, _) => .ok v
  | .error e => .error e
  | .panic => .panic

end resp

end Gedis

namespace Gedis.resp
mutual
/-- Equality of values is decidable. -/
def Value.decEq : (a b : Value) → Decidable (a = b)
  | .mk t1 s1 n1 b1 a1, .mk t2 s2 n2 b2 a2 =>
    if ht : t1 = t2 then
      if hs : s1 = s2 then
        if hn : n1 = n2 then
          if hb : b1 = b2 then
            match Value.decEqList a1 a2 with
            | isTrue ha => isTrue (by rw [ht, hs, hn, hb, ha])
            | isFalse ha => isFalse (fun h => ha (by injection h))
          else isFalse (fun h => hb (by injection h))
        else isFalse (fun h => hn (by injection h))
      else isFalse (fun h => hs (by injection h))
    else isFalse (fun h => ht (by injection h))
/-- Equality of lists of values is decidable. -/
def Value.decEqList : (a b : List Value) → Decidable (a = b)
  | [], [] => isTrue rfl
  | [], _ :: _ => isFalse (fun h => by cases h)
  | _ :: _, [] => isFalse (fun h => by cases h)
  | x :: xs, y :: ys =>
    match Value.decEq x y with
    | isTrue hx =>
      match Value.decEqList xs ys with
      | isTrue hxs => isTrue (by rw [hx, hxs])
      | isFalse hxs => isFalse (fun h => hxs (by injection h))
    | isFalse hx => isFalse (fun h => hx (by injection h))
end

instance : DecidableEq Value := Value.decEq
end Gedis.resp

namespace Gedis

/-- The usual decimal numeral of a natural number, most significant digit first,
as ASCII bytes: `0` is `"0"`, and a positive number has no leading zero. -/
def natDecimal (n : Nat) : Bytes :=
  if n = 0 then [48] else (Nat.digits 10 n).reverse.map (fun d => 48 + d)

/-- The decimal numeral of an integer, with a leading `-` when it is negative. -/
def decimal (i : Int) : Bytes :=
  if i < 0 then 45 :: natDecimal i.natAbs else natDecimal i.natAbs

/-- A base-10 integer numeral: an optional sign, then one or more decimal digits. -/
def IsBase10Integer (s : Bytes) : Prop :=
  match s with
  | [] => False
  | c :: cs =>
    if c = 43 ∨ c = 45 then cs ≠ [] ∧ ∀ d ∈ cs, 48 ≤ d ∧ d ≤ 57
    else ∀ d ∈ c :: cs, 48 ≤ d ∧ d ≤ 57

instance (s : Bytes) : Decidable (IsBase10Integer s) := by
  unfold IsBase10Integer
  split
  · infer_instance
  · infer_instance

namespace aof

/-- The loop of Go `(*Aof).Read` over the bytes of the file: `fn` is the callback,
as a function from the state it acts on and the value to the new state.  The loop
ends without error on `io.EOF` and with the error on any other.  `fuel` bounds the
number of iterations; every iteration consumes at least one byte. -/
def ReadLoop {σ : Type} (fn : σ → resp.Value → σ) : Nat → σ → Bytes → Result σ
  | 0, s, _ => .ok s
  | fuel + 1, s, input =>
    match resp.Reader.Read input with
    | .error e => if e = Err.EOF then .ok s else .error e
    | .panic => .panic
    | .ok (value, rest) => ReadLoop fn fuel (fn s value) rest

/-- Go `(*Aof).Read` on a file with the content `file`: seek to the start, then
decode values until the end of the stream, calling `fn` on each. -/
def Read {σ : Type} (fn : σ → resp.Value → σ) (s : σ) (file : Bytes) : Result σ :=
  ReadLoop fn (file.length + 1) s file

end aof

namespace resp

/-- A client request: an array of bulk strings of arbitrary bytes. -/
def Value.IsRequest (v : Value) : Prop :=
  ∃ args : List Bytes, args.length * sizeofValue ≤ maxAlloc ∧
    (∀ b ∈ args, b.length ≤ maxAlloc) ∧
    v = Value.Arr (args.map Value.BulkString)

end resp
end Gedis

namespace Gedis
namespace resp

/-- Values built from the six wire variants, to any nesting depth.  `P` is a
condition on the text of every simple string and error.  An integer is a Go `int`;
a Go string or slice has been allocated, so its size in bytes is at most
`maxAlloc`. -/
inductive Value.Built (P : Bytes → Prop) : Value → Prop where
  | SimpleString (s : Bytes) : P s → Value.Built P (Value.SimpleString s)
  | Error (s : Bytes) : P s → Value.Built P (Value.Error s)
  | Integer (n : Int) : -2 ^ 63 ≤ n → n < 2 ^ 63 → Value.Built P (Value.Integer n)
  | BulkString (b : Bytes) : b.length ≤ maxAlloc → Value.Built P (Value.BulkString b)
  | Null : Value.Built P Value.Null
  | Arr (xs : List Value) : xs.length * sizeofValue ≤ maxAlloc →
      (∀ x ∈ xs, Value.Built P x) →
      Value.Built P (Value.Arr xs)

/-- Every value that can be built from the six wire variants. -/
def Value.Constructible (v : Value) : Prop := Value.Built (fun _ => True) v

/-- The constructible values in which no simple string and no error text holds a
CR byte. -/
def Value.LineSafe (v : Value) : Prop := Value.Built (fun s => CR ∉ s) v

/-- What `decode` reports on a truncated stream: an error. -/
def Reader.Fails (p : Bytes) : Prop := ∃ e, Reader.Read p = .error e

end resp
end Gedis

namespace Gedis
open resp

/-! ## `strings`, `time` -/

namespace strings

/-- Go `strings.ToUpper` on ASCII text: the letters `a`..`z` become `A`..`Z`, every
other byte stays.  (On a string with a byte outside ASCII Go maps rune by rune
through the Unicode tables; no rune outside ASCII has its upper case among the
letters `E`, `P`, `X`, so the comparisons with `"EX"` and `"PX"` in `set` come out
the same.) -/
def ToUpper (s : Bytes) : Bytes :=
  s.map (fun c => if 97 ≤ c ∧ c ≤ 122 then c - 32 else c)

end strings

namespace time

/-- The result of an `int64` operation whose exact result is `x`: Go wraps around
in two's complement. -/
def wrapInt64 (x : Int) : Int := (x + 2 ^ 63) % 2 ^ 64 - 2 ^ 63

/-- Go `time.Second`, in nanoseconds. -/
def Second : Int := 1000000000

/-- Go `time.Millisecond`, in nanoseconds. -/
def Millisecond : Int := 1000000

/-- The product `time.Duration(n) * unit` of the source, an `int64` product. -/
def Duration (n unit : Int) : Int := wrapInt64 (n * unit)

/-- Go `Time.Add`. -/
def Add (t d : Int) : Int := t + d

/-- Go `Time.Before`. -/
def Before (t u : Int) : Bool := decide (t < u)

/-- Go `Time.Sub`: the difference as a `Duration`, which saturates at the least and
the greatest `int64`. -/
def Sub (t u : Int) : Int :=
  if t - u > 2 ^ 63 - 1 then 2 ^ 63 - 1
  else if t - u < -2 ^ 63 then -2 ^ 63
  else t - u

/-- Go `time.Until(t)`, at the instant `now`. -/
def Until (t now : Int) : Int := Sub t now

end time

/-! ## `handler.go`: the store -/

/-- Go `StorageEntry`; a nil `ExpiresAt` is `none`. -/
structure StorageEntry where
  Value : Bytes
  ExpiresAt : Option Int
  deriving DecidableEq, Repr

/-- The global `kv`, a Go `map[string]StorageEntry`: the entry of each key, if
any. -/
abbrev Store := Bytes → Option StorageEntry

namespace Store

/-- The empty map. -/
def empty : Store := fun _ => none

/-- Go `delete(kv, key)`. -/
def delete (kv : Store) (key : Bytes) : Store :=
  fun k => if k = key then none else kv k

/-- Go `kv[key] = entry`. -/
def insert (kv : Store) (key : Bytes) (entry : StorageEntry) : Store :=
  fun k => if k = key then some entry else kv k

end Store

/-- The test `entry.ExpiresAt != nil && entry.ExpiresAt.Before(time.Now())` of
`get`, `exists`, `ttl` and the expiration job. -/
def StorageEntry.expired (entry : StorageEntry) (now : Int) : Bool :=
  match entry.ExpiresAt with
  | some t => time.Before t now
  | none => false

/-- The loop `for i := 2; i < len(args); i++` of Go `set`: `i` is the loop
variable and the last argument the local `expiresAt`.  The result is the error
reply of an early return, or `expiresAt` when the loop ends.  Every iteration
raises `i`, so `fuel = len(args)` iterations are never used up. -/
def setLoop (args : List Value) (now : Int) : Nat → Nat → Option Int → Except Value (Option Int)
  | 0, _, expiresAt => .ok expiresAt
  | fuel + 1, i, expiresAt =>
    match args[i]? with
    | none => .ok expiresAt
    | some argi =>
      let arg := strings.ToUpper argi.Bulk
      if arg = lit "EX" then
        match args[i + 1]? with
        | none => .error (Value.Error (lit "ERR syntax error"))
        | some argn =>
          match strconv.Atoi argn.Bulk with
          | none => .error (Value.Error (lit "ERR value is not an integer or out of range"))
          | some seconds =>
            setLoop args now fuel (i + 1 + 1)
              (some (time.Add now (time.Duration seconds time.Second)))
      else if arg = lit "PX" then
        match args[i + 1]? with
        | none => .error (Value.Error (lit "ERR syntax error"))
        | some argn =>
          match strconv.Atoi argn.Bulk with
          | none => .error (Value.Error (lit "ERR value is not an integer or out of range"))
          | some millis =>
            setLoop args now fuel (i + 1 + 1)
              (some (time.Add now (time.Duration millis time.Millisecond)))
      else setLoop args now fuel (i + 1) expiresAt

/-- Go `set`, called at the instant `now` on the store `kv`: the reply and the
store afterwards. -/
def set (args : List Value) (now : Int) (kv : Store) : Value × Store :=
  match args with
  | key :: value :: _ =>
    match setLoop args now args.length 2 none with
    | .error reply => (reply, kv)
    | .ok expiresAt =>
      (Value.SimpleString (lit "OK"), kv.insert key.Bulk ⟨value.Bulk, expiresAt⟩)
  | _ => (Value.Error (lit "ERR wrong number of arguments for 'set' command"), kv)

/-- Go `get`, called at the instant `now` on the store `kv`. -/
def get (args : List Value) (now : Int) (kv : Store) : Value × Store :=
  match args with
  | [arg] =>
    let key := arg.Bulk
    match kv key with
    | none => (Value.Null, kv)
    | some entry =>
      if entry.expired now then (Value.Null, kv.delete key)
      else (Value.BulkString entry.Value, kv)
  | _ => (Value.Error (lit "ERR wrong number of arguments for 'get' command"), kv)

/-- The loop `for _, arg := range args` of Go `del`, with the local
`deletedCount`. -/
def delLoop : List Value → Int → Store → Int × Store
  | [], deletedCount, kv => (deletedCount, kv)
  | arg :: args, deletedCount, kv =>
    let key := arg.Bulk
    match kv key with
    | some _ => delLoop args (deletedCount + 1) (kv.delete key)
    | none => delLoop args deletedCount kv

/-- Go `del` on the store `kv`.  (It does not read the clock.) -/
def del (args : List Value) (kv : Store) : Value × Store :=
  match args with
  | [] => (Value.Error (lit "ERR wrong number of arguments for 'del' command"), kv)
  | _ :: _ => ((Value.Integer (delLoop args 0 kv).1), (delLoop args 0 kv).2)

/-- The loop `for _, arg := range args` of Go `exists`, with the local `count`.
The test of the expiry calls `time.Now()` anew in every iteration: `now i` is the
instant it returns in the iteration of position `i`, and the second argument is the
position of the head of the list. -/
def existsLoop (now : Nat → Int) : List Value → Nat → Int → Store → Int × Store
  | [], _, count, kv => (count, kv)
  | arg :: args, i, count, kv =>
    let key := arg.Bulk
    match kv key with
    | some entry =>
      if entry.expired (now i) then existsLoop now args (i + 1) count (kv.delete key)
      else existsLoop now args (i + 1) (count + 1) kv
    | none => existsLoop now args (i + 1) count kv

/-- Go `exists` on the store `kv`; `now i` is the reading of the clock in the
iteration of position `i`. -/
def «exists» (args : List Value) (now : Nat → Int) (kv : Store) : Value × Store :=
  match args with
  | [] => (Value.Error (lit "ERR wrong number of arguments for 'exists' command"), kv)
  | _ :: _ => ((Value.Integer (existsLoop now args 0 0 kv).1), (existsLoop now args 0 0 kv).2)

end Gedis

namespace Gedis
open resp

/-- Whether the store holds, at the instant `now`, an entry for `key` that has not
expired: an entry that `get` returns. -/
def Store.live (kv : Store) (now : Int) (key : Bytes) : Bool :=
  match kv key with
  | some entry => !entry.expired now
  | none => false

/-- Whether two bytes are the same letter up to case, or the same byte. -/
def sameIgnoringCase (x y : Nat) : Bool :=
  x = y || (65 ≤ x && x ≤ 90 && y = x + 32) || (65 ≤ y && y ≤ 90 && x = y + 32)

/-- Whether two texts are equal ignoring the case of their letters. -/
def equalsIgnoringCase : Bytes → Bytes → Bool
  | [], [] => true
  | x :: xs, y :: ys => sameIgnoringCase x y && equalsIgnoringCase xs ys
  | _, _ => false

/-- The number a sequence of decimal digits denotes. -/
def digitsValue (ds : Bytes) : Nat := ds.foldl (fun acc d => 10 * acc + (d - 48)) 0

/-- The integer a base-10 numeral denotes, of whatever size; `none` when the text
is not a base-10 integer. -/
def base10Value (s : Bytes) : Option Int :=
  if IsBase10Integer s then
    match s with
    | [] => none
    | c :: cs =>
      if c = 45 then some (-(digitsValue cs : Int))
      else if c = 43 then some (digitsValue cs : Int)
      else some (digitsValue (c :: cs) : Int)
  else none

/-- The integer of a base-10 numeral whose value fits a signed 64-bit integer. -/
def int64Value (s : Bytes) : Option Int :=
  match base10Value s with
  | some n => if -2 ^ 63 ≤ n ∧ n < 2 ^ 63 then some n else none
  | none => none

/-- An option of `SET` with its numeric argument. -/
inductive SetOption where
  | EX (seconds : Int)
  | PX (millis : Int)
  deriving DecidableEq, Repr

/-- The expiry an option asks for, for a `SET` executed at `now`: the given number
of seconds, or of milliseconds, after the call.  Times are in nanoseconds. -/
def SetOption.expiry (now : Int) : SetOption → Int
  | .EX seconds => now + seconds * 1000000000
  | .PX millis => now + millis * 1000000

/-- The expiry Go `set` computes for an option at the instant `now`:
`time.Now().Add(time.Duration(n) * unit)`. -/
def SetOption.stored (now : Int) : SetOption → Int
  | .EX seconds => time.Add now (time.Duration seconds time.Second)
  | .PX millis => time.Add now (time.Duration millis time.Millisecond)

/-- The duration of the option in nanoseconds fits a signed 64-bit integer. -/
def SetOption.fits : SetOption → Prop
  | .EX seconds => -2 ^ 63 ≤ seconds * 1000000000 ∧ seconds * 1000000000 < 2 ^ 63
  | .PX millis => -2 ^ 63 ≤ millis * 1000000 ∧ millis * 1000000 < 2 ^ 63

instance (opt : SetOption) : Decidable opt.fits := by
  cases opt <;> unfold SetOption.fits <;> infer_instance

/-- The single left-to-right pass over the arguments of `SET` after the key and
the value, as the specification words it: a token equal to EX or PX ignoring case
consumes the next argument; `value` tells which arguments are integers; the
second argument is the last option scanned so far.  An option token in last place
is a syntax error, a consumed argument that is no integer a not-an-integer error. -/
def scanSetOptions (value : Bytes → Option Int) :
    List Bytes → Option SetOption → Except Value (Option SetOption)
  | [], last => .ok last
  | [tok], last =>
    if equalsIgnoringCase tok (lit "EX") || equalsIgnoringCase tok (lit "PX") then
      .error (Value.Error (lit "ERR syntax error"))
    else .ok last
  | tok :: n :: rest, last =>
    if equalsIgnoringCase tok (lit "EX") then
      match value n with
      | none => .error (Value.Error (lit "ERR value is not an integer or out of range"))
      | some seconds => scanSetOptions value rest (some (.EX seconds))
    else if equalsIgnoringCase tok (lit "PX") then
      match value n with
      | none => .error (Value.Error (lit "ERR value is not an integer or out of range"))
      | some millis => scanSetOptions value rest (some (.PX millis))
    else scanSetOptions value (n :: rest) last

/-- The outcome of `SET key value options...` that the specification describes,
given which arguments count as integers: the error reply of the pass and the store
unchanged, or `OK` and the key mapped to the value with the expiry of the last
option scanned, or with none. -/
def setOutcome (value : Bytes → Option Int) (key val : Bytes) (options : List Bytes)
    (now : Int) (kv : Store) : Value × Store :=
  match scanSetOptions value options none with
  | .error reply => (reply, kv)
  | .ok last =>
    (Value.SimpleString (lit "OK"), kv.insert key ⟨val, last.map (SetOption.expiry now)⟩)

end Gedis

namespace Gedis
open resp

/-! ## `float64` -/

namespace float64

/-- Rounding of a rational to the nearest integer, a tie going to the even one. -/
def roundHalfEven (x : ℚ) : ℤ :=
  if x - ⌊x⌋ < 1 / 2 then ⌊x⌋
  else if 1 / 2 < x - ⌊x⌋ then ⌊x⌋ + 1
  else if ⌊x⌋ % 2 = 0 then ⌊x⌋ else ⌊x⌋ + 1

/-- The value of the IEEE 754 binary64 number nearest to the rational `q` (round to
nearest, ties to even): `q` is rounded to a multiple of `2 ^ (e - 52)`, where
`2 ^ e <= |q| < 2 ^ (e + 1)`.  Exponent overflow and subnormal numbers are not
modelled; the durations of the source stay far from both. -/
def round (q : ℚ) : ℚ :=
  if q = 0 then 0
  else (roundHalfEven (q / 2 ^ (Int.log 2 |q| - 52)) : ℚ) * 2 ^ (Int.log 2 |q| - 52)

/-- The Go conversion `int(f)` of a `float64`: the fraction is dropped. -/
def toInt (f : ℚ) : Int := if 0 ≤ f then ⌊f⌋ else ⌈f⌉

end float64

namespace time

/-- Go `Duration.Seconds`:
`sec := d / Second; nsec := d % Second; return float64(sec) + float64(nsec)/1e9`,
every conversion and operation rounded to `float64`. -/
def Seconds (d : Int) : ℚ :=
  float64.round (float64.round (Int.tdiv d Second : Int)
    + float64.round (float64.round (Int.tmod d Second : Int) / float64.round 1000000000))

end time

/-- Go `ttl`, called at the instant `now` on the store `kv`. -/
def ttl (args : List Value) (now : Int) (kv : Store) : Value × Store :=
  match args with
  | [arg] =>
    let key := arg.Bulk
    match kv key with
    | none => (Value.Integer (-2), kv)
    | some entry =>
      if entry.expired now then (Value.Integer (-2), kv.delete key)
      else
        match entry.ExpiresAt with
        | none => (Value.Integer (-1), kv)
        | some expiresAt =>
          (Value.Integer (float64.toInt (time.Seconds (time.Until expiresAt now))), kv)
  | _ => (Value.Error (lit "ERR wrong number of arguments for 'ttl' command"), kv)

end Gedis

namespace Gedis
open resp

/-! ## `handler.go`: the stateless handlers, pub/sub and the expiration job;
`main.go`: the dispatcher and the replay -/

/-- Go `command`. -/
def command (_args : List Value) : Value := Value.Arr []

/-- Go `client`. -/
def client (_args : List Value) : Value := Value.SimpleString (lit "OK")

/-- Go `info`. -/
def info (_args : List Value) : Value := Value.BulkString (lit "role:master")

/-- Go `selectDB`. -/
def selectDB (_args : List Value) : Value := Value.SimpleString (lit "OK")

/-- Go `ping`. -/
def ping (args : List Value) : Value :=
  match args with
  | [] => Value.SimpleString (lit "PONG")
  | arg :: _ => Value.SimpleString arg.Bulk

/-- Go `echo`. -/
def echo (args : List Value) : Value :=
  match args with
  | [arg] => Value.BulkString arg.Bulk
  | _ => Value.Error (lit "ERR wrong number of arguments for 'echo' command")

/-- The state the dispatcher and the handlers act on.  A `*resp.Writer` is named by
a number, the connection it writes to. -/
structure World where
  /-- The global `kv`. -/
  kv : Store
  /-- The global `PubSub.Subs`, a Go `map[string][]*resp.Writer`. -/
  Subs : Bytes → Option (List Nat)
  /-- The bytes written so far through each writer. -/
  out : Nat → Bytes
  /-- The content of the append-only file; the file offset is at its end. -/
  aofFile : Bytes
  /-- The goroutines `go func(writer *resp.Writer) { writer.Write(v) }(sub)` that
  `publish` has started, as pairs of `sub` and `v`, in the order of their start.
  Each runs on its own, at some later time. -/
  started : List (Nat × Value)

namespace World

/-- The state at process start, with the append-only file `file`: the initial
values of the globals. -/
def init (file : Bytes) : World :=
  ⟨Store.empty, fun _ => none, fun _ => [], file, []⟩

/-- The call `w.Write(v)` on the writer `w`. -/
def write (st : World) (w : Nat) (v : Value) : World :=
  { st with out := fun i => if i = w then Writer.Write v (st.out i) else st.out i }

end World

/-- The loop `for i, arg := range args` of Go `subscribe` for the writer `w`; the
second argument is the index `i`. -/
def subscribeLoop (w : Nat) : List Value → Nat → World → World
  | [], _, st => st
  | arg :: args, i, st =>
    let channel := arg.Bulk
    let st := { st with
      Subs := fun c => if c = channel then some ((st.Subs channel).getD [] ++ [w]) else st.Subs c }
    let response := Value.Arr
      [Value.BulkString (lit "subscribe"), Value.BulkString channel, Value.Integer ((i : Int) + 1)]
    subscribeLoop w args (i + 1) (st.write w response)

/-- Go `subscribe`; `w` is the writer, `none` the nil pointer the replay passes, on
which `w.Write` panics. -/
def subscribe (args : List Value) (w : Option Nat) (st : World) : Result (Value × World) :=
  match w with
  | some w => .ok (Value.Ignore, subscribeLoop w args 0 st)
  | none =>
    match args with
    | [] => .ok (Value.Ignore, st)
    | _ :: _ => .panic

/-- The loop `for _, sub := range subscribers` of Go `publish`, with the local
`count` and the goroutines started so far. -/
def publishLoop (channel message : Bytes) :
    List Nat → Int → List (Nat × Value) → Int × List (Nat × Value)
  | [], count, started => (count, started)
  | sub :: subscribers, count, started =>
    publishLoop channel message subscribers (count + 1)
      (started ++ [(sub, Value.Arr [Value.BulkString (lit "message"),
        Value.BulkString channel, Value.BulkString message])])

/-- Go `publish`. -/
def publish (args : List Value) (st : World) : Value × World :=
  match args with
  | [arg0, arg1] =>
    let channel := arg0.Bulk
    let message := arg1.Bulk
    match st.Subs channel with
    | none => (Value.Integer 0, st)
    | some subscribers =>
      (Value.Integer (publishLoop channel message subscribers 0 st.started).1,
        { st with started := (publishLoop channel message subscribers 0 st.started).2 })
  | _ => (Value.Error (lit "ERR wrong number of arguments for 'publish' command"), st)

/-- The loop `for k, v := range kv` of the expiration job at the instant `now`:
the first argument lists the keys in the order in which the range visits them, the
second is `sampleCount`. -/
def expirationLoop (now : Int) : List Bytes → Int → Store → Store
  | [], _, kv => kv
  | k :: ks, sampleCount, kv =>
    let kv :=
      match kv k with
      | some v => if v.expired now then kv.delete k else kv
      | none => kv
    if sampleCount - 1 ≤ 0 then kv else expirationLoop now ks (sampleCount - 1) kv

/-- One tick of the goroutine of Go `StartExpirationJob` at the instant `now`;
`order` lists the keys in the order in which the range over the map visits
them. -/
def expirationTick (order : List Bytes) (now : Int) (kv : Store) : Store :=
  expirationLoop now order 20 kv

/-- The type of the entries of `Handlers`: arguments, writer, the clock and the
state, to the reply and the state afterwards.  The clock `now` gives the readings
of `time.Now()` during the call: `exists` reads it at every position of its key
list; `get`, `ttl` and `set` are given the one reading `now 0` (for `set` the
reading of the last option, which is the one stored). -/
abbrev Handler := List Value → Option Nat → (Nat → Int) → World → Result (Value × World)

/-- A handler that only computes a reply. -/
def Handler.pure (f : List Value → Value) : Handler :=
  fun args _ _ st => .ok (f args, st)

/-- A handler that acts on the store. -/
def Handler.store (f : List Value → (Nat → Int) → Store → Value × Store) : Handler :=
  fun args _ now st => .ok ((f args now st.kv).1, { st with kv := (f args now st.kv).2 })

/-- The global `Handlers`, a Go map from the command name to its handler. -/
def Handlers (name : Bytes) : Option Handler :=
  if name = lit "PING" then some (Handler.pure ping)
  else if name = lit "ECHO" then some (Handler.pure echo)
  else if name = lit "SET" then some (Handler.store (fun args now kv => set args (now 0) kv))
  else if name = lit "GET" then some (Handler.store (fun args now kv => get args (now 0) kv))
  else if name = lit "DEL" then some (Handler.store (fun args _ kv => del args kv))
  else if name = lit "EXISTS" then some (Handler.store «exists»)
  else if name = lit "TTL" then some (Handler.store (fun args now kv => ttl args (now 0) kv))
  else if name = lit "SUBSCRIBE" then some (fun args w _ st => subscribe args w st)
  else if name = lit "PUBLISH" then some (fun args _ _ st => .ok (publish args st))
  else if name = lit "COMMAND" then some (Handler.pure command)
  else if name = lit "CLIENT" then some (Handler.pure client)
  else if name = lit "INFO" then some (Handler.pure info)
  else if name = lit "SELECT" then some (Handler.pure selectDB)
  else none

/-- The body of the loop of Go `handleConnection` after a successful read of
`value`, for the connection `conn`, run without a step of another goroutine in
between; `now` is the clock of the handler.  `ToUpper` is Go's `strings.ToUpper`, a
parameter here because `strings.ToUpper` of this development is exact on ASCII text
only. -/
def handleRequest (ToUpper : Bytes → Bytes) (conn : Nat) (now : Nat → Int) (value : Value)
    (st : World) : Result World :=
  if value.Typ ≠ "array" then .ok st
  else
    match value.Array with
    | [] => .ok st
    | first :: args =>
      let command := ToUpper first.Bulk
      match Handlers command with
      | none =>
        .ok (st.write conn (Value.Error (lit "ERR unknown command '" ++ command ++ lit "'")))
      | some handler =>
        let st :=
          if command = lit "SET" ∨ command = lit "DEL" then
            { st with aofFile := Writer.Write value st.aofFile }
          else st
        match handler args (some conn) now st with
        | .error e => .error e
        | .panic => .panic
        | .ok (result, st) =>
          if result.Typ = "ignore" then .ok st else .ok (st.write conn result)

/-- The first part of the body of the loop of `handleConnection`, up to and with the
statement `if command == "SET" || command == "DEL" { aofFile.Write(value) }`:
`aofFile.Write` holds the mutex of the file and no other.  The statement is reached
for a request of type array whose first element, upper-cased, is a key of
`Handlers`. -/
def logRequest (ToUpper : Bytes → Bytes) (value : Value) (st : World) : World :=
  if value.Typ ≠ "array" then st
  else
    match value.Array with
    | [] => st
    | first :: _ =>
      let command := ToUpper first.Bulk
      match Handlers command with
      | none => st
      | some _ =>
        if command = lit "SET" ∨ command = lit "DEL" then
          { st with aofFile := Writer.Write value st.aofFile }
        else st

/-- The second part of the body of the loop of `handleConnection`: the Error for an
unknown command, or `result := handler(args, writer)` and the write of the reply.
The handlers of the store hold the mutex of the store and no other, so the
goroutine of another connection can run between `logRequest` and `runRequest`. -/
def runRequest (ToUpper : Bytes → Bytes) (conn : Nat) (now : Nat → Int) (value : Value)
    (st : World) : Result World :=
  if value.Typ ≠ "array" then .ok st
  else
    match value.Array with
    | [] => .ok st
    | first :: args =>
      let command := ToUpper first.Bulk
      match Handlers command with
      | none =>
        .ok (st.write conn (Value.Error (lit "ERR unknown command '" ++ command ++ lit "'")))
      | some handler =>
        match handler args (some conn) now st with
        | .error e => .error e
        | .panic => .panic
        | .ok (result, st) =>
          if result.Typ = "ignore" then .ok st else .ok (st.write conn result)

/-- The loop of Go `handleConnection` for the connection `conn` on the bytes `input`
that arrive on it, while no other goroutine runs: the `i`-th request is handled
with the clock `clock i`.  A read error ends the loop.  `fuel` bounds the number of
iterations; every iteration consumes at least one byte. -/
def handleConnectionLoop (ToUpper : Bytes → Bytes) (conn : Nat) (clock : Nat → Nat → Int) :
    Nat → Nat → Bytes → World → Result World
  | 0, _, _, st => .ok st
  | fuel + 1, i, input, st =>
    match Reader.Read input with
    | .error _ => .ok st
    | .panic => .panic
    | .ok (value, rest) =>
      match handleRequest ToUpper conn (clock i) value st with
      | .error e => .error e
      | .panic => .panic
      | .ok st => handleConnectionLoop ToUpper conn clock fuel (i + 1) rest st

/-- Go `handleConnection` on the bytes `input`, the requests counted from `i`. -/
def handleConnection (ToUpper : Bytes → Bytes) (conn : Nat) (clock : Nat → Nat → Int) (i : Nat)
    (input : Bytes) (st : World) : Result World :=
  handleConnectionLoop ToUpper conn clock (input.length + 1) i input st

/-- The loop of `handleConnection` for the one connection `conn` on the values that
its reader returns one after the other, while no other goroutine runs: the `i`-th
request is handled with the clock `clock i`. -/
def handleRequests (ToUpper : Bytes → Bytes) (conn : Nat) (clock : Nat → Nat → Int) :
    List Value → Nat → World → Result World
  | [], _, st => .ok st
  | value :: values, i, st =>
    match handleRequest ToUpper conn (clock i) value st with
    | .error e => .error e
    | .panic => .panic
    | .ok st => handleRequests ToUpper conn clock values (i + 1) st

namespace main

/-- The callback that Go `main` passes to `aofFile.Read`, called with the clock
`now`: `value.Array[0]` panics on an empty array, the handler runs with a nil
writer, its reply is dropped. -/
def replayCallback (ToUpper : Bytes → Bytes) (now : Nat → Int) (st : World) (value : Value) :
    Result World :=
  match value.Array with
  | [] => .panic
  | first :: args =>
    let command := ToUpper first.Bulk
    match Handlers command with
    | none => .ok st
    | some handler =>
      match handler args none now st with
      | .error e => .error e
      | .panic => .panic
      | .ok (_, st) => .ok st

/-- The callback as a step on the outcome so far and the number of records
replayed: after a panic nothing more happens. -/
def replayStep (ToUpper : Bytes → Bytes) (clock : Nat → Nat → Int) (s : Result (World × Nat))
    (value : Value) : Result (World × Nat) :=
  match s with
  | .ok (st, i) =>
    match replayCallback ToUpper (clock i) st value with
    | .ok st => .ok (st, i + 1)
    | .error e => .error e
    | .panic => .panic
  | .error e => .error e
  | .panic => .panic

/-- The replay at the start of Go `main`: `aofFile.Read` with the callback, on the
initial state with the file `file`; the `i`-th record is applied with the clock
`clock i`.  The result is the state when the file has been read to its end without
a decode error. -/
def replay (ToUpper : Bytes → Bytes) (clock : Nat → Nat → Int) (file : Bytes) : Result World :=
  match aof.Read (replayStep ToUpper clock) (.ok (World.init file, 0)) file with
  | .ok (.ok (st, _)) => .ok st
  | .ok (.error e) => .error e
  | .ok .panic => .panic
  | .error e => .error e
  | .panic => .panic

end main

/-- A value that `decode` returns on some bytes: a value that can reach the
dispatcher. -/
def resp.Value.Decoded (v : Value) : Prop :=
  ∃ input rest, Reader.Read input = .ok (v, rest)

/-- Whether a request is a `SET` that carries an `EX` or `PX` option: an argument
after the key and the value equal to EX or PX ignoring case. -/
def carriesExpiryOption (ToUpper : Bytes → Bytes) (value : Value) : Prop :=
  ∃ first args, value.Array = first :: args ∧ ToUpper first.Bulk = lit "SET" ∧
    ∃ a ∈ args.drop 2,
      equalsIgnoringCase a.Bulk (lit "EX") = true ∨ equalsIgnoringCase a.Bulk (lit "PX") = true

end Gedis

namespace Gedis
open resp

/-- The state after the `k`-th of the started goroutines has run: its `Write` is
done and it is gone from the list. -/
def World.run (st : World) (k : Nat) : World :=
  match st.started[k]? with
  | none => st
  | some (sub, v) => { st.write sub v with started := st.started.eraseIdx k }

/-- The notification `publish` hands to a subscriber. -/
def notification (channel message : Bytes) : Value :=
  Value.Arr [Value.BulkString (lit "message"), Value.BulkString channel,
    Value.BulkString message]

/-- The confirmations of a `SUBSCRIBE` call for the channel arguments `args`, the
first of them numbered `i + 1`. -/
def confirmations : List Value → Nat → List Value
  | [], _ => []
  | arg :: args, i =>
    Value.Arr [Value.BulkString (lit "subscribe"), Value.BulkString arg.Bulk,
      Value.Integer ((i : Int) + 1)] :: confirmations args (i + 1)

end Gedis

namespace Gedis
open resp

/-- The keys of the Go map `Handlers`. -/
def registeredNames : List Bytes :=
  [lit "PING", lit "ECHO", lit "SET", lit "GET", lit "DEL", lit "EXISTS", lit "TTL",
    lit "SUBSCRIBE", lit "PUBLISH", lit "COMMAND", lit "CLIENT", lit "INFO", lit "SELECT"]

/-- A store none of whose entries has an expiry. -/
def Store.NoExpiry (kv : Store) : Prop := ∀ k entry, kv k = some entry → entry.ExpiresAt = none

/-- The relation between a state of the dispatcher and its log that every step keeps
when no entry has an expiry: the log is the encoding of a list of decodable values,
and applying the replay callback to them in order, from any state with an empty
store, gives the store of the state. -/
def ReplayInv (ToUpper : Bytes → Bytes) (st : World) : Prop :=
  ∃ records : List Value, st.aofFile = (records.map encode).flatten ∧
    (∀ v ∈ records, v.LineSafe) ∧ st.kv.NoExpiry ∧
    ∀ (clock : Nat → Nat → Int) (w0 : World) (n : Nat), w0.kv = Store.empty →
      ∃ w, records.foldl (main.replayStep ToUpper clock) (.ok (w0, n))
          = .ok (w, n + records.length) ∧ w.kv = st.kv

end Gedis

namespace Gedis
open resp

namespace strconv

theorem formatBits_append (fuel n : Nat) (acc : Bytes) :
    formatBits fuel n acc = formatBits fuel n [] ++ acc := by
  induction fuel generalizing n acc with
  | zero => simp [formatBits]
  | succ fuel ih =>
    unfold formatBits
    split
    · simp
    · rw [ih (n / 10) ((48 + n % 10) :: acc), ih (n / 10) [48 + n % 10]]
      simp

theorem formatBits_step (fuel n : Nat) (h : 10 ≤ n) :
    formatBits (fuel + 1) n [] = formatBits fuel (n / 10) [] ++ [48 + n % 10] := by
  rw [formatBits, if_neg (by omega), formatBits_append]

theorem parseDigits_append (xs ys : Bytes) (a : Nat) :
    parseDigits (xs ++ ys) a = (parseDigits xs a).bind (fun b => parseDigits ys b) := by
  induction xs generalizing a with
  | nil => simp [parseDigits]
  | cons c cs ih =>
    simp only [List.cons_append, parseDigits]
    split
    · exact ih _
    · rfl

theorem formatBits_digits (fuel n : Nat) (h : n < fuel) :
    (∀ c ∈ formatBits fuel n [], IsDigit c) ∧ formatBits fuel n [] ≠ [] ∧
      parseDigits (formatBits fuel n []) 0 = some n := by
  induction fuel generalizing n with
  | zero => omega
  | succ fuel ih =>
    by_cases hn : n < 10
    · have : formatBits (fuel + 1) n [] = [48 + n] := by rw [formatBits, if_pos hn]
      rw [this]
      refine ⟨?_, by simp, ?_⟩
      · intro c hc
        simp only [List.mem_singleton] at hc
        subst hc
        exact ⟨by omega, by omega⟩
      · simp [parseDigits]
        omega
    · have hstep := formatBits_step fuel n (by omega)
      have hlt : n / 10 < fuel := by omega
      obtain ⟨h1, h2, h3⟩ := ih (n / 10) hlt
      rw [hstep]
      refine ⟨?_, by simp, ?_⟩
      · intro c hc
        rcases List.mem_append.mp hc with hc | hc
        · exact h1 c hc
        · simp only [List.mem_singleton] at hc
          subst hc
          exact ⟨by omega, by omega⟩
      · rw [parseDigits_append, h3]
        simp [parseDigits]
        omega

theorem Itoa_no_CR (i : Int) : CR ∉ Itoa i := by
  unfold Itoa
  split
  · intro h
    rcases List.mem_cons.mp h with h | h
    · simp [CR] at h
    · have := (formatBits_digits (i.natAbs + 1) i.natAbs (by omega)).1 _ h
      simp [IsDigit, CR] at this
  · intro h
    have := (formatBits_digits (i.toNat + 1) i.toNat (by omega)).1 _ h
    simp [IsDigit, CR] at this

theorem ParseInt_Itoa (i : Int) (hlo : -2 ^ 63 ≤ i) (hhi : i < 2 ^ 63) :
    ParseInt (Itoa i) = some i := by
  unfold Itoa
  split
  · rename_i hneg
    obtain ⟨h1, h2, h3⟩ := formatBits_digits (i.natAbs + 1) i.natAbs (by omega)
    have hle : i.natAbs ≤ 2 ^ 63 := by omega
    simp [ParseInt, h2, h3, hle]
    rw [abs_of_neg hneg]
    exact ⟨by omega, by omega⟩
  · rename_i hneg
    obtain ⟨h1, h2, h3⟩ := formatBits_digits (i.toNat + 1) i.toNat (by omega)
    cases hfb : formatBits (i.toNat + 1) i.toNat [] with
    | nil => exact absurd hfb h2
    | cons c cs =>
      have hc : IsDigit c := h1 c (by rw [hfb]; simp)
      simp only [ParseInt]
      have hne : ¬ (c = 43 ∨ c = 45) := by
        unfold IsDigit at hc
        omega
      have hne2 : ¬ c = 45 := by
        unfold IsDigit at hc
        omega
      rw [if_neg hne, if_neg (by simp), ← hfb, h3]
      simp only [if_neg hne2]
      have : i.toNat < 2 ^ 63 := by omega
      simp only [this, if_true]
      congr 1
      omega

end strconv
end Gedis

namespace Gedis
namespace resp
namespace Reader

theorem readLine_continue (line : Bytes) (b : Nat) (h : CR ∉ line) :
    ¬ ((line ++ [b]).length ≥ 2 ∧ (line ++ [b]).get? ((line ++ [b]).length - 2) = some CR) := by
  rintro ⟨h1, h2⟩
  simp only [List.length_append, List.length_singleton] at h1 h2
  have hlt : line.length + 1 - 2 < line.length := by omega
  rw [List.get?_eq_getElem?, List.getElem?_append_left hlt] at h2
  exact h (List.getElem?_mem h2)

theorem readLine_stop (line : Bytes) (x : Nat) :
    ((line ++ [CR]) ++ [x]).length ≥ 2 ∧
      ((line ++ [CR]) ++ [x]).get? (((line ++ [CR]) ++ [x]).length - 2) = some CR := by
  refine ⟨by simp, ?_⟩
  simp only [List.length_append, List.length_singleton, List.append_assoc, List.singleton_append]
  rw [List.get?_eq_getElem?, List.getElem?_append_right (by simp)]
  simp

theorem readLineLoop_ok (line s : Bytes) (n x : Nat) (rest : Bytes)
    (hline : CR ∉ line) (hs : CR ∉ s) :
    readLineLoop line n (s ++ CR :: x :: rest) = .ok (line ++ s, n + s.length + 2, rest) := by
  induction s generalizing line n with
  | nil =>
    simp only [List.nil_append, List.append_nil, List.length_nil, Nat.add_zero]
    rw [readLineLoop]
    simp only [if_neg (readLine_continue line CR hline)]
    rw [readLineLoop]
    simp only [if_pos (readLine_stop line x)]
    simp
  | cons b s ih =>
    simp only [List.cons_append]
    rw [readLineLoop]
    simp only [if_neg (readLine_continue line b hline)]
    have hb : CR ∉ line ++ [b] := by
      intro h
      rcases List.mem_append.mp h with h | h
      · exact hline h
      · simp only [List.mem_singleton] at h
        exact hs (by simp [h])
    rw [ih (line ++ [b]) (n + 1) hb (fun h => hs (List.mem_cons_of_mem _ h))]
    simp
    omega

/-- A line without CR, closed by CR and one more byte, is read whole. -/
theorem readLine_ok (s : Bytes) (x : Nat) (rest : Bytes) (hs : CR ∉ s) :
    readLine (s ++ CR :: x :: rest) = .ok (s, s.length + 2, rest) := by
  have := readLineLoop_ok [] s 0 x rest (by simp) hs
  simpa [readLine] using this

theorem readLineLoop_eof (line s : Bytes) (n : Nat) (hline : CR ∉ line) (hs : CR ∉ s) :
    readLineLoop line n s = .error .EOF ∧ readLineLoop line n (s ++ [CR]) = .error .EOF := by
  induction s generalizing line n with
  | nil =>
    refine ⟨by rw [readLineLoop], ?_⟩
    simp only [List.nil_append]
    rw [readLineLoop]
    simp only [if_neg (readLine_continue line CR hline)]
    rw [readLineLoop]
  | cons b s ih =>
    have hb : CR ∉ line ++ [b] := by
      intro h
      rcases List.mem_append.mp h with h | h
      · exact hline h
      · simp only [List.mem_singleton] at h
        exact hs (by simp [h])
    have hs2 : CR ∉ s := fun h => hs (List.mem_cons_of_mem _ h)
    constructor
    · rw [readLineLoop]
      simp only [if_neg (readLine_continue line b hline)]
      exact (ih (line ++ [b]) (n + 1) hb hs2).1
    · simp only [List.cons_append]
      rw [readLineLoop]
      simp only [if_neg (readLine_continue line b hline)]
      exact (ih (line ++ [b]) (n + 1) hb hs2).2

/-- A stream that ends inside a line (before its CR, or right after it) gives `io.EOF`. -/
theorem readLine_eof (s : Bytes) (hs : CR ∉ s) :
    readLine s = .error .EOF ∧ readLine (s ++ [CR]) = .error .EOF :=
  readLineLoop_eof [] s 0 (by simp) hs

theorem readLineLoop_length (line input : Bytes) (n : Nat) (l : Bytes) (m : Nat) (rest : Bytes)
    (h : readLineLoop line n input = .ok (l, m, rest)) : rest.length < input.length := by
  induction input generalizing line n with
  | nil => simp [readLineLoop] at h
  | cons b input ih =>
    rw [readLineLoop] at h
    split at h
    · simp only [Result.ok.injEq, Prod.mk.injEq] at h
      rw [← h.2.2]
      simp
    · have := ih _ _ h
      simp only [List.length_cons]
      omega

theorem readLineLoop_ne_panic (line input : Bytes) (n : Nat) :
    readLineLoop line n input ≠ .panic := by
  induction input generalizing line n with
  | nil => simp [readLineLoop]
  | cons b input ih =>
    rw [readLineLoop]
    split
    · simp
    · exact ih _ _

theorem readLine_length (input l : Bytes) (m : Nat) (rest : Bytes)
    (h : readLine input = .ok (l, m, rest)) : rest.length < input.length :=
  readLineLoop_length [] input 0 l m rest h

end Reader
end resp
end Gedis

namespace Gedis
namespace resp
namespace Reader

theorem readSimpleString_length (input : Bytes) (v : Value) (rest : Bytes)
    (h : readSimpleString input = .ok (v, rest)) : rest.length < input.length := by
  unfold readSimpleString at h
  split at h
  · simp at h
  · simp at h
  · rename_i line m r hl
    simp only [Result.ok.injEq, Prod.mk.injEq] at h
    rw [← h.2]
    exact readLine_length _ _ _ _ hl

theorem readInteger_length (input : Bytes) (v : Value) (rest : Bytes)
    (h : readInteger input = .ok (v, rest)) : rest.length < input.length := by
  unfold readInteger at h
  split at h
  · simp at h
  · simp at h
  · rename_i line m r hl
    split at h
    · simp at h
    · simp only [Result.ok.injEq, Prod.mk.injEq] at h
      rw [← h.2]
      exact readLine_length _ _ _ _ hl

theorem ReadFull_length (n : Nat) (input bulk rest : Bytes)
    (h : ReadFull n input = .ok (bulk, rest)) : rest.length ≤ input.length := by
  unfold ReadFull at h
  split at h
  · simp only [Result.ok.injEq, Prod.mk.injEq] at h
    rw [← h.2]
    simp
  · split at h <;> simp at h

theorem readBulk_length (input : Bytes) (v : Value) (rest : Bytes)
    (h : readBulk input = .ok (v, rest)) : rest.length < input.length := by
  unfold readBulk at h
  split at h
  · simp at h
  · simp at h
  · rename_i line m r hl
    have h1 := readLine_length _ _ _ _ hl
    split at h
    · simp at h
    · split at h
      · simp only [Result.ok.injEq, Prod.mk.injEq] at h
        rw [← h.2]
        exact h1
      · split at h
        · simp at h
        · split at h
          · simp at h
          · simp at h
          · rename_i bulk r2 hf
            have h2 := ReadFull_length _ _ _ _ hf
            split at h
            · simp at h
            · simp at h
            · rename_i l3 m3 r3 hl3
              have h3 := readLine_length _ _ _ _ hl3
              simp only [Result.ok.injEq, Prod.mk.injEq] at h
              rw [← h.2]
              omega

theorem readArrayLoop_length (R : Bytes → Result (Value × Bytes))
    (hR : ∀ i v r, R i = .ok (v, r) → r.length ≤ i.length)
    (n : Nat) (arr : List Value) (input : Bytes) (v : Value) (rest : Bytes)
    (h : readArrayLoop R n arr input = .ok (v, rest)) : rest.length ≤ input.length := by
  induction n generalizing arr input with
  | zero =>
    simp only [readArrayLoop, Result.ok.injEq, Prod.mk.injEq] at h
    rw [h.2]
  | succ n ih =>
    rw [readArrayLoop] at h
    split at h
    · simp at h
    · simp at h
    · rename_i val r hval
      have h1 := hR _ _ _ hval
      have h2 := ih _ _ h
      omega

theorem readArray_length (R : Bytes → Result (Value × Bytes))
    (hR : ∀ i v r, R i = .ok (v, r) → r.length ≤ i.length)
    (input : Bytes) (v : Value) (rest : Bytes)
    (h : readArray R input = .ok (v, rest)) : rest.length < input.length := by
  unfold readArray at h
  split at h
  · simp at h
  · simp at h
  · rename_i line m r hl
    have h1 := readLine_length _ _ _ _ hl
    split at h
    · simp at h
    · split at h
      · simp at h
      · have h2 := readArrayLoop_length R hR _ _ _ _ _ h
        omega

/-- A successful `Read` consumes at least one byte. -/
theorem ReadFuel_length (fuel : Nat) (input : Bytes) (v : Value) (rest : Bytes)
    (h : ReadFuel fuel input = .ok (v, rest)) : rest.length < input.length := by
  induction fuel generalizing input v rest with
  | zero => simp [ReadFuel] at h
  | succ fuel ih =>
    cases input with
    | nil => simp [ReadFuel] at h
    | cons t tl =>
      rw [ReadFuel] at h
      simp only [List.length_cons]
      split at h
      · have := readArray_length _ (fun i v r hi => Nat.le_of_lt (ih i v r hi)) _ _ _ h
        omega
      · split at h
        · have := readBulk_length _ _ _ h
          omega
        · split at h
          · have := readSimpleString_length _ _ _ h
            omega
          · split at h
            · split at h
              · rename_i v2 r2 hs
                have := readSimpleString_length _ _ _ hs
                simp only [Result.ok.injEq, Prod.mk.injEq] at h
                rw [← h.2]
                omega
              · simp at h
              · simp at h
            · split at h
              · have := readInteger_length _ _ _ h
                omega
              · simp at h

theorem readArrayLoop_congr (R1 R2 : Bytes → Result (Value × Bytes)) (L : Nat)
    (hR : ∀ i v r, R1 i = .ok (v, r) → r.length ≤ i.length)
    (hagree : ∀ i, i.length ≤ L → R1 i = R2 i)
    (n : Nat) (arr : List Value) (input : Bytes) (hlen : input.length ≤ L) :
    readArrayLoop R1 n arr input = readArrayLoop R2 n arr input := by
  induction n generalizing arr input with
  | zero => simp [readArrayLoop]
  | succ n ih =>
    rw [readArrayLoop, readArrayLoop, ← hagree input hlen]
    cases h1 : R1 input with
    | error e => rfl
    | panic => rfl
    | ok p =>
      obtain ⟨val, r⟩ := p
      have := hR _ _ _ h1
      exact ih _ _ (by omega)

theorem readArray_congr (R1 R2 : Bytes → Result (Value × Bytes)) (L : Nat)
    (hR : ∀ i v r, R1 i = .ok (v, r) → r.length ≤ i.length)
    (hagree : ∀ i, i.length ≤ L → R1 i = R2 i)
    (input : Bytes) (hlen : input.length ≤ L) :
    readArray R1 input = readArray R2 input := by
  unfold readArray
  cases hl : readLine input with
  | error e => rfl
  | panic => rfl
  | ok p =>
    obtain ⟨line, m, r⟩ := p
    have h1 := readLine_length _ _ _ _ hl
    simp only
    cases strconv.ParseInt line with
    | none => rfl
    | some len =>
      simp only
      split
      · rfl
      · exact readArrayLoop_congr R1 R2 L hR hagree _ _ _ (by omega)

/-- The bound on the recursion is never used up: any two bounds above the length
of the stream give the same result. -/
theorem ReadFuel_congr (f g : Nat) (input : Bytes) (hf : input.length < f)
    (hg : input.length < g) : ReadFuel f input = ReadFuel g input := by
  induction f generalizing g input with
  | zero => omega
  | succ f ih =>
    cases g with
    | zero => omega
    | succ g =>
      cases input with
      | nil => simp [ReadFuel]
      | cons t tl =>
        rw [ReadFuel, ReadFuel]
        simp only [List.length_cons] at hf hg
        have : readArray (fun input => ReadFuel f input) tl
            = readArray (fun input => ReadFuel g input) tl := by
          apply readArray_congr _ _ tl.length
          · intro i v r hi
            exact Nat.le_of_lt (ReadFuel_length f i v r hi)
          · intro i hi
            exact ih g i (by omega) (by omega)
          · exact Nat.le_refl _
        rw [this]

/-- The bound on the recursion of `ReadFuel` is immaterial once it exceeds the
length of the stream. -/
theorem ReadFuel_eq_Read (fuel : Nat) (input : Bytes) (h : input.length < fuel) :
    ReadFuel fuel input = Read input :=
  ReadFuel_congr fuel (input.length + 1) input h (Nat.lt_succ_self _)

/-- The function `Read` satisfies the recursion of the Go source: the nested reads of
`readArray` are `Read` itself. -/
theorem Read_cons (_type : Nat) (rest : Bytes) :
    Read (_type :: rest) =
      if _type = ARRAY then readArray Read rest
      else if _type = BULK then readBulk rest
      else if _type = STRING then readSimpleString rest
      else if _type = ERROR then
        match readSimpleString rest with
        | .ok (v, rest) => .ok (v.setTyp "error", rest)
        | .error e => .error e
        | .panic => .panic
      else if _type = INTEGER then readInteger rest
      else .error (.unknownType _type) := by
  have : readArray (fun input => ReadFuel (rest.length + 1) input) rest = readArray Read rest := by
    apply readArray_congr _ _ rest.length
    · intro i v r hi
      exact Nat.le_of_lt (ReadFuel_length _ i v r hi)
    · intro i hi
      exact ReadFuel_eq_Read _ i (by omega)
    · exact Nat.le_refl _
  rw [← this]
  simp only [Read, List.length_cons]
  rw [ReadFuel]

theorem Read_nil : Read [] = .error .EOF := by
  simp [Read, ReadFuel]

theorem Read_length (input : Bytes) (v : Value) (rest : Bytes)
    (h : Read input = .ok (v, rest)) : rest.length < input.length :=
  ReadFuel_length _ _ _ _ h

end Reader
end resp
end Gedis

namespace Gedis
namespace resp

namespace Writer

mutual
theorem write_append : ∀ (v : Value) (out : Bytes), write v out = out ++ write v []
  | .mk ty s num bulk arr, out => by
    simp only [write]
    split
    · simp
    · split
      · simp
      · split
        · simp
        · split
          · simp
          · split
            · simp
            · split
              · rw [writeRange_append arr, writeRange_append arr ([] ++ _)]
                simp
              · simp
theorem writeRange_append : ∀ (vs : List Value) (out : Bytes),
    writeRange vs out = out ++ writeRange vs []
  | [], out => by simp [writeRange]
  | v :: vs, out => by
    simp only [writeRange]
    rw [writeRange_append vs, write_append v, writeRange_append vs (write v [])]
    simp
end

theorem writeRange_eq (vs : List Value) : writeRange vs [] = (vs.map encode).flatten := by
  induction vs with
  | nil => simp [writeRange]
  | cons v vs ih =>
    simp only [writeRange, List.map_cons, List.flatten_cons]
    rw [writeRange_append, ih]
    rfl

end Writer

theorem encode_SimpleString (s : Bytes) :
    encode (Value.SimpleString s) = [STRING] ++ s ++ CRLF := by
  simp [encode, Writer.Write, Writer.write, Value.SimpleString, lit, CRLF, CR, LF]

theorem encode_Error (s : Bytes) :
    encode (Value.Error s) = [ERROR] ++ s ++ CRLF := by
  simp [encode, Writer.Write, Writer.write, Value.Error, lit, CRLF, CR, LF]

theorem encode_Integer (n : Int) :
    encode (Value.Integer n) = [INTEGER] ++ strconv.Itoa n ++ CRLF := by
  simp [encode, Writer.Write, Writer.write, Value.Integer, lit, CRLF, CR, LF]

theorem encode_BulkString (b : Bytes) :
    encode (Value.BulkString b) = [BULK] ++ strconv.Itoa b.length ++ CRLF ++ b ++ CRLF := by
  simp [encode, Writer.Write, Writer.write, Value.BulkString, lit, CRLF, CR, LF]

theorem encode_Null : encode Value.Null = [BULK, 45, 49] ++ CRLF := by
  simp [encode, Writer.Write, Writer.write, Value.Null, lit, CRLF, CR, LF, BULK]

theorem encode_Arr (xs : List Value) :
    encode (Value.Arr xs) = [ARRAY] ++ strconv.Itoa xs.length ++ CRLF ++ (xs.map encode).flatten := by
  simp only [encode, Writer.Write, Writer.write, Value.Arr]
  simp only [String.reduceEq, if_false, if_true]
  rw [Writer.writeRange_append, Writer.writeRange_eq]
  simp [lit, CRLF, CR, LF, encode, Writer.Write]

end resp
end Gedis

namespace Gedis
namespace resp

/-- A length within the allocation limit passes the checks of `make([]byte, len)`
and fits an `int`. -/
theorem alloc_bulk_ok (n : Nat) (h : n ≤ maxAlloc) :
    ¬ ((n : Int) < 0 ∨ (maxAlloc : Int) < (n : Int)) ∧ (n : Int) < 2 ^ 63 := by
  unfold maxAlloc at h ⊢
  push_cast
  omega

/-- A capacity within the allocation limit passes the checks of
`make([]Value, 0, len)` and fits an `int`. -/
theorem alloc_arr_ok (n : Nat) (h : n * sizeofValue ≤ maxAlloc) :
    ¬ ((n : Int) < 0 ∨ (maxAlloc : Int) < (n : Int) * (sizeofValue : Int)) ∧
      (n : Int) < 2 ^ 63 := by
  unfold maxAlloc sizeofValue at h ⊢
  push_cast
  omega

theorem Read_SimpleString (s rest : Bytes) (hs : CR ∉ s) :
    Reader.Read (encode (Value.SimpleString s) ++ rest) = .ok (Value.SimpleString s, rest) := by
  rw [encode_SimpleString]
  simp only [List.singleton_append, List.cons_append, List.nil_append, List.append_assoc, CRLF]
  rw [Reader.Read_cons]
  simp only [STRING, ARRAY, BULK, Nat.reduceEqDiff, if_false, if_true]
  rw [Reader.readSimpleString, Reader.readLine_ok s LF rest hs]
  rfl

theorem Read_Error (s rest : Bytes) (hs : CR ∉ s) :
    Reader.Read (encode (Value.Error s) ++ rest) = .ok (Value.Error s, rest) := by
  rw [encode_Error]
  simp only [List.singleton_append, List.cons_append, List.nil_append, List.append_assoc, CRLF]
  rw [Reader.Read_cons]
  simp only [STRING, ARRAY, BULK, ERROR, Nat.reduceEqDiff, if_false, if_true]
  rw [Reader.readSimpleString, Reader.readLine_ok s LF rest hs]
  rfl

theorem Read_Integer (n : Int) (rest : Bytes) (hlo : -2 ^ 63 ≤ n) (hhi : n < 2 ^ 63) :
    Reader.Read (encode (Value.Integer n) ++ rest) = .ok (Value.Integer n, rest) := by
  rw [encode_Integer]
  simp only [List.singleton_append, List.cons_append, List.nil_append, List.append_assoc, CRLF]
  rw [Reader.Read_cons]
  simp only [STRING, ARRAY, BULK, ERROR, INTEGER, Nat.reduceEqDiff, if_false, if_true]
  rw [Reader.readInteger, Reader.readLine_ok _ LF rest (strconv.Itoa_no_CR n)]
  simp only [strconv.ParseInt_Itoa n hlo hhi]
  rfl

theorem Read_BulkString (b rest : Bytes) (hb : b.length ≤ maxAlloc) :
    Reader.Read (encode (Value.BulkString b) ++ rest) = .ok (Value.BulkString b, rest) := by
  rw [encode_BulkString]
  simp only [List.singleton_append, List.cons_append, List.nil_append, List.append_assoc, CRLF]
  rw [Reader.Read_cons]
  simp only [STRING, ARRAY, BULK, ERROR, INTEGER, Nat.reduceEqDiff, if_false, if_true]
  rw [Reader.readBulk, Reader.readLine_ok _ LF _ (strconv.Itoa_no_CR _)]
  have hp := strconv.ParseInt_Itoa (b.length : Int) (by omega) (alloc_bulk_ok _ hb).2
  simp only [hp]
  have h1 : ¬ ((b.length : Int) = -1) := by omega
  have h2 := (alloc_bulk_ok _ hb).1
  simp only [if_neg h1, if_neg h2, Int.toNat_ofNat]
  have hf : Reader.ReadFull b.length (b ++ CR :: LF :: rest) = .ok (b, CR :: LF :: rest) := by
    simp [Reader.ReadFull]
  simp only [hf]
  have hl := Reader.readLine_ok [] LF rest (by simp)
  simp only [List.nil_append] at hl
  simp only [hl]
  rfl

theorem Read_Null (rest : Bytes) :
    Reader.Read (encode Value.Null ++ rest) = .ok (Value.Null, rest) := by
  rw [encode_Null]
  simp only [List.cons_append, List.nil_append, CRLF]
  rw [Reader.Read_cons]
  simp only [STRING, ARRAY, BULK, ERROR, INTEGER, Nat.reduceEqDiff, if_false, if_true]
  have hl := Reader.readLine_ok [45, 49] LF rest (by simp [CR])
  simp only [List.cons_append, List.nil_append] at hl
  rw [Reader.readBulk, hl]
  rfl

theorem readArrayLoop_encode (xs : List Value)
    (ih : ∀ x ∈ xs, ∀ rest, Reader.Read (encode x ++ rest) = .ok (x, rest))
    (arr : List Value) (rest : Bytes) :
    Reader.readArrayLoop Reader.Read xs.length arr ((xs.map encode).flatten ++ rest)
      = .ok (Value.mk "array" [] 0 [] (arr ++ xs), rest) := by
  induction xs generalizing arr with
  | nil => simp [Reader.readArrayLoop]
  | cons x xs ihx =>
    simp only [List.length_cons, List.map_cons, List.flatten_cons, List.append_assoc]
    rw [Reader.readArrayLoop, ih x (List.mem_cons_self _ _)]
    simp only
    rw [ihx (fun y hy => ih y (List.mem_cons_of_mem _ hy))]
    simp

theorem Read_Arr (xs : List Value) (rest : Bytes) (hlen : xs.length * sizeofValue ≤ maxAlloc)
    (ih : ∀ x ∈ xs, ∀ rest, Reader.Read (encode x ++ rest) = .ok (x, rest)) :
    Reader.Read (encode (Value.Arr xs) ++ rest) = .ok (Value.Arr xs, rest) := by
  rw [encode_Arr]
  simp only [List.singleton_append, List.cons_append, List.nil_append, List.append_assoc, CRLF]
  rw [Reader.Read_cons]
  simp only [STRING, ARRAY, BULK, ERROR, INTEGER, Nat.reduceEqDiff, if_false, if_true]
  rw [Reader.readArray, Reader.readLine_ok _ LF _ (strconv.Itoa_no_CR _)]
  have hp := strconv.ParseInt_Itoa (xs.length : Int) (by omega) (alloc_arr_ok _ hlen).2
  simp only [hp]
  have h2 := (alloc_arr_ok _ hlen).1
  simp only [if_neg h2, Int.toNat_ofNat]
  rw [readArrayLoop_encode xs ih]
  rfl

/-- Reading the encoding of a line-safe value off the front of a stream returns the
value and leaves exactly the bytes that followed the encoding. -/
theorem Read_encode (v : Value) (h : v.LineSafe) :
    ∀ rest, Reader.Read (encode v ++ rest) = .ok (v, rest) := by
  unfold Value.LineSafe at h
  induction h with
  | SimpleString s hs => exact fun rest => Read_SimpleString s rest hs
  | Error s hs => exact fun rest => Read_Error s rest hs
  | Integer n hlo hhi => exact fun rest => Read_Integer n rest hlo hhi
  | BulkString b hb => exact fun rest => Read_BulkString b rest hb
  | Null => exact Read_Null
  | Arr xs hlen _ ih => exact fun rest => Read_Arr xs rest hlen ih

end resp
end Gedis

namespace Gedis

theorem formatBits_eq_natDecimal (fuel n : Nat) (h : n < fuel) :
    strconv.formatBits fuel n [] = natDecimal n := by
  induction fuel generalizing n with
  | zero => omega
  | succ fuel ih =>
    by_cases hn : n < 10
    · rw [strconv.formatBits, if_pos hn]
      unfold natDecimal
      by_cases h0 : n = 0
      · simp [h0]
      · rw [if_neg h0, Nat.digits_of_lt 10 n h0 hn]
        simp
    · rw [strconv.formatBits_step fuel n (by omega), ih (n / 10) (by omega)]
      unfold natDecimal
      have h1 : n / 10 ≠ 0 := by omega
      have h2 : n ≠ 0 := by omega
      rw [if_neg h1, if_neg h2]
      conv_rhs => rw [Nat.digits_def' (by norm_num : 1 < 10) (by omega : 0 < n)]
      simp

theorem Itoa_eq_decimal (i : Int) : strconv.Itoa i = decimal i := by
  unfold strconv.Itoa decimal
  split
  · rw [formatBits_eq_natDecimal _ _ (by omega)]
  · rw [formatBits_eq_natDecimal _ _ (by omega)]
    congr 1
    omega

namespace resp

theorem IsRequest_LineSafe (v : Value) (h : v.IsRequest) : v.LineSafe := by
  obtain ⟨args, h1, h2, rfl⟩ := h
  refine Value.Built.Arr _ (by simpa using h1) ?_
  intro x hx
  obtain ⟨b, hb, rfl⟩ := List.mem_map.mp hx
  exact Value.Built.BulkString b (h2 b hb)

theorem encode_length_pos (v : Value) (h : v.LineSafe) : 0 < (encode v).length := by
  have := Reader.Read_length _ _ _ (Read_encode v h [])
  simp only [List.append_nil, List.length_nil] at this
  exact this

end resp

namespace aof

/-- The bound on the iterations of `ReadLoop` is never used up: any two bounds above
the length of the file give the same result. -/
theorem ReadLoop_congr {σ : Type} (fn : σ → resp.Value → σ) (f g : Nat) (s : σ)
    (input : Bytes) (hf : input.length < f) (hg : input.length < g) :
    ReadLoop fn f s input = ReadLoop fn g s input := by
  induction f generalizing g s input with
  | zero => omega
  | succ f ih =>
    cases g with
    | zero => omega
    | succ g =>
      rw [ReadLoop, ReadLoop]
      cases hr : resp.Reader.Read input with
      | error e => rfl
      | panic => rfl
      | ok p =>
        obtain ⟨value, rest⟩ := p
        have := resp.Reader.Read_length _ _ _ hr
        exact ih g _ rest (by omega) (by omega)

theorem aof_ReadLoop_encode {σ : Type} (fn : σ → resp.Value → σ) (vs : List resp.Value)
    (h : ∀ v ∈ vs, v.LineSafe) (fuel : Nat) (s : σ)
    (hfuel : vs.length < fuel) :
    ReadLoop fn fuel s (vs.map resp.encode).flatten = .ok (vs.foldl fn s) := by
  induction vs generalizing fuel s with
  | nil =>
    cases fuel with
    | zero => omega
    | succ fuel =>
      simp [ReadLoop, resp.Reader.Read_nil]
  | cons v vs ih =>
    cases fuel with
    | zero => omega
    | succ fuel =>
      simp only [List.map_cons, List.flatten_cons, List.foldl_cons]
      rw [ReadLoop, resp.Read_encode v (h v (List.mem_cons_self _ _))]
      simp only
      exact ih (fun w hw => h w (List.mem_cons_of_mem _ hw)) fuel _
        (by simp only [List.length_cons] at hfuel; omega)

theorem flatten_encode_length (vs : List resp.Value) (h : ∀ v ∈ vs, v.LineSafe) :
    vs.length ≤ ((vs.map resp.encode).flatten).length := by
  induction vs with
  | nil => simp
  | cons v vs ih =>
    have h1 := resp.encode_length_pos v (h v (List.mem_cons_self _ _))
    have h2 := ih (fun w hw => h w (List.mem_cons_of_mem _ hw))
    simp only [List.map_cons, List.flatten_cons, List.length_cons, List.length_append]
    omega

theorem aof_Read_encode {σ : Type} (fn : σ → resp.Value → σ) (vs : List resp.Value)
    (h : ∀ v ∈ vs, v.LineSafe) (s : σ) :
    Read fn s (vs.map resp.encode).flatten = .ok (vs.foldl fn s) := by
  apply aof_ReadLoop_encode fn vs h
  have := flatten_encode_length vs h
  omega

end aof
end Gedis

namespace Gedis
namespace resp

theorem isPrefix_cons_cases (p : Bytes) (a : Nat) (l : Bytes) (h : p <+: a :: l)
    (hne : p ≠ a :: l) : p = [] ∨ ∃ q, p = a :: q ∧ q <+: l ∧ q ≠ l := by
  cases p with
  | nil => exact Or.inl rfl
  | cons b q =>
    right
    obtain ⟨t, ht⟩ := h
    simp only [List.cons_append, List.cons.injEq] at ht
    obtain ⟨rfl, ht⟩ := ht
    refine ⟨q, rfl, ⟨t, ht⟩, ?_⟩
    intro hq
    exact hne (by rw [hq])

theorem isPrefix_append_cases (p l1 l2 : Bytes) (h : p <+: l1 ++ l2) (hne : p ≠ l1 ++ l2) :
    (p <+: l1 ∧ p ≠ l1) ∨ ∃ q, p = l1 ++ q ∧ q <+: l2 ∧ q ≠ l2 := by
  induction l1 generalizing p with
  | nil =>
    right
    exact ⟨p, rfl, h, hne⟩
  | cons a l1 ih =>
    rcases isPrefix_cons_cases p a (l1 ++ l2) h hne with rfl | ⟨q, rfl, hq, hqne⟩
    · left
      exact ⟨List.nil_prefix, by simp⟩
    · rcases ih q hq hqne with ⟨h1, h2⟩ | ⟨r, rfl, hr, hrne⟩
      · left
        exact ⟨List.cons_prefix_cons.mpr ⟨rfl, h1⟩, by simpa using h2⟩
      · right
        exact ⟨r, rfl, hr, hrne⟩

theorem not_mem_of_isPrefix (p s : Bytes) (h : p <+: s) (hs : CR ∉ s) : CR ∉ p :=
  fun hp => hs (h.subset hp)

/-- A stream that stops inside a CR-free line or inside its CR LF gives `io.EOF`. -/
theorem readLine_cut (s q : Bytes) (hs : CR ∉ s) (h : q <+: s ++ CRLF) (hne : q ≠ s ++ CRLF) :
    Reader.readLine q = .error .EOF := by
  rcases isPrefix_append_cases q s CRLF h hne with ⟨h1, _⟩ | ⟨r, rfl, hr, hrne⟩
  · exact (Reader.readLine_eof q (not_mem_of_isPrefix q s h1 hs)).1
  · rcases isPrefix_cons_cases r CR [LF] hr hrne with rfl | ⟨r2, rfl, hr2, hr2ne⟩
    · simpa using (Reader.readLine_eof s hs).1
    · rcases isPrefix_cons_cases r2 LF [] hr2 hr2ne with rfl | ⟨r3, rfl, hr3, hr3ne⟩
      · exact (Reader.readLine_eof s hs).2
      · exact absurd (List.prefix_nil.mp hr3) hr3ne

theorem cut_SimpleString (s p : Bytes) (hs : CR ∉ s)
    (h : p <+: encode (Value.SimpleString s)) (hne : p ≠ encode (Value.SimpleString s)) :
    Reader.Fails p := by
  rw [encode_SimpleString] at h hne
  simp only [List.singleton_append, List.cons_append, List.nil_append, List.append_assoc] at h hne
  rcases isPrefix_cons_cases p _ _ h hne with rfl | ⟨q, rfl, hq, hqne⟩
  · exact ⟨_, Reader.Read_nil⟩
  · refine ⟨.EOF, ?_⟩
    rw [Reader.Read_cons]
    simp only [STRING, ARRAY, BULK, Nat.reduceEqDiff, if_false, if_true]
    rw [Reader.readSimpleString, readLine_cut s q hs hq hqne]

theorem cut_Error (s p : Bytes) (hs : CR ∉ s)
    (h : p <+: encode (Value.Error s)) (hne : p ≠ encode (Value.Error s)) :
    Reader.Fails p := by
  rw [encode_Error] at h hne
  simp only [List.singleton_append, List.cons_append, List.nil_append, List.append_assoc] at h hne
  rcases isPrefix_cons_cases p _ _ h hne with rfl | ⟨q, rfl, hq, hqne⟩
  · exact ⟨_, Reader.Read_nil⟩
  · refine ⟨.EOF, ?_⟩
    rw [Reader.Read_cons]
    simp only [STRING, ARRAY, BULK, ERROR, Nat.reduceEqDiff, if_false, if_true]
    rw [Reader.readSimpleString, readLine_cut s q hs hq hqne]

theorem cut_Integer (n : Int) (p : Bytes)
    (h : p <+: encode (Value.Integer n)) (hne : p ≠ encode (Value.Integer n)) :
    Reader.Fails p := by
  rw [encode_Integer] at h hne
  simp only [List.singleton_append, List.cons_append, List.nil_append, List.append_assoc] at h hne
  rcases isPrefix_cons_cases p _ _ h hne with rfl | ⟨q, rfl, hq, hqne⟩
  · exact ⟨_, Reader.Read_nil⟩
  · refine ⟨.EOF, ?_⟩
    rw [Reader.Read_cons]
    simp only [STRING, ARRAY, BULK, ERROR, INTEGER, Nat.reduceEqDiff, if_false, if_true]
    rw [Reader.readInteger, readLine_cut _ q (strconv.Itoa_no_CR n) hq hqne]

theorem cut_Null (p : Bytes)
    (h : p <+: encode Value.Null) (hne : p ≠ encode Value.Null) :
    Reader.Fails p := by
  rw [encode_Null] at h hne
  simp only [List.cons_append, List.nil_append] at h hne
  rcases isPrefix_cons_cases p _ _ h hne with rfl | ⟨q, rfl, hq, hqne⟩
  · exact ⟨_, Reader.Read_nil⟩
  · refine ⟨.EOF, ?_⟩
    rw [Reader.Read_cons]
    simp only [STRING, ARRAY, BULK, ERROR, INTEGER, Nat.reduceEqDiff, if_false, if_true]
    rw [Reader.readBulk, readLine_cut [45, 49] q (by simp [CR]) hq hqne]

theorem cut_BulkString (b p : Bytes) (hb : b.length ≤ maxAlloc)
    (h : p <+: encode (Value.BulkString b)) (hne : p ≠ encode (Value.BulkString b)) :
    Reader.Fails p := by
  rw [encode_BulkString] at h hne
  simp only [List.singleton_append, List.cons_append, List.nil_append, List.append_assoc] at h hne
  rcases isPrefix_cons_cases p _ _ h hne with rfl | ⟨q, rfl, hq, hqne⟩
  · exact ⟨_, Reader.Read_nil⟩
  · rw [← List.append_assoc] at hq hqne
    unfold Reader.Fails
    rw [Reader.Read_cons]
    simp only [STRING, ARRAY, BULK, ERROR, INTEGER, Nat.reduceEqDiff, if_false, if_true]
    rcases isPrefix_append_cases q _ _ hq hqne with ⟨h1, h2⟩ | ⟨r, rfl, hr, hrne⟩
    · refine ⟨.EOF, ?_⟩
      rw [Reader.readBulk, readLine_cut _ q (strconv.Itoa_no_CR _) h1 h2]
    · simp only [CRLF, List.cons_append, List.nil_append, List.append_assoc]
      rw [Reader.readBulk, Reader.readLine_ok _ LF _ (strconv.Itoa_no_CR _)]
      have hp := strconv.ParseInt_Itoa (b.length : Int) (by omega) (alloc_bulk_ok _ hb).2
      simp only [hp]
      have h1 : ¬ ((b.length : Int) = -1) := by omega
      have h2 := (alloc_bulk_ok _ hb).1
      simp only [if_neg h1, if_neg h2, Int.toNat_ofNat]
      rcases isPrefix_append_cases r b CRLF hr hrne with ⟨h3, h4⟩ | ⟨r2, rfl, hr2, hr2ne⟩
      · have hlen : ¬ b.length ≤ r.length := by
          intro hle
          exact h4 (h3.eq_of_length (Nat.le_antisymm h3.length_le hle))
        have hf : ∃ e, Reader.ReadFull b.length r = .error e := by
          unfold Reader.ReadFull
          rw [if_neg hlen]
          split <;> exact ⟨_, rfl⟩
        obtain ⟨e, he⟩ := hf
        simp only [he]
        exact ⟨_, rfl⟩
      · have hf : Reader.ReadFull b.length (b ++ r2) = .ok (b, r2) := by
          simp [Reader.ReadFull]
        simp only [hf]
        have hl := readLine_cut [] r2 (by simp) (by simpa using hr2) (by simpa using hr2ne)
        simp only [hl]
        exact ⟨_, rfl⟩

theorem cut_readArrayLoop (xs : List Value) (hxs : ∀ x ∈ xs, x.LineSafe)
    (ih : ∀ x ∈ xs, ∀ p, p <+: encode x → p ≠ encode x → Reader.Fails p)
    (arr : List Value) (q : Bytes) (hq : q <+: (xs.map encode).flatten)
    (hqne : q ≠ (xs.map encode).flatten) :
    ∃ e, Reader.readArrayLoop Reader.Read xs.length arr q = .error e := by
  induction xs generalizing arr q with
  | nil =>
    simp only [List.map_nil, List.flatten_nil] at hq hqne
    exact absurd (List.prefix_nil.mp hq) hqne
  | cons x xs ihx =>
    simp only [List.map_cons, List.flatten_cons] at hq hqne
    simp only [List.length_cons]
    rw [Reader.readArrayLoop]
    rcases isPrefix_append_cases q _ _ hq hqne with ⟨h1, h2⟩ | ⟨r, rfl, hr, hrne⟩
    · obtain ⟨e, he⟩ := ih x (List.mem_cons_self _ _) q h1 h2
      exact ⟨e, by rw [he]⟩
    · rw [Read_encode x (hxs x (List.mem_cons_self _ _))]
      simp only
      exact ihx (fun y hy => hxs y (List.mem_cons_of_mem _ hy))
        (fun y hy => ih y (List.mem_cons_of_mem _ hy)) _ r hr hrne

theorem cut_Arr (xs : List Value) (p : Bytes) (hlen : xs.length * sizeofValue ≤ maxAlloc)
    (hxs : ∀ x ∈ xs, x.LineSafe)
    (ih : ∀ x ∈ xs, ∀ p, p <+: encode x → p ≠ encode x → Reader.Fails p)
    (h : p <+: encode (Value.Arr xs)) (hne : p ≠ encode (Value.Arr xs)) :
    Reader.Fails p := by
  rw [encode_Arr] at h hne
  simp only [List.singleton_append, List.cons_append, List.nil_append, List.append_assoc] at h hne
  rcases isPrefix_cons_cases p _ _ h hne with rfl | ⟨q, rfl, hq, hqne⟩
  · exact ⟨_, Reader.Read_nil⟩
  · rw [← List.append_assoc] at hq hqne
    unfold Reader.Fails
    rw [Reader.Read_cons]
    simp only [STRING, ARRAY, BULK, ERROR, INTEGER, Nat.reduceEqDiff, if_false, if_true]
    rcases isPrefix_append_cases q _ _ hq hqne with ⟨h1, h2⟩ | ⟨r, rfl, hr, hrne⟩
    · refine ⟨.EOF, ?_⟩
      rw [Reader.readArray, readLine_cut _ q (strconv.Itoa_no_CR _) h1 h2]
    · simp only [CRLF, List.cons_append, List.nil_append, List.append_assoc]
      rw [Reader.readArray, Reader.readLine_ok _ LF _ (strconv.Itoa_no_CR _)]
      have hp := strconv.ParseInt_Itoa (xs.length : Int) (by omega) (alloc_arr_ok _ hlen).2
      simp only [hp]
      have h2 := (alloc_arr_ok _ hlen).1
      simp only [if_neg h2, Int.toNat_ofNat]
      exact cut_readArrayLoop xs hxs ih [] r hr hrne

/-- Reading a stream that ends inside the encoding of a line-safe value returns an
error. -/
theorem Read_cut (v : Value) (hv : v.LineSafe) :
    ∀ p, p <+: encode v → p ≠ encode v → Reader.Fails p := by
  unfold Value.LineSafe at hv
  induction hv with
  | SimpleString s hs => exact fun p => cut_SimpleString s p hs
  | Error s hs => exact fun p => cut_Error s p hs
  | Integer n hlo hhi => exact fun p => cut_Integer n p
  | BulkString b hb => exact fun p => cut_BulkString b p hb
  | Null => exact cut_Null
  | Arr xs hlen hxs ih => exact fun p => cut_Arr xs p hlen hxs ih

theorem ParseInt_isSome (s : Bytes) (n : Int) (h : strconv.ParseInt s = some n) :
    IsBase10Integer s := by
  have hd : ∀ (ds : Bytes) (a m : Nat), strconv.parseDigits ds a = some m →
      ∀ d ∈ ds, 48 ≤ d ∧ d ≤ 57 := by
    intro ds
    induction ds with
    | nil => intro a m _ d hd; simp at hd
    | cons c cs ih =>
      intro a m hm d hd
      rw [strconv.parseDigits] at hm
      split at hm
      · rename_i hc
        rcases List.mem_cons.mp hd with rfl | hd
        · exact hc
        · exact ih _ _ hm d hd
      · simp at hm
  cases s with
  | nil => simp [strconv.ParseInt] at h
  | cons c cs =>
    simp only [strconv.ParseInt] at h
    unfold IsBase10Integer
    by_cases hc : c = 43 ∨ c = 45
    · simp only [hc, if_true] at h ⊢
      split at h
      · simp at h
      · rename_i hne
        refine ⟨hne, ?_⟩
        cases hpd : strconv.parseDigits cs 0 with
        | none => simp [hpd] at h
        | some m => exact hd cs 0 m hpd
    · simp only [hc, if_false] at h ⊢
      split at h
      · simp at h
      · cases hpd : strconv.parseDigits (c :: cs) 0 with
        | none => simp [hpd] at h
        | some m => exact hd (c :: cs) 0 m hpd

end resp
end Gedis

namespace Gedis
namespace resp

theorem split_first_CR (s : Bytes) (h : CR ∈ s) :
    ∃ s1 s2, s = s1 ++ CR :: s2 ∧ CR ∉ s1 := by
  induction s with
  | nil => simp at h
  | cons b s ih =>
    by_cases hb : b = CR
    · exact ⟨[], s, by simp [hb], by simp⟩
    · have hs : CR ∈ s := by
        rcases List.mem_cons.mp h with h | h
        · exact absurd h.symm hb
        · exact h
      obtain ⟨s1, s2, h1, h2⟩ := ih hs
      refine ⟨b :: s1, s2, by simp [h1], ?_⟩
      intro hm
      rcases List.mem_cons.mp hm with hm | hm
      · exact hb hm.symm
      · exact h2 hm

/-- The restriction to texts without CR is needed: a simple string whose text holds
a CR byte never comes back from its encoding; the decoder returns the text before
the first CR. -/
theorem SimpleString_with_CR (s : Bytes) (h : CR ∈ s) :
    ∃ s1 rest, s1.length < s.length ∧
      Reader.Read (encode (Value.SimpleString s)) = .ok (Value.SimpleString s1, rest) := by
  obtain ⟨s1, s2, hs, h1⟩ := split_first_CR s h
  have hx : ∃ x rest, s2 ++ CRLF = x :: rest := by
    cases s2 with
    | nil => exact ⟨CR, [LF], rfl⟩
    | cons x s2 => exact ⟨x, s2 ++ CRLF, rfl⟩
  obtain ⟨x, rest, hx⟩ := hx
  refine ⟨s1, rest, by rw [hs]; simp, ?_⟩
  rw [encode_SimpleString, hs]
  simp only [List.singleton_append, List.cons_append, List.nil_append, List.append_assoc]
  rw [hx, Reader.Read_cons]
  simp only [STRING, ARRAY, BULK, Nat.reduceEqDiff, if_false, if_true]
  rw [Reader.readSimpleString, Reader.readLine_ok s1 x rest h1]
  rfl

end resp
end Gedis

namespace Gedis
namespace resp

/-- Claim C1, amended: for every value built from SimpleString, Error, Integer,
BulkString, Null and Array, to any nesting depth, in which no SimpleString and no
Error text holds a CR byte, decoding the bytes that encoding produces returns the
original value. -/
theorem C1_decode_encode (v : Value) (h : v.LineSafe) : decode (encode v) = .ok v := by
  have := Read_encode v h []
  simp only [List.append_nil] at this
  simp [decode, this]

/-- Claim C1, witness: an array nested three deep that holds an empty array, a
bulk string with CR LF inside, a negative integer, a null, a simple string and an
error. -/
theorem C1_decode_encode_witness :
    (Value.Arr [Value.Arr [Value.Arr [Value.Integer (-7), Value.BulkString (lit "a\r\nb")],
        Value.Arr []], Value.SimpleString (lit "OK"), Value.Error (lit "ERR x"),
        Value.Null]).LineSafe ∧
    decode (encode (Value.Arr [Value.Arr [Value.Arr [Value.Integer (-7),
        Value.BulkString (lit "a\r\nb")], Value.Arr []], Value.SimpleString (lit "OK"),
        Value.Error (lit "ERR x"), Value.Null]))
      = .ok (Value.Arr [Value.Arr [Value.Arr [Value.Integer (-7),
        Value.BulkString (lit "a\r\nb")], Value.Arr []], Value.SimpleString (lit "OK"),
        Value.Error (lit "ERR x"), Value.Null]) :=
  have h : (Value.Arr [Value.Arr [Value.Arr [Value.Integer (-7),
      Value.BulkString (lit "a\r\nb")], Value.Arr []], Value.SimpleString (lit "OK"),
      Value.Error (lit "ERR x"), Value.Null]).LineSafe :=
    .Arr _ (by decide) (List.forall_mem_cons.mpr ⟨
      .Arr _ (by decide) (List.forall_mem_cons.mpr ⟨
        .Arr _ (by decide) (List.forall_mem_cons.mpr ⟨
          .Integer _ (by decide) (by decide),
          List.forall_mem_cons.mpr ⟨.BulkString _ (by decide),
            fun _ hx => absurd hx (List.not_mem_nil _)⟩⟩),
        List.forall_mem_cons.mpr ⟨.Arr _ (by decide) (fun _ hx => absurd hx (List.not_mem_nil _)),
          fun _ hx => absurd hx (List.not_mem_nil _)⟩⟩),
      List.forall_mem_cons.mpr ⟨.SimpleString _ (by decide),
        List.forall_mem_cons.mpr ⟨.Error _ (by decide),
          List.forall_mem_cons.mpr ⟨.Null, fun _ hx => absurd hx (List.not_mem_nil _)⟩⟩⟩⟩)
  ⟨h, C1_decode_encode _ h⟩

/-- Claim C1 as stated is false: the SimpleString with the text `a CR LF b` is a
constructible value, and decoding its encoding returns the SimpleString `a`. -/
theorem C1_counterexample :
    (Value.SimpleString (lit "a\r\nb")).Constructible ∧
    decode (encode (Value.SimpleString (lit "a\r\nb"))) = .ok (Value.SimpleString (lit "a")) ∧
    decode (encode (Value.SimpleString (lit "a\r\nb")))
      ≠ .ok (Value.SimpleString (lit "a\r\nb")) :=
  ⟨.SimpleString _ trivial, by decide, by decide⟩

/-- Claim C2: the bytes `encode` writes are the reference framing.  SimpleString
`s` gives `+ s CRLF`; Error `s` gives `- s CRLF`; Integer `n` gives `:`, the decimal
numeral of `n` (with a leading `-` when negative), CRLF; BulkString `b` gives `$`,
the decimal byte length of `b`, CRLF, the bytes of `b`, CRLF; Null gives exactly
`$-1 CRLF`; Array `xs` gives `*`, the decimal element count, CRLF, then the
encodings of the elements concatenated in order, and the empty array gives exactly
`*0 CRLF`. -/
theorem C2_encode_framing :
    (∀ s : Bytes, encode (Value.SimpleString s) = [43] ++ s ++ [13, 10]) ∧
    (∀ s : Bytes, encode (Value.Error s) = [45] ++ s ++ [13, 10]) ∧
    (∀ n : Int, encode (Value.Integer n) = [58] ++ decimal n ++ [13, 10]) ∧
    (∀ b : Bytes, encode (Value.BulkString b)
        = [36] ++ decimal b.length ++ [13, 10] ++ b ++ [13, 10]) ∧
    encode Value.Null = [36, 45, 49, 13, 10] ∧
    (∀ xs : List Value, encode (Value.Arr xs)
        = [42] ++ decimal xs.length ++ [13, 10] ++ (xs.map encode).flatten) ∧
    encode (Value.Arr []) = [42, 48, 13, 10] := by
  refine ⟨?_, ?_, ?_, ?_, ?_, ?_, ?_⟩
  · intro s
    rw [encode_SimpleString]
    rfl
  · intro s
    rw [encode_Error]
    rfl
  · intro n
    rw [encode_Integer, Itoa_eq_decimal]
    rfl
  · intro b
    rw [encode_BulkString, Itoa_eq_decimal]
    rfl
  · rw [encode_Null]
    rfl
  · intro xs
    rw [encode_Arr, Itoa_eq_decimal]
    rfl
  · decide

/-- Claim C3: for every list of requests, each an array of bulk strings of
arbitrary bytes, the decode loop of `aof.Read` over the concatenation of their
encodings hands the callback exactly those values in the same order and ends
without error; each single decode returns the next request and leaves exactly the
encodings of the requests after it; and on the empty stream that is left after the
last one the decode reports end-of-stream. -/
theorem C3_decode_loop (reqs : List Value) (h : ∀ r ∈ reqs, r.IsRequest) :
    aof.Read (fun (acc : List Value) v => acc ++ [v]) [] (reqs.map encode).flatten
      = .ok reqs ∧
    (∀ pre r post, reqs = pre ++ r :: post →
      Reader.Read (((r :: post).map encode).flatten) = .ok (r, (post.map encode).flatten)) ∧
    Reader.Read [] = .error .EOF := by
  have hs : ∀ r ∈ reqs, r.LineSafe := fun r hr => IsRequest_LineSafe r (h r hr)
  refine ⟨?_, ?_, Reader.Read_nil⟩
  · rw [aof.aof_Read_encode _ reqs hs]
    congr 1
    have : ∀ (l acc : List Value), List.foldl (fun (acc : List Value) v => acc ++ [v]) acc l
        = acc ++ l := by
      intro l
      induction l with
      | nil => simp
      | cons a l ih => intro acc; simp [ih]
    simpa using this reqs []
  · intro pre r post hreq
    simp only [List.map_cons, List.flatten_cons]
    exact Read_encode r (hs r (by rw [hreq]; simp)) _

/-- Claim C3, witness: the log of `SET k "a CR LF b"` followed by `DEL k`. -/
theorem C3_decode_loop_witness :
    aof.Read (fun (acc : List Value) v => acc ++ [v]) []
        ([Value.Arr ([lit "SET", lit "k", lit "a\r\nb"].map Value.BulkString),
          Value.Arr ([lit "DEL", lit "k"].map Value.BulkString)].map encode).flatten
      = .ok [Value.Arr ([lit "SET", lit "k", lit "a\r\nb"].map Value.BulkString),
          Value.Arr ([lit "DEL", lit "k"].map Value.BulkString)] :=
  (C3_decode_loop [Value.Arr ([lit "SET", lit "k", lit "a\r\nb"].map Value.BulkString),
      Value.Arr ([lit "DEL", lit "k"].map Value.BulkString)]
    (List.forall_mem_cons.mpr ⟨⟨_, by decide, by decide, rfl⟩,
      List.forall_mem_cons.mpr ⟨⟨_, by decide, by decide, rfl⟩,
        fun _ hx => absurd hx (List.not_mem_nil _)⟩⟩)).1

/-- Claim C4, amended: `decode` returns an error and no value when the first byte
of the input is not one of `+ - : $ *`; when the input is a proper initial segment
(the empty one included) of the encoding of a value whose SimpleString and Error
texts hold no CR byte and whose bulk strings and arrays are within the allocation
limit of the Go runtime (a declared length above it makes `make` panic); and when
the length field of a `$` frame, the count field of a `*` frame or the body of a
`:` frame, a field without CR byte closed by CR and one more byte, is not a base-10
integer. -/
theorem C4_decode_errors :
    (∀ (t : Nat) (rest : Bytes), t ≠ 43 → t ≠ 45 → t ≠ 58 → t ≠ 36 → t ≠ 42 →
      decode (t :: rest) = .error (.unknownType t)) ∧
    (∀ (v : Value) (p : Bytes), v.LineSafe → p <+: encode v → p ≠ encode v →
      ∃ e, decode p = .error e) ∧
    (∀ (t : Nat) (field : Bytes) (x : Nat) (rest : Bytes), t = 36 ∨ t = 42 ∨ t = 58 →
      CR ∉ field → ¬ IsBase10Integer field →
      decode (t :: (field ++ CR :: x :: rest)) = .error .NumError) := by
  refine ⟨?_, ?_, ?_⟩
  · intro t rest h1 h2 h3 h4 h5
    unfold decode
    rw [Reader.Read_cons]
    simp [ARRAY, BULK, STRING, ERROR, INTEGER, h1, h2, h3, h4, h5]
  · intro v p hv hp hne
    obtain ⟨e, he⟩ := Read_cut v hv p hp hne
    exact ⟨e, by simp [decode, he]⟩
  · intro t field x rest ht hcr hint
    have hparse : strconv.ParseInt field = none := by
      cases hp : strconv.ParseInt field with
      | none => rfl
      | some n => exact absurd (ParseInt_isSome field n hp) hint
    unfold decode
    rw [Reader.Read_cons]
    rcases ht with rfl | rfl | rfl
    · simp [ARRAY, BULK, Reader.readBulk, Reader.readLine_ok field x rest hcr, hparse]
    · simp [ARRAY, Reader.readArray, Reader.readLine_ok field x rest hcr, hparse]
    · simp [ARRAY, BULK, STRING, ERROR, INTEGER, Reader.readInteger,
        Reader.readLine_ok field x rest hcr, hparse]

/-- Claim C4, witness: the unknown first byte `!`; the encoding of the array of
the two bulk strings `GET` and `k` cut after its first element; and a `$` frame
whose length field is `1x`. -/
theorem C4_decode_errors_witness :
    decode (lit "!\r\n") = .error (.unknownType 33) ∧
    (∃ e, decode (lit "*2\r\n$3\r\nGET\r\n") = .error e) ∧
    decode (lit "$1x\r\na\r\n") = .error .NumError :=
  ⟨C4_decode_errors.1 33 (lit "\r\n") (by decide) (by decide) (by decide) (by decide)
      (by decide),
   C4_decode_errors.2.1 (Value.Arr [Value.BulkString (lit "GET"), Value.BulkString (lit "k")])
      (lit "*2\r\n$3\r\nGET\r\n")
      (.Arr _ (by decide) (List.forall_mem_cons.mpr ⟨.BulkString _ (by decide),
        List.forall_mem_cons.mpr ⟨.BulkString _ (by decide),
          fun _ hx => absurd hx (List.not_mem_nil _)⟩⟩))
      ⟨lit "$1\r\nk\r\n", by decide⟩ (by decide),
   C4_decode_errors.2.2 36 (lit "1x") 10 (lit "a\r\n") (by decide) (by decide) (by decide)⟩

/-- Claim C4 as stated is false.  The stream `+a CR LF` is a proper initial
segment of the encoding of the SimpleString with the text `a CR LF b`, and `decode`
returns the SimpleString `a` on it; and on a `$` frame whose length field, up to
the first CR LF, is `1 CR 2`, `decode` returns a BulkString. -/
theorem C4_counterexample :
    (Value.SimpleString (lit "a\r\nb")).Constructible ∧
    lit "+a\r\n" <+: encode (Value.SimpleString (lit "a\r\nb")) ∧
    lit "+a\r\n" ≠ encode (Value.SimpleString (lit "a\r\nb")) ∧
    decode (lit "+a\r\n") = .ok (Value.SimpleString (lit "a")) ∧
    ¬ IsBase10Integer (lit "1\r2") ∧
    decode (lit "$1\r2\r\nab\r\n") = .ok (Value.BulkString (lit "\r")) :=
  ⟨.SimpleString _ trivial, ⟨lit "b\r\n", by decide⟩, by decide, by decide, by decide,
    by decide⟩

end resp
end Gedis

namespace Gedis
open resp

theorem BulkString_ne_Null (b : Bytes) : Value.BulkString b ≠ Value.Null := by
  simp [Value.BulkString, Value.Null]

theorem get_one (arg : Value) (now : Int) (kv : Store) :
    get [arg] now kv =
      match kv arg.Bulk with
      | none => (Value.Null, kv)
      | some entry =>
        if entry.expired now then (Value.Null, kv.delete arg.Bulk)
        else (Value.BulkString entry.Value, kv) := rfl

theorem expired_iff (entry : StorageEntry) (now : Int) :
    entry.expired now = true ↔ ∃ t, entry.ExpiresAt = some t ∧ t < now := by
  unfold StorageEntry.expired
  cases entry.ExpiresAt with
  | none => simp
  | some t => simp [time.Before]

theorem Store.delete_self (kv : Store) (key : Bytes) : kv.delete key key = none := by
  simp [Store.delete]

theorem Store.delete_other (kv : Store) (key k : Bytes) (h : k ≠ key) :
    kv.delete key k = kv k := by
  simp [Store.delete, h]

/-- Claim C5, amended: `GET key` returns Null exactly when the key has no entry or
its entry has an expiry with `expiresAt < now`; in the expired case the entry is
removed from the store (and no other entry is touched); otherwise `GET` returns
the BulkString of the stored value and leaves the store unchanged.  An entry with
no expiry is returned at every time.  An entry with `expiresAt = now` is still
returned. -/
theorem C5_get (kv : Store) (arg : Value) (now : Int) :
    ((get [arg] now kv).1 = Value.Null ↔
      (kv arg.Bulk = none ∨
        ∃ entry t, kv arg.Bulk = some entry ∧ entry.ExpiresAt = some t ∧ t < now)) ∧
    (∀ entry t, kv arg.Bulk = some entry → entry.ExpiresAt = some t → t < now →
      get [arg] now kv = (Value.Null, kv.delete arg.Bulk) ∧
      (get [arg] now kv).2 arg.Bulk = none ∧
      ∀ k, k ≠ arg.Bulk → (get [arg] now kv).2 k = kv k) ∧
    (kv arg.Bulk = none → get [arg] now kv = (Value.Null, kv)) ∧
    (∀ entry, kv arg.Bulk = some entry → (∀ t, entry.ExpiresAt = some t → now ≤ t) →
      get [arg] now kv = (Value.BulkString entry.Value, kv)) ∧
    (∀ entry, kv arg.Bulk = some entry → entry.ExpiresAt = none →
      ∀ t, get [arg] t kv = (Value.BulkString entry.Value, kv)) := by
  refine ⟨?_, ?_, ?_, ?_, ?_⟩
  · rw [get_one]
    cases hkv : kv arg.Bulk with
    | none => simp
    | some entry =>
      by_cases hexp : entry.expired now = true
      · simp only [hexp, if_true, true_iff]
        right
        obtain ⟨t, ht, hlt⟩ := (expired_iff entry now).mp hexp
        exact ⟨entry, t, rfl, ht, hlt⟩
      · simp only [hexp, if_false]
        constructor
        · intro h
          exact absurd h (BulkString_ne_Null _)
        · rintro (h | ⟨e, t, he, ht, hlt⟩)
          · simp at h
          · simp only [Option.some.injEq] at he
            subst he
            exact absurd ((expired_iff entry now).mpr ⟨t, ht, hlt⟩) hexp
  · intro entry t hkv ht hlt
    have hexp : entry.expired now = true := (expired_iff entry now).mpr ⟨t, ht, hlt⟩
    have : get [arg] now kv = (Value.Null, kv.delete arg.Bulk) := by
      rw [get_one, hkv]
      simp [hexp]
    rw [this]
    exact ⟨rfl, Store.delete_self kv _, fun k hk => Store.delete_other kv _ k hk⟩
  · intro hkv
    rw [get_one, hkv]
  · intro entry hkv hle
    have hexp : ¬ entry.expired now = true := by
      intro h
      obtain ⟨t, ht, hlt⟩ := (expired_iff entry now).mp h
      have := hle t ht
      omega
    rw [get_one, hkv]
    simp [hexp]
  · intro entry hkv hnone t
    have hexp : ¬ entry.expired t = true := by
      intro h
      obtain ⟨u, hu, _⟩ := (expired_iff entry t).mp h
      rw [hnone] at hu
      simp at hu
    rw [get_one, hkv]
    simp [hexp]

/-- Claim C5, witness: the key `k` holds `v` with expiry 5.  At time 5 `GET k`
returns `v` and leaves the store as it is; at time 6 it returns Null and removes
the entry. -/
theorem C5_get_witness :
    get [Value.BulkString (lit "k")] 5 (Store.empty.insert (lit "k") ⟨lit "v", some 5⟩)
      = (Value.BulkString (lit "v"), Store.empty.insert (lit "k") ⟨lit "v", some 5⟩) ∧
    get [Value.BulkString (lit "k")] 6 (Store.empty.insert (lit "k") ⟨lit "v", some 5⟩)
      = (Value.Null, (Store.empty.insert (lit "k") ⟨lit "v", some 5⟩).delete (lit "k")) :=
  ⟨(C5_get (Store.empty.insert (lit "k") ⟨lit "v", some 5⟩) (Value.BulkString (lit "k")) 5).2.2.2.1
      ⟨lit "v", some 5⟩ (by decide) (by intro t ht; cases ht; decide),
   ((C5_get (Store.empty.insert (lit "k") ⟨lit "v", some 5⟩) (Value.BulkString (lit "k")) 6).2.1
      ⟨lit "v", some 5⟩ 5 (by decide) rfl (by decide)).1⟩

/-- Claim C5 as stated is false: the key `k` holds `v` with `expiresAt = 5`; at
`now = 5`, where `expiresAt <= now`, `GET k` returns the BulkString `v`, not
Null. -/
theorem C5_counterexample :
    (Store.empty.insert (lit "k") ⟨lit "v", some 5⟩) (lit "k") = some ⟨lit "v", some 5⟩ ∧
    (5 : Int) ≤ 5 ∧
    (get [Value.BulkString (lit "k")] 5 (Store.empty.insert (lit "k") ⟨lit "v", some 5⟩)).1
      = Value.BulkString (lit "v") ∧
    (get [Value.BulkString (lit "k")] 5 (Store.empty.insert (lit "k") ⟨lit "v", some 5⟩)).1
      ≠ Value.Null := by
  refine ⟨by decide, by decide, by decide, by decide⟩

/-- Claim C6, the code at the failing input: the key `k` holds an entry that
expired at time 5.  At time 10 `GET k` returns Null (the entry is expired), yet on
the same store `DEL k` returns Integer 1: `del` counts the entry although it is
expired. -/
theorem C6_del_counts_expired :
    (get [Value.BulkString (lit "k")] 10 (Store.empty.insert (lit "k") ⟨lit "v", some 5⟩)).1
      = Value.Null ∧
    (del [Value.BulkString (lit "k")] (Store.empty.insert (lit "k") ⟨lit "v", some 5⟩)).1
      = Value.Integer 1 := by
  refine ⟨by decide, by decide⟩

end Gedis

namespace Gedis
open resp

theorem delLoop_store (args : List Value) (c : Int) (kv : Store) :
    (delLoop args c kv).2 = fun k => if k ∈ args.map Value.Bulk then none else kv k := by
  induction args generalizing c kv with
  | nil => simp [delLoop]
  | cons a args ih =>
    rw [delLoop]
    cases hkv : kv a.Bulk with
    | none =>
      simp only
      rw [ih]
      funext k
      by_cases hk : k = a.Bulk
      · simp [hk, hkv]
      · simp [hk]
    | some e =>
      simp only
      rw [ih]
      funext k
      by_cases hk : k = a.Bulk
      · simp [hk, Store.delete]
      · simp [hk, Store.delete]

theorem expired_mono (entry : StorageEntry) (t t2 : Int) (h : t ≤ t2)
    (hexp : entry.expired t = true) : entry.expired t2 = true := by
  rw [expired_iff] at hexp ⊢
  obtain ⟨u, hu, hlt⟩ := hexp
  exact ⟨u, hu, by omega⟩

theorem live_delete_expired (kv : Store) (now : Int) (key : Bytes) (entry : StorageEntry)
    (hkv : kv key = some entry) (hexp : entry.expired now = true) (k : Bytes) :
    (kv.delete key).live now k = kv.live now k := by
  unfold Store.live Store.delete
  by_cases hk : k = key
  · subst hk
    simp [hkv, hexp]
  · simp [hk]

theorem exists_mem_cons_iff {α : Type} (P : α → Prop) (x : α) (l : List α) :
    (∃ p ∈ x :: l, P p) ↔ P x ∨ ∃ p ∈ l, P p := by
  simp

theorem ite_exists_cons {α β : Type} (P Q : α → Prop) (x : α) (l : List α) (u v : Option β)
    [Decidable (∃ p ∈ l, P p)] [Decidable (∃ p ∈ x :: l, Q p)]
    (hex : (∃ p ∈ l, P p) ↔ (∃ p ∈ l, Q p)) (hx : Q x → u = none) (hnx : ¬ Q x → u = v) :
    (if ∃ p ∈ l, P p then none else u) = (if ∃ p ∈ x :: l, Q p then none else v) := by
  by_cases c1 : ∃ p ∈ l, P p
  · rw [if_pos c1, if_pos ((exists_mem_cons_iff Q x l).mpr (Or.inr (hex.mp c1)))]
  · by_cases c0 : Q x
    · rw [if_neg c1, if_pos ((exists_mem_cons_iff Q x l).mpr (Or.inl c0))]
      exact hx c0
    · rw [if_neg c1, if_neg (fun h => ((exists_mem_cons_iff Q x l).mp h).elim c0
        (fun h2 => c1 (hex.mpr h2)))]
      exact hnx c0

/-- The loop of `exists` when the readings of the clock do not go back: it counts
the positions whose key holds an entry that is not expired at the reading of that
position, and removes the listed entries found expired at the reading of one of
their positions. -/
theorem existsLoop_spec (now : Nat → Int) (hmono : ∀ i j, i ≤ j → now i ≤ now j)
    (args : List Value) (i : Nat) (count : Int) (kv : Store) :
    existsLoop now args i count kv =
      (count + ((args.enumFrom i).countP (fun p => kv.live (now p.1) p.2.Bulk) : Nat),
       fun k => if ∃ p ∈ args.enumFrom i, p.2.Bulk = k ∧ kv.live (now p.1) k = false
         then none else kv k) := by
  induction args generalizing i count kv with
  | nil => simp [existsLoop]
  | cons a args ih =>
    rw [existsLoop]
    cases hkv : kv a.Bulk with
    | none =>
      simp only
      rw [ih]
      have hl : kv.live (now i) a.Bulk = false := by simp [Store.live, hkv]
      refine Prod.ext ?_ ?_
      · simp [List.countP_cons, hl]
      · funext k
        refine ite_exists_cons _ _ _ _ _ _ Iff.rfl ?_ (fun _ => rfl)
        rintro ⟨hk, _⟩
        rw [← hk]
        exact hkv
    | some entry =>
      simp only
      by_cases hexp : entry.expired (now i) = true
      · rw [if_pos hexp, ih]
        have hl : kv.live (now i) a.Bulk = false := by simp [Store.live, hkv, hexp]
        have hlive : ∀ p ∈ args.enumFrom (i + 1), ∀ k,
            (kv.delete a.Bulk).live (now p.1) k = kv.live (now p.1) k := by
          intro p hp k
          have hle := List.le_fst_of_mem_enumFrom hp
          exact live_delete_expired kv (now p.1) a.Bulk entry hkv
            (expired_mono entry _ _ (hmono i p.1 (by omega)) hexp) k
        have hcount : (args.enumFrom (i + 1)).countP
              (fun p => (kv.delete a.Bulk).live (now p.1) p.2.Bulk)
            = (args.enumFrom (i + 1)).countP (fun p => kv.live (now p.1) p.2.Bulk) := by
          apply List.countP_congr
          intro p hp
          rw [hlive p hp]
        refine Prod.ext ?_ ?_
        · simp [List.countP_cons, hl, hcount]
        · funext k
          have hex : (∃ p ∈ args.enumFrom (i + 1),
                p.2.Bulk = k ∧ (kv.delete a.Bulk).live (now p.1) k = false)
              ↔ (∃ p ∈ args.enumFrom (i + 1), p.2.Bulk = k ∧ kv.live (now p.1) k = false) := by
            constructor
            · rintro ⟨p, hp, h1, h2⟩
              exact ⟨p, hp, h1, by rw [← hlive p hp]; exact h2⟩
            · rintro ⟨p, hp, h1, h2⟩
              exact ⟨p, hp, h1, by rw [hlive p hp]; exact h2⟩
          refine ite_exists_cons _ _ _ _ _ _ hex ?_ ?_
          · rintro ⟨hk, _⟩
            simp [Store.delete, hk]
          · intro hq
            have hk : ¬ k = a.Bulk := by
              intro e
              apply hq
              rw [e]
              exact ⟨rfl, hl⟩
            simp [Store.delete, hk]
      · rw [if_neg hexp, ih]
        have hl : kv.live (now i) a.Bulk = true := by simp [Store.live, hkv, hexp]
        refine Prod.ext ?_ ?_
        · simp [List.countP_cons, hl]
          omega
        · funext k
          refine ite_exists_cons _ _ _ _ _ _ Iff.rfl ?_ (fun _ => rfl)
          rintro ⟨hk, hf⟩
          rw [← hk, hl] at hf
          exact absurd hf (by simp)

theorem countP_enumFrom (f : Value → Bool) (args : List Value) (i : Nat) :
    (args.enumFrom i).countP (fun p => f p.2) = args.countP f := by
  induction args generalizing i with
  | nil => rfl
  | cons a args ih => simp [List.countP_cons, ih]

/-- Go `exists` when every iteration reads the same instant `t`. -/
theorem exists_at (args : List Value) (t : Int) (kv : Store) (h : args ≠ []) :
    «exists» args (fun _ => t) kv =
      (Value.Integer (args.countP (fun a => kv.live t a.Bulk) : Nat),
       fun k => if k ∈ args.map Value.Bulk ∧ kv.live t k = false then none else kv k) := by
  cases args with
  | nil => exact absurd rfl h
  | cons a args =>
    simp only [«exists»]
    rw [existsLoop_spec _ (fun _ _ _ => le_refl t)]
    refine Prod.ext ?_ ?_
    · simp only [zero_add]
      rw [countP_enumFrom (fun a => kv.live t a.Bulk)]
    · funext k
      have hex : (∃ p ∈ (a :: args).enumFrom 0, p.2.Bulk = k ∧ kv.live t k = false)
          ↔ (k ∈ (a :: args).map Value.Bulk ∧ kv.live t k = false) := by
        constructor
        · rintro ⟨p, hp, h1, h2⟩
          exact ⟨List.mem_map.mpr ⟨p.2, List.snd_mem_of_mem_enumFrom hp, h1⟩, h2⟩
        · rintro ⟨h1, h2⟩
          obtain ⟨x, hx, hxk⟩ := List.mem_map.mp h1
          obtain ⟨j, hj, hget⟩ := List.getElem_of_mem hx
          refine ⟨(0 + j, x), ?_, hxk, h2⟩
          rw [List.mk_add_mem_enumFrom_iff_getElem?, List.getElem?_eq_getElem hj, hget]
      simp only [hex]

/-- Claim C7, amended: `exists` reads the clock anew at every position of the key
list.  For every store, non-empty key list and readings of the clock that do not go
back, `EXISTS` returns the Integer that counts the positions whose key holds an
entry that is un-expired at the reading of that position (a key listed twice is
counted twice when it is un-expired both times), removes every listed entry found
expired at the reading of one of its positions, and leaves every other entry
unchanged.  When all readings are the same instant, this is the number of positions
whose key holds an entry un-expired at that instant, and the entries removed are
the listed ones whose expiry has passed at that instant. -/
theorem C7_exists (kv : Store) (args : List Value) (now : Nat → Int)
    (hmono : ∀ i j, i ≤ j → now i ≤ now j) (h : args ≠ []) :
    («exists» args now kv).1
      = Value.Integer (args.enum.countP (fun p => kv.live (now p.1) p.2.Bulk) : Nat) ∧
    (∀ k, (∃ p ∈ args.enum, p.2.Bulk = k ∧
        ∃ entry, kv k = some entry ∧ entry.expired (now p.1) = true) →
      («exists» args now kv).2 k = none) ∧
    (∀ k, ¬ (∃ p ∈ args.enum, p.2.Bulk = k ∧
        ∃ entry, kv k = some entry ∧ entry.expired (now p.1) = true) →
      («exists» args now kv).2 k = kv k) ∧
    (∀ t, (∀ i, now i = t) →
      («exists» args now kv).1
        = Value.Integer (args.countP (fun a => kv.live t a.Bulk) : Nat) ∧
      (∀ k, (k ∈ args.map Value.Bulk ∧ ∃ entry, kv k = some entry ∧ entry.expired t = true) →
        («exists» args now kv).2 k = none) ∧
      (∀ k, ¬ (k ∈ args.map Value.Bulk ∧
          ∃ entry, kv k = some entry ∧ entry.expired t = true) →
        («exists» args now kv).2 k = kv k)) := by
  refine ⟨?_, ?_, ?_, ?_⟩
  · cases args with
    | nil => exact absurd rfl h
    | cons a args =>
      simp only [«exists», List.enum]
      rw [existsLoop_spec now hmono]
      simp
  · rintro k ⟨p, hp, hpk, entry, hkv, hexp⟩
    cases args with
    | nil => exact absurd rfl h
    | cons a args =>
      simp only [«exists»]
      rw [existsLoop_spec now hmono]
      have hl : kv.live (now p.1) k = false := by simp [Store.live, hkv, hexp]
      have hex : ∃ p ∈ (a :: args).enumFrom 0, p.2.Bulk = k ∧ kv.live (now p.1) k = false :=
        ⟨p, hp, hpk, hl⟩
      simp only [hex, if_true]
  · intro k hk
    cases args with
    | nil => exact absurd rfl h
    | cons a args =>
      simp only [«exists»]
      rw [existsLoop_spec now hmono]
      cases hkv : kv k with
      | none =>
        dsimp only
        split
        · rfl
        · exact hkv
      | some entry =>
        have hex : ¬ ∃ p ∈ (a :: args).enumFrom 0,
            p.2.Bulk = k ∧ kv.live (now p.1) k = false := by
          rintro ⟨p, hp, hpk, hl⟩
          apply hk
          refine ⟨p, hp, hpk, entry, hkv, ?_⟩
          unfold Store.live at hl
          rw [hkv] at hl
          simpa using hl
        simp only [hex, if_false]
        exact hkv
  · intro t ht
    have hnow : now = fun _ => t := funext ht
    subst hnow
    rw [exists_at args t kv h]
    refine ⟨rfl, ?_, ?_⟩
    · rintro k ⟨hk, entry, hkv, hexp⟩
      have hl : kv.live t k = false := by simp [Store.live, hkv, hexp]
      simp only [hk, hl, and_self, if_true]
    · intro k hk
      by_cases hmem : k ∈ List.map Value.Bulk args
      · cases hkv : kv k with
        | none => simp [hkv]
        | some entry =>
          have hexp : ¬ entry.expired t = true := fun hexp => hk ⟨hmem, entry, hkv, hexp⟩
          have hl : kv.live t k = true := by simp [Store.live, hkv, hexp]
          simp [hl, hkv]
      · simp only [hmem, false_and, if_false]

/-- Claim C7, witness: `a` holds an entry without expiry and `b` one that expired
at time 5.  With every reading of the clock at time 10, `EXISTS a b a` returns 2,
removes `b` and keeps `a`. -/
theorem C7_exists_witness :
    («exists» [Value.BulkString (lit "a"), Value.BulkString (lit "b"),
        Value.BulkString (lit "a")] (fun _ => 10)
      ((Store.empty.insert (lit "a") ⟨lit "1", none⟩).insert (lit "b") ⟨lit "2", some 5⟩)).1
      = Value.Integer 2 :=
  ((C7_exists ((Store.empty.insert (lit "a") ⟨lit "1", none⟩).insert (lit "b") ⟨lit "2", some 5⟩)
    [Value.BulkString (lit "a"), Value.BulkString (lit "b"), Value.BulkString (lit "a")]
    (fun _ => 10) (fun _ _ _ => le_refl _) (by simp)).2.2.2 10 (fun _ => rfl)).1

/-- Claim C7 as stated is false: the key `k` holds an entry with the expiry 5, and
`EXISTS k k` reads the clock at 5 for the first position and at 6 for the second.
The reply is Integer 1, where at every single current time the number of listed
positions whose key holds an un-expired entry is 0 or 2. -/
theorem C7_counterexample :
    («exists» [Value.BulkString (lit "k"), Value.BulkString (lit "k")]
      (fun i => 5 + (i : Int)) (Store.empty.insert (lit "k") ⟨lit "v", some 5⟩)).1
      = Value.Integer 1 ∧
    ∀ t : Int, [Value.BulkString (lit "k"), Value.BulkString (lit "k")].countP
      (fun a => (Store.empty.insert (lit "k") ⟨lit "v", some 5⟩).live t a.Bulk) ≠ 1 := by
  refine ⟨by decide, ?_⟩
  intro t
  by_cases h : (Store.empty.insert (lit "k") ⟨lit "v", some 5⟩).live t
      (Value.BulkString (lit "k")).Bulk = true
  · simp [List.countP_cons, h]
  · simp [List.countP_cons, h]

end Gedis

namespace Gedis
open resp

theorem ToUpper_eq_EX (tok : Bytes) :
    strings.ToUpper tok = lit "EX" ↔ equalsIgnoringCase tok (lit "EX") = true := by
  have hl : lit "EX" = [69, 88] := by decide
  rw [hl]
  rcases tok with _ | ⟨a, _ | ⟨b, _ | ⟨c, r⟩⟩⟩
  · simp [strings.ToUpper, equalsIgnoringCase]
  · simp [strings.ToUpper, equalsIgnoringCase]
  · simp only [strings.ToUpper, equalsIgnoringCase, sameIgnoringCase, List.map_cons, List.map_nil,
      List.cons.injEq, and_true, Bool.and_true, Bool.or_eq_true, Bool.and_eq_true,
      decide_eq_true_eq]
    constructor
    · rintro ⟨h1, h2⟩
      split at h1 <;> split at h2 <;> omega
    · rintro ⟨h1, h2⟩
      constructor
      · split <;> omega
      · split <;> omega
  · simp [strings.ToUpper, equalsIgnoringCase]

theorem ToUpper_eq_PX (tok : Bytes) :
    strings.ToUpper tok = lit "PX" ↔ equalsIgnoringCase tok (lit "PX") = true := by
  have hl : lit "PX" = [80, 88] := by decide
  rw [hl]
  rcases tok with _ | ⟨a, _ | ⟨b, _ | ⟨c, r⟩⟩⟩
  · simp [strings.ToUpper, equalsIgnoringCase]
  · simp [strings.ToUpper, equalsIgnoringCase]
  · simp only [strings.ToUpper, equalsIgnoringCase, sameIgnoringCase, List.map_cons, List.map_nil,
      List.cons.injEq, and_true, Bool.and_true, Bool.or_eq_true, Bool.and_eq_true,
      decide_eq_true_eq]
    constructor
    · rintro ⟨h1, h2⟩
      split at h1 <;> split at h2 <;> omega
    · rintro ⟨h1, h2⟩
      constructor
      · split <;> omega
      · split <;> omega
  · simp [strings.ToUpper, equalsIgnoringCase]

theorem parseDigits_eq (ds : Bytes) (a : Nat) :
    strconv.parseDigits ds a =
      if ∀ d ∈ ds, 48 ≤ d ∧ d ≤ 57 then some (ds.foldl (fun acc d => 10 * acc + (d - 48)) a)
      else none := by
  induction ds generalizing a with
  | nil => simp [strconv.parseDigits]
  | cons c cs ih =>
    rw [strconv.parseDigits]
    by_cases hc : 48 ≤ c ∧ c ≤ 57
    · rw [if_pos hc, ih]
      by_cases hcs : ∀ d ∈ cs, 48 ≤ d ∧ d ≤ 57
      · have : ∀ d ∈ c :: cs, 48 ≤ d ∧ d ≤ 57 := by
          intro d hd
          rcases List.mem_cons.mp hd with rfl | hd
          · exact hc
          · exact hcs d hd
        rw [if_pos hcs, if_pos this]
        simp [Nat.mul_comm]
      · have : ¬ ∀ d ∈ c :: cs, 48 ≤ d ∧ d ≤ 57 :=
          fun h => hcs (fun d hd => h d (List.mem_cons_of_mem _ hd))
        rw [if_neg hcs, if_neg this]
    · have : ¬ ∀ d ∈ c :: cs, 48 ≤ d ∧ d ≤ 57 := fun h => hc (h c (List.mem_cons_self _ _))
      rw [if_neg hc, if_neg this]

/-- The model of `strconv.Atoi` accepts exactly the base-10 numerals whose value
fits a signed 64-bit integer, and returns that value. -/
theorem Atoi_eq_int64Value (s : Bytes) : strconv.Atoi s = int64Value s := by
  unfold strconv.Atoi int64Value base10Value
  cases s with
  | nil => simp [strconv.ParseInt, IsBase10Integer]
  | cons c cs =>
    simp only [strconv.ParseInt, IsBase10Integer]
    by_cases hc : c = 43 ∨ c = 45
    · simp only [hc, if_true]
      by_cases hnil : cs = []
      · simp [hnil]
      · rw [if_neg hnil, parseDigits_eq]
        by_cases hd : ∀ d ∈ cs, 48 ≤ d ∧ d ≤ 57
        · rw [if_pos hd, if_pos ⟨hnil, hd⟩]
          simp only [digitsValue]
          rcases hc with rfl | rfl
          · simp only [Nat.reduceEqDiff, if_false, if_true]
            split <;> split <;> first | rfl | omega
          · simp only [if_true]
            split <;> split <;> first | rfl | omega
        · rw [if_neg hd, if_neg (fun h => hd h.2)]
    · simp only [hc, if_false]
      rw [if_neg (by simp), parseDigits_eq]
      by_cases hd : ∀ d ∈ c :: cs, 48 ≤ d ∧ d ≤ 57
      · rw [if_pos hd, if_pos hd]
        have h45 : ¬ c = 45 := fun h => hc (Or.inr h)
        have h43 : ¬ c = 43 := fun h => hc (Or.inl h)
        simp only [digitsValue, h45, h43, if_false]
        split <;> split <;> first | rfl | omega
      · rw [if_neg hd, if_neg hd]

theorem scanSetOptions_cons (value : Bytes → Option Int) (tok : Bytes) (rest : List Bytes)
    (last : Option SetOption) :
    scanSetOptions value (tok :: rest) last =
      if equalsIgnoringCase tok (lit "EX") then
        match rest with
        | [] => .error (Value.Error (lit "ERR syntax error"))
        | n :: rest =>
          match value n with
          | none => .error (Value.Error (lit "ERR value is not an integer or out of range"))
          | some seconds => scanSetOptions value rest (some (.EX seconds))
      else if equalsIgnoringCase tok (lit "PX") then
        match rest with
        | [] => .error (Value.Error (lit "ERR syntax error"))
        | n :: rest =>
          match value n with
          | none => .error (Value.Error (lit "ERR value is not an integer or out of range"))
          | some millis => scanSetOptions value rest (some (.PX millis))
      else scanSetOptions value rest last := by
  cases rest with
  | nil =>
    simp only [scanSetOptions]
    by_cases h1 : equalsIgnoringCase tok (lit "EX") = true
    · simp [h1]
    · by_cases h2 : equalsIgnoringCase tok (lit "PX") = true
      · simp [h1, h2]
      · simp [h1, h2]
  | cons n rest => simp only [scanSetOptions]

theorem setLoop_eq_scan (args : List Value) (now : Int) (fuel i : Nat)
    (last : Option SetOption) (h : args.length ≤ i + fuel) :
    setLoop args now fuel i (last.map (SetOption.stored now)) =
      match scanSetOptions int64Value ((args.drop i).map Value.Bulk) last with
      | .error reply => .error reply
      | .ok l => .ok (l.map (SetOption.stored now)) := by
  induction fuel generalizing i last with
  | zero =>
    have : args.drop i = [] := List.drop_eq_nil_of_le (by omega)
    simp [setLoop, this, scanSetOptions]
  | succ fuel ih =>
    rw [setLoop]
    cases hi : args[i]? with
    | none =>
      have : args.drop i = [] := List.drop_eq_nil_of_le (List.getElem?_eq_none_iff.mp hi)
      simp [this, scanSetOptions]
    | some argi =>
      have hlt : i < args.length := (List.getElem?_eq_some_iff.mp hi).1
      have hdrop : args.drop i = argi :: args.drop (i + 1) := by
        rw [List.drop_eq_getElem_cons hlt]
        congr 1
        exact (List.getElem?_eq_some_iff.mp hi).2
      simp only [hdrop, List.map_cons]
      rw [scanSetOptions_cons]
      by_cases hex : strings.ToUpper argi.Bulk = lit "EX"
      · have hex2 := (ToUpper_eq_EX _).mp hex
        simp only [hex, hex2, if_true]
        cases hn : args[i + 1]? with
        | none =>
          have : args.drop (i + 1) = [] :=
            List.drop_eq_nil_of_le (List.getElem?_eq_none_iff.mp hn)
          simp [this]
        | some argn =>
          have hlt2 : i + 1 < args.length := (List.getElem?_eq_some_iff.mp hn).1
          have hdrop2 : args.drop (i + 1) = argn :: args.drop (i + 1 + 1) := by
            rw [List.drop_eq_getElem_cons hlt2]
            congr 1
            exact (List.getElem?_eq_some_iff.mp hn).2
          simp only [hdrop2, List.map_cons, Atoi_eq_int64Value]
          cases int64Value argn.Bulk with
          | none => rfl
          | some seconds =>
            simp only
            exact ih (i + 1 + 1) (some (.EX seconds)) (by omega)
      · have hex2 : ¬ equalsIgnoringCase argi.Bulk (lit "EX") = true :=
          fun h => hex ((ToUpper_eq_EX _).mpr h)
        simp only [hex, hex2, if_false]
        by_cases hpx : strings.ToUpper argi.Bulk = lit "PX"
        · have hpx2 := (ToUpper_eq_PX _).mp hpx
          simp only [hpx, hpx2, if_true]
          cases hn : args[i + 1]? with
          | none =>
            have : args.drop (i + 1) = [] :=
              List.drop_eq_nil_of_le (List.getElem?_eq_none_iff.mp hn)
            simp [this]
          | some argn =>
            have hlt2 : i + 1 < args.length := (List.getElem?_eq_some_iff.mp hn).1
            have hdrop2 : args.drop (i + 1) = argn :: args.drop (i + 1 + 1) := by
              rw [List.drop_eq_getElem_cons hlt2]
              congr 1
              exact (List.getElem?_eq_some_iff.mp hn).2
            simp only [hdrop2, List.map_cons, Atoi_eq_int64Value]
            cases int64Value argn.Bulk with
            | none => rfl
            | some millis =>
              simp only
              exact ih (i + 1 + 1) (some (.PX millis)) (by omega)
        · have hpx2 : ¬ equalsIgnoringCase argi.Bulk (lit "PX") = true :=
            fun h => hpx ((ToUpper_eq_PX _).mpr h)
          simp only [hpx, hpx2, if_false]
          exact ih (i + 1) last (by omega)

/-- The loop of `set` scans the options in one left-to-right pass, the integers
being the base-10 numerals that fit 64 bits, and stores the expiry it computes for
the last option scanned. -/
theorem set_eq_scan (key value : Value) (options : List Value) (now : Int) (kv : Store) :
    set (key :: value :: options) now kv =
      match scanSetOptions int64Value (options.map Value.Bulk) none with
      | .error reply => (reply, kv)
      | .ok last =>
        (Value.SimpleString (lit "OK"),
          kv.insert key.Bulk ⟨value.Bulk, last.map (SetOption.stored now)⟩) := by
  have h := setLoop_eq_scan (key :: value :: options) now (key :: value :: options).length 2 none
    (by omega)
  simp only [Option.map_none', List.drop_succ_cons, List.drop_zero] at h
  simp only [set, h]
  cases scanSetOptions int64Value (options.map Value.Bulk) none with
  | error reply => rfl
  | ok last => rfl

theorem wrapInt64_of_fits (x : Int) (h0 : -2 ^ 63 ≤ x) (h1 : x < 2 ^ 63) :
    time.wrapInt64 x = x := by
  unfold time.wrapInt64
  omega

/-- When the duration of an option fits 64 bits, the expiry that `set` computes is
the expiry the option asks for. -/
theorem stored_eq_expiry (now : Int) (opt : SetOption) (h : opt.fits) :
    opt.stored now = opt.expiry now := by
  cases opt with
  | EX seconds =>
    unfold SetOption.fits at h
    simp only [SetOption.stored, SetOption.expiry, time.Add, time.Duration, time.Second]
    rw [wrapInt64_of_fits _ h.1 h.2]
  | PX millis =>
    unfold SetOption.fits at h
    simp only [SetOption.stored, SetOption.expiry, time.Add, time.Duration, time.Millisecond]
    rw [wrapInt64_of_fits _ h.1 h.2]

/-- The reply of `set` is the reply of the single pass, whatever the numbers. -/
theorem set_reply (key value : Value) (options : List Value) (now : Int) (kv : Store) :
    (set (key :: value :: options) now kv).1
      = (setOutcome int64Value key.Bulk value.Bulk (options.map Value.Bulk) now kv).1 := by
  rw [set_eq_scan]
  unfold setOutcome
  cases scanSetOptions int64Value (options.map Value.Bulk) none with
  | error reply => rfl
  | ok last => rfl

/-- The loop of `set` is the single left-to-right pass of the specification, with
the integers being the base-10 numerals that fit 64 bits, when the duration of the
last option scanned fits 64 bits. -/
theorem set_eq_setOutcome (key value : Value) (options : List Value) (now : Int) (kv : Store)
    (hfit : ∀ opt, scanSetOptions int64Value (options.map Value.Bulk) none = .ok (some opt) →
      opt.fits) :
    set (key :: value :: options) now kv
      = setOutcome int64Value key.Bulk value.Bulk (options.map Value.Bulk) now kv := by
  rw [set_eq_scan]
  unfold setOutcome
  cases hs : scanSetOptions int64Value (options.map Value.Bulk) none with
  | error reply => rfl
  | ok last =>
    cases last with
    | none => rfl
    | some opt =>
      simp only [Option.map_some']
      rw [stored_eq_expiry now opt (hfit opt hs)]

end Gedis

namespace Gedis
open resp

theorem wrapInt64_of_range (x : Int) (h0 : 0 ≤ x) (h1 : x < 2 ^ 63) : time.wrapInt64 x = x := by
  unfold time.wrapInt64
  omega

theorem set_option_one (key value opt : Bytes) (n unit t0 : Int) (kv : Store)
    (hopt : (opt = lit "PX" ∧ unit = 1000000) ∨ (opt = lit "EX" ∧ unit = 1000000000))
    (h0 : 0 ≤ n) (hb : n * unit < 2 ^ 63) :
    set [Value.BulkString key, Value.BulkString value, Value.BulkString opt,
        Value.BulkString (strconv.Itoa n)] t0 kv
      = (Value.SimpleString (lit "OK"), kv.insert key ⟨value, some (t0 + n * unit)⟩) := by
  rw [set_eq_scan]
  have hn : int64Value (strconv.Itoa n) = some n := by
    rw [← Atoi_eq_int64Value]
    apply strconv.ParseInt_Itoa
    · omega
    · rcases hopt with ⟨_, rfl⟩ | ⟨_, rfl⟩ <;> omega
  rcases hopt with ⟨rfl, rfl⟩ | ⟨rfl, rfl⟩
  · have e1 : equalsIgnoringCase (lit "PX") (lit "EX") = false := by decide
    have e2 : equalsIgnoringCase (lit "PX") (lit "PX") = true := by decide
    simp only [List.map_cons, List.map_nil, Value.BulkString, Value.Bulk,
      scanSetOptions, e1, e2, hn, Bool.false_eq_true, if_false, if_true, Option.map_some',
      SetOption.stored, time.Add, time.Duration, time.Millisecond]
    rw [wrapInt64_of_range _ (by omega) hb]
  · have e1 : equalsIgnoringCase (lit "EX") (lit "EX") = true := by decide
    simp only [List.map_cons, List.map_nil, Value.BulkString, Value.Bulk,
      scanSetOptions, e1, hn, if_true, Option.map_some',
      SetOption.stored, time.Add, time.Duration, time.Second]
    rw [wrapInt64_of_range _ (by omega) hb]

/-- Claim C9, amended: for every key, value, call time `t0` and non-negative
integer `n` whose duration in nanoseconds (`n * 10^6` for PX, `n * 10^9` for EX)
fits a signed 64-bit integer: after `SET key value PX n` executed at `t0`, `GET key`
at any time `t` with `t0 <= t < t0 + n ms` returns the BulkString of the value, and
`GET key` at any time `t > t0 + n ms` returns Null, after which `EXISTS key` returns
Integer 0; the same with EX and seconds.  Times are in nanoseconds. -/
theorem C9_set_then_get (kv : Store) (key value opt : Bytes) (n unit t0 : Int)
    (hopt : (opt = lit "PX" ∧ unit = 1000000) ∨ (opt = lit "EX" ∧ unit = 1000000000))
    (h0 : 0 ≤ n) (hb : n * unit < 2 ^ 63) :
    (∀ t, t0 ≤ t → t < t0 + n * unit →
      (get [Value.BulkString key] t
        (set [Value.BulkString key, Value.BulkString value, Value.BulkString opt,
          Value.BulkString (strconv.Itoa n)] t0 kv).2).1 = Value.BulkString value) ∧
    (∀ t, t0 + n * unit < t →
      (get [Value.BulkString key] t
        (set [Value.BulkString key, Value.BulkString value, Value.BulkString opt,
          Value.BulkString (strconv.Itoa n)] t0 kv).2).1 = Value.Null ∧
      ∀ t2, («exists» [Value.BulkString key] t2
        (get [Value.BulkString key] t
          (set [Value.BulkString key, Value.BulkString value, Value.BulkString opt,
            Value.BulkString (strconv.Itoa n)] t0 kv).2).2).1 = Value.Integer 0) := by
  rw [set_option_one key value opt n unit t0 kv hopt h0 hb]
  dsimp only
  have hk : (kv.insert key ⟨value, some (t0 + n * unit)⟩) (Value.BulkString key).Bulk
      = some ⟨value, some (t0 + n * unit)⟩ := by
    simp [Store.insert, Value.BulkString, Value.Bulk]
  constructor
  · intro t _ ht
    have hexp : ¬ (StorageEntry.mk value (some (t0 + n * unit))).expired t = true := by
      rw [expired_iff]
      rintro ⟨u, hu, hlt⟩
      simp only [Option.some.injEq] at hu
      omega
    rw [get_one, hk]
    simp [hexp]
  · intro t ht
    have hexp : (StorageEntry.mk value (some (t0 + n * unit))).expired t = true := by
      rw [expired_iff]
      exact ⟨_, rfl, ht⟩
    have hget : get [Value.BulkString key] t (kv.insert key ⟨value, some (t0 + n * unit)⟩)
        = (Value.Null, (kv.insert key ⟨value, some (t0 + n * unit)⟩).delete key) := by
      rw [get_one, hk]
      simp [hexp, Value.BulkString, Value.Bulk]
    rw [hget]
    refine ⟨rfl, fun t2 => ?_⟩
    simp [«exists», existsLoop, Value.BulkString, Value.Bulk, Store.delete]

/-- Claim C9, witness: `SET k v PX 50` at time 1000 ns; `GET k` one nanosecond
before the 50 ms are over returns `v`, and one nanosecond after they are over it
returns Null. -/
theorem C9_set_then_get_witness :
    (get [Value.BulkString (lit "k")] 50000999
      (set [Value.BulkString (lit "k"), Value.BulkString (lit "v"), Value.BulkString (lit "PX"),
        Value.BulkString (strconv.Itoa 50)] 1000 Store.empty).2).1
      = Value.BulkString (lit "v") ∧
    (get [Value.BulkString (lit "k")] 50001001
      (set [Value.BulkString (lit "k"), Value.BulkString (lit "v"), Value.BulkString (lit "PX"),
        Value.BulkString (strconv.Itoa 50)] 1000 Store.empty).2).1
      = Value.Null :=
  ⟨(C9_set_then_get Store.empty (lit "k") (lit "v") (lit "PX") 50 1000000 1000
      (Or.inl ⟨rfl, rfl⟩) (by decide) (by decide)).1 50000999 (by decide) (by decide),
   ((C9_set_then_get Store.empty (lit "k") (lit "v") (lit "PX") 50 1000000 1000
      (Or.inl ⟨rfl, rfl⟩) (by decide) (by decide)).2 50001001 (by decide)).1⟩

/-- Claim C9 as stated is false: after `SET k v PX 9223372036855` executed at time
0, `GET k` at time 0 returns Null.  The product `9223372036855 * 10^6` does not fit
a signed 64-bit integer and wraps to a negative duration, so the expiry lies in the
past. -/
theorem C9_counterexample :
    (0 : Int) ≤ 9223372036855 ∧
    (set [Value.BulkString (lit "k"), Value.BulkString (lit "v"), Value.BulkString (lit "PX"),
        Value.BulkString (lit "9223372036855")] 0 Store.empty).2 (lit "k")
      = some ⟨lit "v", some (-9223372036854551616)⟩ ∧
    (get [Value.BulkString (lit "k")] 0
      (set [Value.BulkString (lit "k"), Value.BulkString (lit "v"), Value.BulkString (lit "PX"),
        Value.BulkString (lit "9223372036855")] 0 Store.empty).2).1 = Value.Null := by
  refine ⟨by decide, by decide, by decide⟩

/-- Claim C10, amended: for every `SET` argument list with at least a key and a
value, the reply is that of one left-to-right pass over the remaining arguments in
which each token equal to EX or PX ignoring case consumes the next argument.  If an
option token is the last argument the reply is Error `ERR syntax error`; if the
consumed argument is not a base-10 integer that fits a signed 64-bit integer the
reply is Error `ERR value is not an integer or out of range`; in both error cases
the store is unchanged.  Otherwise the reply is SimpleString OK and the key maps to
the value, overwriting any previous entry, with no expiry when no option was given,
and else with the expiry given by the last option scanned, `n` seconds (EX) or `n`
milliseconds (PX) after the call, provided the duration `n * 10^9` ns (`n * 10^6`
ns) of that option fits a signed 64-bit integer. -/
theorem C10_set_single_pass (key value : Value) (options : List Value) (now : Int)
    (kv : Store) :
    (set (key :: value :: options) now kv).1
      = (setOutcome int64Value key.Bulk value.Bulk (options.map Value.Bulk) now kv).1 ∧
    (∀ reply, scanSetOptions int64Value (options.map Value.Bulk) none = .error reply →
      set (key :: value :: options) now kv = (reply, kv)) ∧
    ((∀ opt, scanSetOptions int64Value (options.map Value.Bulk) none = .ok (some opt) →
        opt.fits) →
      set (key :: value :: options) now kv
        = setOutcome int64Value key.Bulk value.Bulk (options.map Value.Bulk) now kv) := by
  refine ⟨set_reply key value options now kv, ?_, set_eq_setOutcome key value options now kv⟩
  intro reply h
  rw [set_eq_scan, h]

/-- Claim C10, witness: `SET k v EX 10 PX 5` at time 0 replies OK and stores `v`
with the expiry 5 ms after the call; `SET k v ex` replies with the syntax error and
`SET k v px ten` with the not-an-integer error, both leaving the store as it
was. -/
theorem C10_set_single_pass_witness :
    set [Value.BulkString (lit "k"), Value.BulkString (lit "v"), Value.BulkString (lit "EX"),
        Value.BulkString (lit "10"), Value.BulkString (lit "PX"), Value.BulkString (lit "5")]
        0 Store.empty
      = (Value.SimpleString (lit "OK"),
          Store.empty.insert (lit "k") ⟨lit "v", some 5000000⟩) ∧
    set [Value.BulkString (lit "k"), Value.BulkString (lit "v"), Value.BulkString (lit "ex")]
        0 Store.empty
      = (Value.Error (lit "ERR syntax error"), Store.empty) ∧
    set [Value.BulkString (lit "k"), Value.BulkString (lit "v"), Value.BulkString (lit "px"),
        Value.BulkString (lit "ten")] 0 Store.empty
      = (Value.Error (lit "ERR value is not an integer or out of range"), Store.empty) :=
  ⟨((C10_set_single_pass (Value.BulkString (lit "k")) (Value.BulkString (lit "v"))
      [Value.BulkString (lit "EX"), Value.BulkString (lit "10"), Value.BulkString (lit "PX"),
        Value.BulkString (lit "5")] 0 Store.empty).2.2 (by
          intro opt h
          have hs : scanSetOptions int64Value
              ([Value.BulkString (lit "EX"), Value.BulkString (lit "10"),
                Value.BulkString (lit "PX"), Value.BulkString (lit "5")].map Value.Bulk) none
              = .ok (some (.PX 5)) := by rfl
          rw [hs] at h
          cases h
          decide)).trans (by rfl),
   (C10_set_single_pass (Value.BulkString (lit "k")) (Value.BulkString (lit "v"))
      [Value.BulkString (lit "ex")] 0 Store.empty).2.1 _ (by rfl),
   (C10_set_single_pass (Value.BulkString (lit "k")) (Value.BulkString (lit "v"))
      [Value.BulkString (lit "px"), Value.BulkString (lit "ten")] 0 Store.empty).2.1 _
      (by rfl)⟩

/-- Claim C10 as stated is false.  `9223372036854775808` is a base-10 integer, so
the pass of the claim replies OK to `SET k v EX 9223372036854775808`; the code
replies with the error `ERR value is not an integer or out of range`.  And for
`SET k v EX 9223372037` at time 0 the option gives the expiry 9223372037 s after the
call, where the code stores an expiry before the call: the product
`9223372037 * 10^9` wraps around in 64 bits. -/
theorem C10_counterexample :
    IsBase10Integer (lit "9223372036854775808") ∧
    (setOutcome base10Value (lit "k") (lit "v") [lit "EX", lit "9223372036854775808"]
      0 Store.empty).1 = Value.SimpleString (lit "OK") ∧
    (set [Value.BulkString (lit "k"), Value.BulkString (lit "v"), Value.BulkString (lit "EX"),
        Value.BulkString (lit "9223372036854775808")] 0 Store.empty).1
      = Value.Error (lit "ERR value is not an integer or out of range") ∧
    (setOutcome int64Value (lit "k") (lit "v") [lit "EX", lit "9223372037"] 0 Store.empty).2
        (lit "k") = some ⟨lit "v", some 9223372037000000000⟩ ∧
    (set [Value.BulkString (lit "k"), Value.BulkString (lit "v"), Value.BulkString (lit "EX"),
        Value.BulkString (lit "9223372037")] 0 Store.empty).2 (lit "k")
      = some ⟨lit "v", some (-9223372036709551616)⟩ := by
  refine ⟨by decide, by decide, by decide, by decide, by decide⟩

end Gedis

namespace Gedis
namespace float64

theorem roundHalfEven_le_of_lt (x : ℚ) (J : ℤ) (h : x < J + 1 / 2) : roundHalfEven x ≤ J := by
  have hf1 : (⌊x⌋ : ℚ) ≤ x := Int.floor_le x
  have hfJ : ⌊x⌋ ≤ J := by
    have : (⌊x⌋ : ℚ) < J + 1 := by linarith
    have : ⌊x⌋ < J + 1 := by exact_mod_cast this
    omega
  unfold roundHalfEven
  split
  · exact hfJ
  · rename_i h1
    have h2 : (⌊x⌋ : ℚ) + 1 / 2 ≤ x := by linarith
    have h3 : (⌊x⌋ : ℚ) < J := by linarith
    have h4 : ⌊x⌋ < J := by exact_mod_cast h3
    split
    · omega
    · split <;> omega

theorem le_roundHalfEven_of_lt (x : ℚ) (J : ℤ) (h : (J : ℚ) - 1 / 2 < x) :
    J ≤ roundHalfEven x := by
  have hf2 : x < (⌊x⌋ : ℚ) + 1 := Int.lt_floor_add_one x
  unfold roundHalfEven
  split
  · rename_i h1
    have h3 : (J : ℚ) < ⌊x⌋ + 1 := by linarith
    have h4 : J < ⌊x⌋ + 1 := by exact_mod_cast h3
    omega
  · have h3 : (J : ℚ) < ⌊x⌋ + 1 + 1 := by linarith
    have h4 : J < ⌊x⌋ + 1 + 1 := by exact_mod_cast h3
    split
    · omega
    · split
      · rename_i h1 h2 _
        have h5 : x - ⌊x⌋ = 1 / 2 := le_antisymm (not_lt.mp h2) (not_lt.mp h1)
        have h6 : (J : ℚ) < ⌊x⌋ + 1 := by linarith
        have h7 : J < ⌊x⌋ + 1 := by exact_mod_cast h6
        omega
      · omega

theorem roundHalfEven_le (x : ℚ) (J : ℤ) (h : x ≤ J) : roundHalfEven x ≤ J :=
  roundHalfEven_le_of_lt x J (by linarith)

theorem le_roundHalfEven (x : ℚ) (J : ℤ) (h : (J : ℚ) ≤ x) : J ≤ roundHalfEven x :=
  le_roundHalfEven_of_lt x J (by linarith)

theorem two_zpow_pos (e : ℤ) : (0 : ℚ) < 2 ^ e := zpow_pos (by norm_num) e

/-- Rounding does not cross a multiple of the unit in the last place from below. -/
theorem round_le_of_lt (q : ℚ) (K : ℤ) (hq : q ≠ 0)
    (h : q / 2 ^ (Int.log 2 |q| - 52) < K + 1 / 2) :
    round q ≤ K * 2 ^ (Int.log 2 |q| - 52) := by
  unfold round
  rw [if_neg hq]
  have hp := two_zpow_pos (Int.log 2 |q| - 52)
  have : roundHalfEven (q / 2 ^ (Int.log 2 |q| - 52)) ≤ K := roundHalfEven_le_of_lt _ K h
  have : (roundHalfEven (q / 2 ^ (Int.log 2 |q| - 52)) : ℚ) ≤ K := by exact_mod_cast this
  exact mul_le_mul_of_nonneg_right this (le_of_lt hp)

/-- Rounding does not cross a multiple of the unit in the last place from above. -/
theorem le_round_of_lt (q : ℚ) (K : ℤ) (hq : q ≠ 0)
    (h : (K : ℚ) - 1 / 2 < q / 2 ^ (Int.log 2 |q| - 52)) :
    K * 2 ^ (Int.log 2 |q| - 52) ≤ round q := by
  unfold round
  rw [if_neg hq]
  have hp := two_zpow_pos (Int.log 2 |q| - 52)
  have : K ≤ roundHalfEven (q / 2 ^ (Int.log 2 |q| - 52)) := le_roundHalfEven_of_lt _ K h
  have : (K : ℚ) ≤ roundHalfEven (q / 2 ^ (Int.log 2 |q| - 52)) := by exact_mod_cast this
  exact mul_le_mul_of_nonneg_right this (le_of_lt hp)

theorem round_le (q c : ℚ) (K : ℤ) (hq : q ≠ 0) (hc : c = K * 2 ^ (Int.log 2 |q| - 52))
    (h : q ≤ c) : round q ≤ c := by
  rw [hc]
  apply round_le_of_lt q K hq
  have hp := two_zpow_pos (Int.log 2 |q| - 52)
  have : q / 2 ^ (Int.log 2 |q| - 52) ≤ K := by
    rw [div_le_iff₀ hp]
    rw [hc] at h
    exact h
  linarith

theorem le_round (q c : ℚ) (K : ℤ) (hq : q ≠ 0) (hc : c = K * 2 ^ (Int.log 2 |q| - 52))
    (h : c ≤ q) : c ≤ round q := by
  rw [hc]
  apply le_round_of_lt q K hq
  have hp := two_zpow_pos (Int.log 2 |q| - 52)
  have : (K : ℚ) ≤ q / 2 ^ (Int.log 2 |q| - 52) := by
    rw [le_div_iff₀ hp]
    rw [hc] at h
    exact h
  linarith

/-- A multiple of `2 ^ e2` is a multiple of every smaller power of two. -/
theorem dyadic_multiple (m e2 e : ℤ) (h : e ≤ e2) :
    ∃ K : ℤ, (m : ℚ) * 2 ^ e2 = K * 2 ^ e := by
  refine ⟨m * 2 ^ (e2 - e).toNat, ?_⟩
  have h1 : ((e2 - e).toNat : ℤ) = e2 - e := Int.toNat_of_nonneg (by omega)
  have h2 : (2 : ℚ) ^ e2 = 2 ^ (e2 - e) * 2 ^ e := by
    rw [← zpow_add₀ (by norm_num : (2 : ℚ) ≠ 0)]
    congr 1
    omega
  have h3 : ((2 : ℚ) ^ (e2 - e).toNat) = 2 ^ (e2 - e) := by
    rw [← zpow_natCast, h1]
  push_cast
  rw [h2, h3]
  ring

theorem log_le (q : ℚ) (k : ℤ) (hq : 0 < q) (h : q < 2 ^ (k + 1)) : Int.log 2 |q| ≤ k := by
  rw [abs_of_pos hq]
  have := (Int.lt_zpow_iff_log_lt (b := 2) (by norm_num) hq).mp (by exact_mod_cast h)
  omega

theorem log_eq (q : ℚ) (k : ℤ) (hq : 0 < q) (h1 : 2 ^ k ≤ q) (h2 : q < 2 ^ (k + 1)) :
    Int.log 2 |q| = k := by
  have hle := log_le q k hq h2
  rw [abs_of_pos hq] at hle ⊢
  have := (Int.zpow_le_iff_le_log (b := 2) (by norm_num) hq).mp (by exact_mod_cast h1)
  omega

/-- Rounding a positive number below `2 ^ (k + 1)` keeps it on its side of every
multiple of `2 ^ e2`, for `e2 >= k - 52`. -/
theorem round_le_dyadic (q : ℚ) (k m e2 : ℤ) (hq : 0 < q) (hk : q < 2 ^ (k + 1))
    (he : k - 52 ≤ e2) (h : q ≤ m * 2 ^ e2) : round q ≤ m * 2 ^ e2 := by
  have hl := log_le q k hq hk
  obtain ⟨K, hK⟩ := dyadic_multiple m e2 (Int.log 2 |q| - 52) (by omega)
  exact round_le q _ K (ne_of_gt hq) hK h

theorem le_round_dyadic (q : ℚ) (k m e2 : ℤ) (hq : 0 < q) (hk : q < 2 ^ (k + 1))
    (he : k - 52 ≤ e2) (h : (m : ℚ) * 2 ^ e2 ≤ q) : (m : ℚ) * 2 ^ e2 ≤ round q := by
  have hl := log_le q k hq hk
  obtain ⟨K, hK⟩ := dyadic_multiple m e2 (Int.log 2 |q| - 52) (by omega)
  exact le_round q _ K (ne_of_gt hq) hK h

/-- An integer below `2 ^ 53` is a `float64`. -/
theorem round_int (n : ℤ) (h0 : 0 ≤ n) (h1 : n < 2 ^ 53) : round (n : ℚ) = n := by
  by_cases hn : n = 0
  · simp [hn, round]
  · have hpos : (0 : ℚ) < n := by exact_mod_cast (by omega : 0 < n)
    have hlt : (n : ℚ) < 2 ^ ((52 : ℤ) + 1) := by
      have : (n : ℚ) < 2 ^ 53 := by exact_mod_cast h1
      norm_num
      norm_num at this
      exact this
    have a := round_le_dyadic n 52 n 0 hpos hlt (by omega) (by simp)
    have b := le_round_dyadic n 52 n 0 hpos hlt (by omega) (by simp)
    simp only [zpow_zero, mul_one] at a b
    exact le_antisymm a b

theorem round_nonneg (q : ℚ) (h : 0 ≤ q) : 0 ≤ round q := by
  by_cases hq : q = 0
  · simp [hq, round]
  · have := le_round q 0 0 hq (by simp) h
    exact this

end float64
end Gedis

namespace Gedis
namespace float64

theorem round_eq (q : ℚ) (k m : ℤ) (hq : 0 < q) (h1 : 2 ^ k ≤ q) (h2 : q < 2 ^ (k + 1))
    (h3 : (m : ℚ) - 1 / 2 < q / 2 ^ (k - 52)) (h4 : q / 2 ^ (k - 52) < m + 1 / 2) :
    round q = m * 2 ^ (k - 52) := by
  have hl := log_eq q k hq h1 h2
  have a := round_le_of_lt q m (ne_of_gt hq) (by rw [hl]; exact h4)
  have b := le_round_of_lt q m (ne_of_gt hq) (by rw [hl]; exact h3)
  rw [hl] at a b
  exact le_antisymm a b

/-- Rounding a number below `2 ^ 24` that lies at least `2 ^ -30 + 2 ^ -53` under
the integer `n + 1` does not reach `n + 1`. -/
theorem round_lt_succ (x : ℚ) (n : ℤ) (hx : 0 < x) (hk : x < 2 ^ ((23 : ℤ) + 1))
    (h : x ≤ n + 1 - 2 ^ (-30 : ℤ) - 2 ^ (-53 : ℤ)) : round x < n + 1 := by
  have hl := log_le x 23 hx hk
  have he : Int.log 2 |x| - 52 ≤ -29 := by omega
  have hp := two_zpow_pos (Int.log 2 |x| - 52)
  have hP : (2 : ℚ) ^ (29 : ℤ) ≤ 2 ^ (-(Int.log 2 |x| - 52)) :=
    zpow_le_zpow_right₀ (by norm_num) (by omega)
  have hinv : (2 : ℚ) ^ (-(Int.log 2 |x| - 52)) * 2 ^ (Int.log 2 |x| - 52) = 1 := by
    rw [← zpow_add₀ (by norm_num : (2 : ℚ) ≠ 0)]
    simp
  have hnat : ((2 : ℚ) ^ (-(Int.log 2 |x| - 52)).toNat) = 2 ^ (-(Int.log 2 |x| - 52)) := by
    rw [← zpow_natCast, Int.toNat_of_nonneg (by omega)]
  have hdiv : x / 2 ^ (Int.log 2 |x| - 52) = x * 2 ^ (-(Int.log 2 |x| - 52)) := by
    rw [zpow_neg, div_eq_mul_inv]
  have hlin : x * 2 ^ (-(Int.log 2 |x| - 52))
      < ((n : ℚ) + 1) * 2 ^ (-(Int.log 2 |x| - 52)) - 1 + 1 / 2 := by
    have hP2 : (536870912 : ℚ) ≤ 2 ^ (-(Int.log 2 |x| - 52)) := by
      have : (2 : ℚ) ^ (29 : ℤ) = 536870912 := by norm_num
      rw [← this]
      exact hP
    have hgap : (1 : ℚ) / 1073741824 < (n : ℚ) + 1 - x := by
      norm_num at h ⊢
      linarith
    generalize (2 : ℚ) ^ (-(Int.log 2 |x| - 52)) = P at *
    have hmul := mul_lt_mul hgap hP2 (by norm_num) (by linarith : (0 : ℚ) ≤ (n : ℚ) + 1 - x)
    have e : ((n : ℚ) + 1 - x) * P = ((n : ℚ) + 1) * P - x * P := by ring
    rw [e] at hmul
    norm_num at hmul
    linarith
  have key := round_le_of_lt x ((n + 1) * 2 ^ (-(Int.log 2 |x| - 52)).toNat - 1) (ne_of_gt hx) (by
    rw [hdiv]
    push_cast
    rw [hnat]
    exact hlin)
  push_cast at key
  rw [hnat] at key
  have : ((n : ℚ) + 1) * 2 ^ (-(Int.log 2 |x| - 52)) * 2 ^ (Int.log 2 |x| - 52) = n + 1 := by
    rw [mul_assoc, hinv, mul_one]
  have key2 : round x ≤ n + 1 - 2 ^ (Int.log 2 |x| - 52) := by
    calc round x ≤ (((n : ℚ) + 1) * 2 ^ (-(Int.log 2 |x| - 52)) - 1) * 2 ^ (Int.log 2 |x| - 52) := key
      _ = n + 1 - 2 ^ (Int.log 2 |x| - 52) := by rw [sub_mul, this, one_mul]
  linarith

end float64

theorem Second_eq : time.Second = 1000000000 := rfl

/-- The whole seconds that `int(d.Seconds())` gives for a non-negative duration:
the floor of the seconds, or one more; the floor when the duration is below
`2 ^ 24` seconds, and when it is a whole number of seconds. -/
theorem Seconds_bounds (d : Int) (h0 : 0 ≤ d) (h1 : d < 2 ^ 63) :
    d / 1000000000 ≤ float64.toInt (time.Seconds d) ∧
    float64.toInt (time.Seconds d) ≤ d / 1000000000 + 1 ∧
    (d < 2 ^ 24 * 1000000000 → float64.toInt (time.Seconds d) = d / 1000000000) ∧
    (d % 1000000000 = 0 → float64.toInt (time.Seconds d) = d / 1000000000) := by
  have hsec0 : 0 ≤ d / 1000000000 := by omega
  have hsec1 : d / 1000000000 < 2 ^ 34 := by omega
  have hn0 : 0 ≤ d % 1000000000 := by omega
  have hn1 : d % 1000000000 < 1000000000 := by omega
  have e1 : Int.tdiv d time.Second = d / 1000000000 := by
    rw [Second_eq]
    exact Int.tdiv_eq_ediv h0 (by norm_num)
  have e2 : Int.tmod d time.Second = d % 1000000000 := by
    rw [Second_eq]
    exact Int.tmod_eq_emod h0 (by norm_num)
  have r1 : float64.round ((d / 1000000000 : Int) : ℚ) = ((d / 1000000000 : Int) : ℚ) :=
    float64.round_int _ hsec0 (by omega)
  have r2 : float64.round ((d % 1000000000 : Int) : ℚ) = ((d % 1000000000 : Int) : ℚ) :=
    float64.round_int _ hn0 (by omega)
  have r3 : float64.round (1000000000 : ℚ) = 1000000000 := by
    have := float64.round_int 1000000000 (by norm_num) (by norm_num)
    exact_mod_cast this
  have hS : time.Seconds d = float64.round (((d / 1000000000 : Int) : ℚ)
      + float64.round (((d % 1000000000 : Int) : ℚ) / 1000000000)) := by
    unfold time.Seconds
    rw [e1, e2, r1, r2, r3]
  generalize hsec : d / 1000000000 = sec at *
  generalize hnsec : d % 1000000000 = nsec at *
  have hsq0 : (0 : ℚ) ≤ sec := by exact_mod_cast hsec0
  have hsq1 : (sec : ℚ) ≤ 2 ^ 34 - 1 := by
    have : sec ≤ 2 ^ 34 - 1 := by omega
    exact_mod_cast this
  have hnq0 : (0 : ℚ) ≤ nsec := by exact_mod_cast hn0
  have hnq1 : (nsec : ℚ) ≤ 999999999 := by
    have : nsec ≤ 999999999 := by omega
    exact_mod_cast this
  -- the rounded fraction
  have hy0 : 0 ≤ float64.round ((nsec : ℚ) / 1000000000) :=
    float64.round_nonneg _ (by positivity)
  have hy1 : float64.round ((nsec : ℚ) / 1000000000)
      ≤ 1 - 2 ^ (-30 : ℤ) - 2 ^ (-53 : ℤ) := by
    by_cases hz : (nsec : ℚ) = 0
    · rw [hz]
      simp only [zero_div, float64.round, if_true]
      norm_num
    · have hpos : (0 : ℚ) < (nsec : ℚ) / 1000000000 := by
        have : (0 : ℚ) < nsec := lt_of_le_of_ne hnq0 (Ne.symm hz)
        positivity
      have hlt : (nsec : ℚ) / 1000000000 < 2 ^ ((-1 : ℤ) + 1) := by
        rw [div_lt_iff₀ (by norm_num)]
        norm_num
        linarith
      have hc : (nsec : ℚ) / 1000000000 ≤ ((9007199246352383 : ℤ) : ℚ) * 2 ^ (-53 : ℤ) := by
        rw [div_le_iff₀ (by norm_num)]
        norm_num
        linarith
      have := float64.round_le_dyadic _ (-1) 9007199246352383 (-53) hpos hlt (by norm_num) hc
      have e : ((9007199246352383 : ℤ) : ℚ) * 2 ^ (-53 : ℤ)
          = 1 - 2 ^ (-30 : ℤ) - 2 ^ (-53 : ℤ) := by norm_num
      rw [← e]
      exact this
  have hy3 : nsec = 0 → float64.round ((nsec : ℚ) / 1000000000) = 0 := by
    intro hz
    rw [hz]
    simp [float64.round]
  generalize float64.round ((nsec : ℚ) / 1000000000) = y at *
  have hy2 : y < 1 := by
    have : (0 : ℚ) < 2 ^ (-30 : ℤ) := float64.two_zpow_pos _
    have : (0 : ℚ) < 2 ^ (-53 : ℤ) := float64.two_zpow_pos _
    linarith
  -- the rounded sum
  have hlo : (sec : ℚ) ≤ float64.round (sec + y) := by
    by_cases hz : (sec : ℚ) + y = 0
    · rw [hz]
      simp only [float64.round, if_true]
      linarith
    · have hpos : (0 : ℚ) < sec + y := lt_of_le_of_ne (by linarith) (Ne.symm hz)
      have hlt : (sec : ℚ) + y < 2 ^ ((33 : ℤ) + 1) := by
        norm_num
        norm_num at hsq1
        linarith
      have := float64.le_round_dyadic _ 33 sec 0 hpos hlt (by norm_num) (by simp; linarith)
      simpa using this
  have hhi : float64.round (sec + y) ≤ (sec : ℚ) + 1 := by
    by_cases hz : (sec : ℚ) + y = 0
    · rw [hz]
      simp only [float64.round, if_true]
      linarith
    · have hpos : (0 : ℚ) < sec + y := lt_of_le_of_ne (by linarith) (Ne.symm hz)
      have hlt : (sec : ℚ) + y < 2 ^ ((33 : ℤ) + 1) := by
        norm_num
        norm_num at hsq1
        linarith
      have := float64.round_le_dyadic _ 33 (sec + 1) 0 hpos hlt (by norm_num)
        (by push_cast; simp; linarith)
      simpa using this
  have hnn : 0 ≤ float64.round (sec + y) := by linarith
  have hfloor : float64.toInt (time.Seconds d) = ⌊float64.round ((sec : ℚ) + y)⌋ := by
    rw [hS]
    unfold float64.toInt
    rw [if_pos hnn]
  rw [hfloor]
  refine ⟨?_, ?_, ?_, ?_⟩
  · exact Int.le_floor.mpr hlo
  · have : (⌊float64.round ((sec : ℚ) + y)⌋ : ℚ) ≤ ((sec + 1 : ℤ) : ℚ) := by
      push_cast
      exact le_trans (Int.floor_le _) hhi
    exact_mod_cast this
  · intro hd
    have hs24 : sec ≤ 2 ^ 24 - 1 := by omega
    have hs24q : (sec : ℚ) ≤ 2 ^ 24 - 1 := by exact_mod_cast hs24
    apply le_antisymm
    · by_cases hz : (sec : ℚ) + y = 0
      · have hs : (sec : ℚ) = 0 := by linarith
        rw [hz]
        simp only [float64.round, if_true, Int.floor_zero]
        have : sec = 0 := by exact_mod_cast hs
        omega
      · have hpos : (0 : ℚ) < sec + y := lt_of_le_of_ne (by linarith) (Ne.symm hz)
        have hlt : (sec : ℚ) + y < 2 ^ ((23 : ℤ) + 1) := by
          norm_num
          norm_num at hs24q
          linarith
        have hr := float64.round_lt_succ _ sec hpos hlt (by linarith)
        have : ⌊float64.round ((sec : ℚ) + y)⌋ < sec + 1 := by
          rw [Int.floor_lt]
          push_cast
          exact hr
        omega
    · exact Int.le_floor.mpr hlo
  · intro hz
    rw [hy3 hz, add_zero]
    have hs53 : sec < 2 ^ 53 := by omega
    rw [float64.round_int sec hsec0 hs53]
    exact Int.floor_intCast sec

end Gedis

namespace Gedis
open resp

/-- For a duration of 16777216.999999999 s the `float64` sum of `Seconds` rounds up
to 16777217. -/
theorem Seconds_rounds_up : float64.toInt (time.Seconds 16777216999999999) = 16777217 := by
  have e1 : Int.tdiv 16777216999999999 time.Second = 16777216 := by decide
  have e2 : Int.tmod 16777216999999999 time.Second = 999999999 := by decide
  have r1 : float64.round ((16777216 : ℤ) : ℚ) = ((16777216 : ℤ) : ℚ) :=
    float64.round_int _ (by norm_num) (by norm_num)
  have r2 : float64.round ((999999999 : ℤ) : ℚ) = ((999999999 : ℤ) : ℚ) :=
    float64.round_int _ (by norm_num) (by norm_num)
  have r3 : float64.round (1000000000 : ℚ) = 1000000000 := by
    have := float64.round_int 1000000000 (by norm_num) (by norm_num)
    exact_mod_cast this
  have r4 : float64.round ((999999999 : ℚ) / 1000000000)
      = ((9007199245733793 : ℤ) : ℚ) * 2 ^ ((-1 : ℤ) - 52) :=
    float64.round_eq _ (-1) 9007199245733793 (by norm_num) (by norm_num) (by norm_num)
      (by norm_num) (by norm_num)
  have r5 : float64.round ((16777216 : ℚ) + ((9007199245733793 : ℤ) : ℚ) * 2 ^ ((-1 : ℤ) - 52))
      = ((4503599895805952 : ℤ) : ℚ) * 2 ^ ((24 : ℤ) - 52) :=
    float64.round_eq _ 24 4503599895805952 (by norm_num) (by norm_num) (by norm_num)
      (by norm_num) (by norm_num)
  have r6 : ((4503599895805952 : ℤ) : ℚ) * 2 ^ ((24 : ℤ) - 52) = ((16777217 : ℤ) : ℚ) := by
    norm_num
  unfold time.Seconds
  rw [e1, e2, r1, r2, r3]
  push_cast
  rw [r4, r5, r6]
  unfold float64.toInt
  rw [if_pos (by norm_num)]
  exact Int.floor_intCast 16777217

theorem ttl_one (arg : Value) (now : Int) (kv : Store) :
    ttl [arg] now kv =
      match kv arg.Bulk with
      | none => (Value.Integer (-2), kv)
      | some entry =>
        if entry.expired now then (Value.Integer (-2), kv.delete arg.Bulk)
        else
          match entry.ExpiresAt with
          | none => (Value.Integer (-1), kv)
          | some expiresAt =>
            (Value.Integer (float64.toInt (time.Seconds (time.Until expiresAt now))), kv) := rfl

theorem Until_of_range (t now : Int) (h0 : now ≤ t) (h1 : t - now < 2 ^ 63) :
    time.Until t now = t - now := by
  unfold time.Until time.Sub
  rw [if_neg (by omega), if_neg (by omega)]

/-- Claim C8, amended: `TTL key` returns Integer -2 when the key has no entry or
its entry is expired (removing the expired entry), Integer -1 when the entry has no
expiry, and otherwise `int(d.Seconds())` for the remaining duration
`d = expiresAt - now`, computed in `float64`: a value that is at least 0, is the
floor of `d` in whole seconds or that floor plus one, is exactly the floor whenever
fewer than `2^24` seconds remain, and is at most `s` whenever at most `s` seconds
remain (a value in [0,10] for a key with 10 s remaining).  The store is unchanged
in all but the expired case. -/
theorem C8_ttl (kv : Store) (arg : Value) (now : Int) :
    (kv arg.Bulk = none → ttl [arg] now kv = (Value.Integer (-2), kv)) ∧
    (∀ entry t, kv arg.Bulk = some entry → entry.ExpiresAt = some t → t < now →
      ttl [arg] now kv = (Value.Integer (-2), kv.delete arg.Bulk)) ∧
    (∀ entry, kv arg.Bulk = some entry → entry.ExpiresAt = none →
      ttl [arg] now kv = (Value.Integer (-1), kv)) ∧
    (∀ entry t, kv arg.Bulk = some entry → entry.ExpiresAt = some t → now ≤ t →
      t - now < 2 ^ 63 →
      ∃ r : Int, ttl [arg] now kv = (Value.Integer r, kv) ∧
        0 ≤ r ∧ (t - now) / 1000000000 ≤ r ∧ r ≤ (t - now) / 1000000000 + 1 ∧
        (t - now < 2 ^ 24 * 1000000000 → r = (t - now) / 1000000000) ∧
        (∀ s : Int, t - now ≤ s * 1000000000 → r ≤ s)) := by
  refine ⟨?_, ?_, ?_, ?_⟩
  · intro hkv
    rw [ttl_one, hkv]
  · intro entry t hkv ht hlt
    have hexp : entry.expired now = true := (expired_iff entry now).mpr ⟨t, ht, hlt⟩
    rw [ttl_one, hkv]
    simp [hexp]
  · intro entry hkv hnone
    have hexp : ¬ entry.expired now = true := by
      intro h
      obtain ⟨u, hu, _⟩ := (expired_iff entry now).mp h
      rw [hnone] at hu
      simp at hu
    rw [ttl_one, hkv]
    simp [hexp, hnone]
  · intro entry t hkv ht hle hlt
    have hexp : ¬ entry.expired now = true := by
      intro h
      obtain ⟨u, hu, hu2⟩ := (expired_iff entry now).mp h
      rw [ht] at hu
      simp only [Option.some.injEq] at hu
      omega
    obtain ⟨b1, b2, b3, b4⟩ := Seconds_bounds (t - now) (by omega) hlt
    refine ⟨float64.toInt (time.Seconds (t - now)), ?_, ?_, b1, b2, b3, ?_⟩
    · rw [ttl_one, hkv]
      simp [hexp, ht, Until_of_range t now hle hlt]
    · have : 0 ≤ (t - now) / 1000000000 := by omega
      omega
    · intro s hs
      by_cases hz : (t - now) % 1000000000 = 0
      · rw [b4 hz]
        omega
      · omega

/-- Claim C8, witness: the key `k` holds `v` with its expiry 10 s after `now = 0`,
and `TTL k` returns 10; half a second later it returns 9. -/
theorem C8_ttl_witness :
    (∃ r : Int, ttl [Value.BulkString (lit "k")] 0
        (Store.empty.insert (lit "k") ⟨lit "v", some 10000000000⟩)
        = (Value.Integer r, Store.empty.insert (lit "k") ⟨lit "v", some 10000000000⟩) ∧
      r = 10) ∧
    (∃ r : Int, ttl [Value.BulkString (lit "k")] 500000000
        (Store.empty.insert (lit "k") ⟨lit "v", some 10000000000⟩)
        = (Value.Integer r, Store.empty.insert (lit "k") ⟨lit "v", some 10000000000⟩) ∧
      r = 9) := by
  constructor
  · obtain ⟨r, h1, _, _, _, h5, _⟩ :=
      (C8_ttl (Store.empty.insert (lit "k") ⟨lit "v", some 10000000000⟩)
        (Value.BulkString (lit "k")) 0).2.2.2 ⟨lit "v", some 10000000000⟩ 10000000000
        (by decide) rfl (by decide) (by decide)
    exact ⟨r, h1, by rw [h5 (by decide)]; decide⟩
  · obtain ⟨r, h1, _, _, _, h5, _⟩ :=
      (C8_ttl (Store.empty.insert (lit "k") ⟨lit "v", some 10000000000⟩)
        (Value.BulkString (lit "k")) 500000000).2.2.2 ⟨lit "v", some 10000000000⟩ 10000000000
        (by decide) rfl (by decide) (by decide)
    exact ⟨r, h1, by rw [h5 (by decide)]; decide⟩

/-- Claim C8 as stated is false: the key `k` expires 16777216.999999999 s after
`now = 0`; the floor of the remaining duration is 16777216 whole seconds, and
`TTL k` returns Integer 16777217. -/
theorem C8_counterexample :
    (16777216999999999 - 0 : Int) / 1000000000 = 16777216 ∧
    ttl [Value.BulkString (lit "k")] 0
        (Store.empty.insert (lit "k") ⟨lit "v", some 16777216999999999⟩)
      = (Value.Integer 16777217,
          Store.empty.insert (lit "k") ⟨lit "v", some 16777216999999999⟩) := by
  refine ⟨by decide, ?_⟩
  have hk : (Store.empty.insert (lit "k") ⟨lit "v", some 16777216999999999⟩)
      (Value.BulkString (lit "k")).Bulk = some ⟨lit "v", some 16777216999999999⟩ := by decide
  have hexp : (StorageEntry.mk (lit "v") (some 16777216999999999)).expired 0 = false := by
    decide
  have hu : time.Until 16777216999999999 0 = 16777216999999999 := by decide
  rw [ttl_one, hk]
  simp only [hexp, Bool.false_eq_true, if_false, hu, Seconds_rounds_up]

end Gedis

namespace Gedis
open resp

theorem delLoop_absent (args : List Value) (c : Int) (kv : Store)
    (h : ∀ a ∈ args, kv a.Bulk = none) : delLoop args c kv = (c, kv) := by
  induction args generalizing c with
  | nil => rfl
  | cons a args ih =>
    rw [delLoop]
    simp only [h a (List.mem_cons_self _ _)]
    exact ih c (fun b hb => h b (List.mem_cons_of_mem _ hb))

/-- Claim C14: for every store and non-empty key list (`del` does not read the
clock, so at every current time), running `DEL` twice in succession with the same
keys returns Integer 0 on the second call and leaves the store exactly as the first
call left it; and when the list is a single key holding an un-expired entry the
first call returns Integer 1. -/
theorem C14_del_twice (kv : Store) (args : List Value) (h : args ≠ []) :
    (del args (del args kv).2).1 = Value.Integer 0 ∧
    (del args (del args kv).2).2 = (del args kv).2 ∧
    (∀ (arg : Value) (entry : StorageEntry) (now : Int), kv arg.Bulk = some entry →
      entry.expired now = false → (del [arg] kv).1 = Value.Integer 1) := by
  cases args with
  | nil => exact absurd rfl h
  | cons a args =>
    have hs := delLoop_store (a :: args) 0 kv
    have habs : ∀ b ∈ a :: args, (delLoop (a :: args) 0 kv).2 b.Bulk = none := by
      intro b hb
      rw [hs]
      have : b.Bulk ∈ List.map Value.Bulk (a :: args) := List.mem_map_of_mem _ hb
      simp only [this, if_true]
    have h2 := delLoop_absent (a :: args) 0 _ habs
    refine ⟨?_, ?_, ?_⟩
    · simp only [del, h2]
    · simp only [del, h2]
    · intro arg entry now hkv _
      simp [del, delLoop, hkv]

/-- Claim C14, witness: `DEL k` on a store where `k` holds `v` returns 1, and the
second `DEL k` returns 0. -/
theorem C14_del_twice_witness :
    (del [Value.BulkString (lit "k")] (Store.empty.insert (lit "k") ⟨lit "v", none⟩)).1
      = Value.Integer 1 ∧
    (del [Value.BulkString (lit "k")]
      (del [Value.BulkString (lit "k")] (Store.empty.insert (lit "k") ⟨lit "v", none⟩)).2).1
      = Value.Integer 0 :=
  ⟨(C14_del_twice (Store.empty.insert (lit "k") ⟨lit "v", none⟩) [Value.BulkString (lit "k")]
      (by simp)).2.2 (Value.BulkString (lit "k")) ⟨lit "v", none⟩ 0 (by decide) (by decide),
   (C14_del_twice (Store.empty.insert (lit "k") ⟨lit "v", none⟩) [Value.BulkString (lit "k")]
      (by simp)).1⟩

end Gedis

namespace Gedis
open resp

theorem publishLoop_eq (channel message : Bytes) (subscribers : List Nat) (count : Int)
    (started : List (Nat × Value)) :
    publishLoop channel message subscribers count started
      = (count + (subscribers.length : Nat),
          started ++ subscribers.map (fun sub => (sub, notification channel message))) := by
  induction subscribers generalizing count started with
  | nil => simp [publishLoop]
  | cons sub subscribers ih =>
    rw [publishLoop, ih]
    refine Prod.ext ?_ ?_
    · simp only [List.length_cons]
      push_cast
      omega
    · simp [notification]

/-- Claim C15: for every state of the pub/sub registry, channel and message,
`PUBLISH channel message` returns the Integer that counts the sinks registered for
the channel at the time of the call and starts, for each of those sinks in turn,
one delivery of exactly the 3-element Array of the BulkStrings `message`, the
channel and the message; when the channel has no subscriber it returns 0 and starts
no delivery; the registry (and the store, the log and what the connections were
sent) is unchanged. -/
theorem C15_publish (st : World) (channel message : Value) :
    (st.Subs channel.Bulk = none → publish [channel, message] st = (Value.Integer 0, st)) ∧
    (∀ subscribers, st.Subs channel.Bulk = some subscribers →
      publish [channel, message] st
        = (Value.Integer (subscribers.length : Nat),
            { st with started := st.started ++ subscribers.map (fun sub =>
              (sub, Value.Arr [Value.BulkString (lit "message"),
                Value.BulkString channel.Bulk, Value.BulkString message.Bulk])) })) ∧
    (publish [channel, message] st).2.Subs = st.Subs := by
  refine ⟨?_, ?_, ?_⟩
  · intro h
    simp only [publish, h]
  · intro subscribers h
    simp only [publish, h, publishLoop_eq, notification]
    simp
  · cases h : st.Subs channel.Bulk with
    | none => simp only [publish, h]
    | some subscribers => simp only [publish, h]

/-- Claim C15, witness: the sinks 1 and 2 subscribe to `c`; then `PUBLISH c hi`
returns 2 and starts the delivery of `[message, c, hi]` to sink 1 and to sink 2.
When the two deliveries have run, in either order, each sink has been sent the
confirmation of its subscription and then the notification. -/
theorem C15_publish_witness :
    publish [Value.BulkString (lit "c"), Value.BulkString (lit "hi")]
        (subscribeLoop 2 [Value.BulkString (lit "c")] 0
          (subscribeLoop 1 [Value.BulkString (lit "c")] 0 (World.init [])))
      = (Value.Integer 2,
          { subscribeLoop 2 [Value.BulkString (lit "c")] 0
              (subscribeLoop 1 [Value.BulkString (lit "c")] 0 (World.init [])) with
            started := [(1, Value.Arr [Value.BulkString (lit "message"),
                Value.BulkString (lit "c"), Value.BulkString (lit "hi")]),
              (2, Value.Arr [Value.BulkString (lit "message"),
                Value.BulkString (lit "c"), Value.BulkString (lit "hi")])] }) ∧
    (∀ k, k = 0 ∨ k = 1 →
      ((((publish [Value.BulkString (lit "c"), Value.BulkString (lit "hi")]
          (subscribeLoop 2 [Value.BulkString (lit "c")] 0
            (subscribeLoop 1 [Value.BulkString (lit "c")] 0 (World.init [])))).2.run k).run 0).out 1
        = lit "*3\r\n$9\r\nsubscribe\r\n$1\r\nc\r\n:1\r\n*3\r\n$7\r\nmessage\r\n$1\r\nc\r\n$2\r\nhi\r\n" ∧
       (((publish [Value.BulkString (lit "c"), Value.BulkString (lit "hi")]
          (subscribeLoop 2 [Value.BulkString (lit "c")] 0
            (subscribeLoop 1 [Value.BulkString (lit "c")] 0 (World.init [])))).2.run k).run 0).out 2
        = lit "*3\r\n$9\r\nsubscribe\r\n$1\r\nc\r\n:1\r\n*3\r\n$7\r\nmessage\r\n$1\r\nc\r\n$2\r\nhi\r\n")) :=
  ⟨(C15_publish (subscribeLoop 2 [Value.BulkString (lit "c")] 0
      (subscribeLoop 1 [Value.BulkString (lit "c")] 0 (World.init [])))
    (Value.BulkString (lit "c")) (Value.BulkString (lit "hi"))).2.1 [1, 2] (by decide),
   by
    intro k hk
    rcases hk with rfl | rfl
    · exact ⟨by decide, by decide⟩
    · exact ⟨by decide, by decide⟩⟩

theorem subscribeLoop_frame (w : Nat) (args : List Value) (i : Nat) (st : World) :
    (subscribeLoop w args i st).kv = st.kv ∧
    (subscribeLoop w args i st).aofFile = st.aofFile ∧
    (subscribeLoop w args i st).started = st.started ∧
    (∀ w2, w2 ≠ w → (subscribeLoop w args i st).out w2 = st.out w2) := by
  induction args generalizing i st with
  | nil => simp [subscribeLoop]
  | cons arg args ih =>
    rw [subscribeLoop]
    obtain ⟨h1, h2, h3, h4⟩ := ih (i + 1)
      (World.write { st with Subs := fun c =>
        if c = arg.Bulk then some ((st.Subs arg.Bulk).getD [] ++ [w]) else st.Subs c } w
        (Value.Arr [Value.BulkString (lit "subscribe"), Value.BulkString arg.Bulk,
          Value.Integer ((i : Int) + 1)]))
    refine ⟨by rw [h1]; rfl, by rw [h2]; rfl, by rw [h3]; rfl, ?_⟩
    intro w2 hw
    rw [h4 w2 hw]
    simp [World.write, hw]

theorem Write_eq_append (v : Value) (out : Bytes) : Writer.Write v out = out ++ encode v := by
  unfold Writer.Write encode Writer.Write
  exact Writer.write_append v out

theorem subscribeLoop_out (w : Nat) (args : List Value) (i : Nat) (st : World) :
    (subscribeLoop w args i st).out w
      = st.out w ++ ((confirmations args i).map encode).flatten := by
  induction args generalizing i st with
  | nil => simp [subscribeLoop, confirmations]
  | cons arg args ih =>
    rw [subscribeLoop, ih]
    simp [World.write, confirmations, Write_eq_append]

theorem subscribeLoop_Subs (w : Nat) (args : List Value) (i : Nat) (st : World) (c : Bytes) :
    (subscribeLoop w args i st).Subs c
      = if c ∈ args.map Value.Bulk then
          some ((st.Subs c).getD [] ++ List.replicate ((args.map Value.Bulk).count c) w)
        else st.Subs c := by
  induction args generalizing i st with
  | nil => simp [subscribeLoop]
  | cons arg args ih =>
    rw [subscribeLoop, ih]
    simp only [World.write, List.map_cons, List.mem_cons]
    by_cases hc : c = arg.Bulk
    · subst hc
      simp only [if_true, true_or, List.count_cons_self, Option.getD_some]
      by_cases hm : arg.Bulk ∈ List.map Value.Bulk args
      · simp only [hm, if_true, Option.some.injEq, List.append_assoc]
        rw [List.replicate_succ']
        congr 1
        rw [List.singleton_append, ← List.replicate_succ, List.replicate_succ']
      · simp only [hm, if_false, Option.some.injEq]
        rw [List.count_eq_zero_of_not_mem hm]
        simp
    · have hne : ¬ arg.Bulk = c := fun h => hc h.symm
      simp only [hc, if_false, false_or]
      rw [List.count_cons_of_ne hc]

theorem confirmations_length (args : List Value) (i : Nat) :
    (confirmations args i).length = args.length := by
  induction args generalizing i with
  | nil => rfl
  | cons arg args ih => simp [confirmations, ih]

theorem confirmations_get (args : List Value) (i j : Nat) (arg : Value)
    (h : args[j]? = some arg) :
    (confirmations args i)[j]?
      = some (Value.Arr [Value.BulkString (lit "subscribe"), Value.BulkString arg.Bulk,
          Value.Integer ((i : Int) + (j : Int) + 1)]) := by
  induction args generalizing i j with
  | nil => simp at h
  | cons a args ih =>
    cases j with
    | zero =>
      simp only [List.getElem?_cons_zero, Option.some.injEq] at h
      subst h
      simp [confirmations]
    | succ j =>
      simp only [List.getElem?_cons_succ] at h
      simp only [confirmations, List.getElem?_cons_succ]
      rw [ih (i + 1) j h]
      have e : ((i + 1 : Nat) : Int) + (j : Int) + 1 = (i : Int) + ((j + 1 : Nat) : Int) + 1 := by
        push_cast
        omega
      rw [e]

theorem Handlers_SUBSCRIBE :
    Handlers (lit "SUBSCRIBE") = some (fun args w _ st => subscribe args w st) := by
  rfl

/-- Claim C16: for every list of channel arguments `c1..cn` and calling sink,
`SUBSCRIBE` writes to that sink exactly the `n` confirmations in argument order,
the `i`-th being the Array of BulkString `subscribe`, BulkString `ci` and Integer
`i`, counted from 1 within this call; it appends the sink to the end of the
subscriber sequence of each `ci`, once for every time `ci` is listed, and leaves
all other channels, the other sinks, the store and the log unchanged; and it
returns the Ignore value, on which the dispatcher writes no further reply. -/
theorem C16_subscribe (args : List Value) (w : Nat) (st : World) :
    ∃ st2, subscribe args (some w) st = .ok (Value.Ignore, st2) ∧
      st2.out w = st.out w ++ ((confirmations args 0).map encode).flatten ∧
      (confirmations args 0).length = args.length ∧
      (∀ (j : Nat) (arg : Value), args[j]? = some arg →
        (confirmations args 0)[j]? = some (Value.Arr [Value.BulkString (lit "subscribe"),
          Value.BulkString arg.Bulk, Value.Integer ((j : Int) + 1)])) ∧
      (∀ c, c ∈ args.map Value.Bulk → st2.Subs c
        = some ((st.Subs c).getD [] ++ List.replicate ((args.map Value.Bulk).count c) w)) ∧
      (∀ c, c ∉ args.map Value.Bulk → st2.Subs c = st.Subs c) ∧
      (∀ w2, w2 ≠ w → st2.out w2 = st.out w2) ∧
      st2.kv = st.kv ∧ st2.aofFile = st.aofFile ∧ st2.started = st.started ∧
      (∀ (ToUpper : Bytes → Bytes) (now : Nat → Int) (value first : Value),
        value.Typ = "array" →
        value.Array = first :: args → ToUpper first.Bulk = lit "SUBSCRIBE" →
        handleRequest ToUpper w now value st = .ok st2) := by
  obtain ⟨f1, f2, f3, f4⟩ := subscribeLoop_frame w args 0 st
  refine ⟨subscribeLoop w args 0 st, rfl, subscribeLoop_out w args 0 st,
    confirmations_length args 0, ?_, ?_, ?_, f4, f1, f2, f3, ?_⟩
  · intro j arg h
    have := confirmations_get args 0 j arg h
    simpa using this
  · intro c hc
    rw [subscribeLoop_Subs, if_pos hc]
  · intro c hc
    rw [subscribeLoop_Subs, if_neg hc]
  · intro ToUpper now value first hty harr hcmd
    have hne : ¬ (lit "SUBSCRIBE" = lit "SET" ∨ lit "SUBSCRIBE" = lit "DEL") := by decide
    simp only [handleRequest, hty, ne_eq, not_true_eq_false, if_false, harr, hcmd,
      Handlers_SUBSCRIBE, hne, subscribe]
    rfl

/-- Claim C16, witness: `SUBSCRIBE a b` from sink 7, when sink 3 is already
subscribed to `b`: sink 7 is sent the confirmations numbered 1 and 2, and it is put
behind sink 3 in the sequence of `b`. -/
theorem C16_subscribe_witness :
    ∃ st2, subscribe [Value.BulkString (lit "a"), Value.BulkString (lit "b")] (some 7)
        (subscribeLoop 3 [Value.BulkString (lit "b")] 0 (World.init []))
        = .ok (Value.Ignore, st2) ∧
      st2.out 7 = lit "*3\r\n$9\r\nsubscribe\r\n$1\r\na\r\n:1\r\n*3\r\n$9\r\nsubscribe\r\n$1\r\nb\r\n:2\r\n" ∧
      st2.Subs (lit "a") = some [7] ∧ st2.Subs (lit "b") = some [3, 7] := by
  obtain ⟨st2, h1, h2, _, _, h5, _⟩ :=
    C16_subscribe [Value.BulkString (lit "a"), Value.BulkString (lit "b")] 7
      (subscribeLoop 3 [Value.BulkString (lit "b")] 0 (World.init []))
  refine ⟨st2, h1, ?_, ?_, ?_⟩
  · rw [h2]
    decide
  · rw [h5 (lit "a") (by decide)]
    decide
  · rw [h5 (lit "b") (by decide)]
    decide

end Gedis

namespace Gedis
open resp

theorem expirationLoop_cases (now : Int) (order : List Bytes) (sampleCount : Int) (kv : Store)
    (k : Bytes) :
    expirationLoop now order sampleCount kv k = kv k ∨
      (expirationLoop now order sampleCount kv k = none ∧
        ∃ entry, kv k = some entry ∧ entry.expired now = true) := by
  induction order generalizing sampleCount kv with
  | nil => exact Or.inl rfl
  | cons key order ih =>
    rw [expirationLoop]
    have hstep : ∀ (kv2 : Store),
        kv2 = (match kv key with
          | some v => if v.expired now then kv.delete key else kv
          | none => kv) →
        kv2 k = kv k ∨ (kv2 k = none ∧ ∃ entry, kv k = some entry ∧ entry.expired now = true) := by
      intro kv2 h2
      cases hkv : kv key with
      | none =>
        rw [hkv] at h2
        left
        rw [h2]
      | some v =>
        rw [hkv] at h2
        by_cases hexp : v.expired now = true
        · simp only [hexp, if_true] at h2
          by_cases hk : k = key
          · right
            subst hk
            rw [h2]
            exact ⟨Store.delete_self kv k, v, hkv, hexp⟩
          · left
            rw [h2]
            exact Store.delete_other kv key k hk
        · have hf : v.expired now = false := by simpa using hexp
          simp only [hf, Bool.false_eq_true, if_false] at h2
          left
          rw [h2]
    generalize hkv2 : (match kv key with
          | some v => if v.expired now then kv.delete key else kv
          | none => kv) = kv2
    have h1 := hstep kv2 hkv2.symm
    split
    · exact h1
    · rcases ih (sampleCount - 1) kv2 with h | ⟨h, entry, he, hexp⟩
      · rw [h]
        exact h1
      · rcases h1 with h1 | ⟨h1, entry1, he1, hexp1⟩
        · right
          exact ⟨h, entry, by rw [← h1]; exact he, hexp⟩
        · rw [h1] at he
          simp at he

theorem tick_live (order : List Bytes) (t t2 : Int) (h : t ≤ t2) (kv : Store) (k : Bytes) :
    (expirationTick order t kv).live t2 k = kv.live t2 k := by
  unfold expirationTick Store.live
  rcases expirationLoop_cases t order 20 kv k with h1 | ⟨h1, entry, he, hexp⟩
  · rw [h1]
  · rw [h1, he]
    simp [expired_mono entry t t2 h hexp]

/-- The handlers that test the expiry give the same reply whether or not a tick of
the expiration job ran before them: `get` and `ttl` called at a time `t2` not
before the tick, and `exists` with readings of the clock that are not before the
tick and do not go back. -/
theorem tick_same_reply (order : List Bytes) (t t2 : Int) (h : t ≤ t2) (kv : Store)
    (args : List Value) (now : Nat → Int) (hmono : ∀ i j, i ≤ j → now i ≤ now j)
    (hnow : ∀ i, t ≤ now i) :
    (get args t2 (expirationTick order t kv)).1 = (get args t2 kv).1 ∧
    («exists» args now (expirationTick order t kv)).1 = («exists» args now kv).1 ∧
    (ttl args t2 (expirationTick order t kv)).1 = (ttl args t2 kv).1 := by
  have hcase := fun k => expirationLoop_cases t order 20 kv k
  refine ⟨?_, ?_, ?_⟩
  · rcases args with _ | ⟨arg, _ | ⟨b, r⟩⟩
    · rfl
    · rw [get_one, get_one]
      unfold expirationTick
      rcases hcase arg.Bulk with h1 | ⟨h1, entry, he, hexp⟩
      · rw [h1]
        cases kv arg.Bulk with
        | none => rfl
        | some entry => simp only; split <;> rfl
      · rw [h1, he]
        simp [expired_mono entry t t2 h hexp]
    · rfl
  · cases args with
    | nil => rfl
    | cons a args =>
      simp only [«exists», existsLoop_spec now hmono]
      have hfun : (fun p : Nat × Value => (expirationTick order t kv).live (now p.1) p.2.Bulk)
          = (fun p : Nat × Value => kv.live (now p.1) p.2.Bulk) := by
        funext p
        exact tick_live order t (now p.1) (hnow p.1) kv p.2.Bulk
      rw [hfun]
  · rcases args with _ | ⟨arg, _ | ⟨b, r⟩⟩
    · rfl
    · rw [ttl_one, ttl_one]
      unfold expirationTick
      rcases hcase arg.Bulk with h1 | ⟨h1, entry, he, hexp⟩
      · rw [h1]
        cases kv arg.Bulk with
        | none => rfl
        | some entry =>
          simp only
          split
          · rfl
          · split <;> rfl
      · rw [h1, he]
        simp [expired_mono entry t t2 h hexp]
    · rfl

/-- Claim C17, the code at the failing input: the key `k` holds an entry that
expired at time 5.  At time 10 `DEL k` returns Integer 1 when no tick of the
expiration job ran before it, and Integer 0 when the tick of time 10 sampled `k`
first; on both stores `GET k` returns Null. -/
theorem C17_del_depends_on_tick :
    (del [Value.BulkString (lit "k")] (Store.empty.insert (lit "k") ⟨lit "v", some 5⟩)).1
      = Value.Integer 1 ∧
    (del [Value.BulkString (lit "k")]
      (expirationTick [lit "k"] 10 (Store.empty.insert (lit "k") ⟨lit "v", some 5⟩))).1
      = Value.Integer 0 ∧
    (get [Value.BulkString (lit "k")] 10 (Store.empty.insert (lit "k") ⟨lit "v", some 5⟩)).1
      = Value.Null ∧
    (get [Value.BulkString (lit "k")] 10
      (expirationTick [lit "k"] 10 (Store.empty.insert (lit "k") ⟨lit "v", some 5⟩))).1
      = Value.Null := by
  refine ⟨by decide, by decide, by decide, by decide⟩

/-- Claim C18, the code at the failing inputs: on the frames `$-2 CRLF` and
`*-1 CRLF` the reader does not return: `make` panics on the negative length. -/
theorem C18_negative_length_panics :
    Reader.Read (lit "$-2\r\n") = .panic ∧ Reader.Read (lit "*-1\r\n") = .panic ∧
    decode (lit "$-2\r\n") = .panic ∧ decode (lit "*-1\r\n") = .panic := by
  refine ⟨by decide, by decide, by decide, by decide⟩

/-- Claim C19, the code at the failing inputs: the dispatcher answers
`PING "a CR LF b"` with the SimpleString `a CR LF b`; the bytes written to the
connection decode to the SimpleString `a`, with `b CR LF` left over.  The same
happens to the Error written for the unknown command name `X CR LF Y`. -/
theorem C19_reply_splits :
    ping [Value.BulkString (lit "a\r\nb")] = Value.SimpleString (lit "a\r\nb") ∧
    (∃ st, handleRequest strings.ToUpper 1 0
        (Value.Arr [Value.BulkString (lit "PING"), Value.BulkString (lit "a\r\nb")])
        (World.init []) = .ok st ∧ st.out 1 = lit "+a\r\nb\r\n") ∧
    Reader.Read (lit "+a\r\nb\r\n") = .ok (Value.SimpleString (lit "a"), lit "b\r\n") ∧
    (∃ st, handleRequest strings.ToUpper 1 0
        (Value.Arr [Value.BulkString (lit "X\r\nY")]) (World.init []) = .ok st ∧
      st.out 1 = lit "-ERR unknown command 'X\r\nY'\r\n") ∧
    Reader.Read (lit "-ERR unknown command 'X\r\nY'\r\n")
      = .ok (Value.Error (lit "ERR unknown command 'X"), lit "Y'\r\n") := by
  refine ⟨by decide, ⟨_, rfl, by decide⟩, by decide, ⟨_, rfl, by decide⟩, by decide⟩

/-- Claim C20, the code at the failing input: `SET k v EX 9223372037` called at
time 0 stores an expiry more than 292 years before the call, where
`SET k v EX 9223372036` stores one 9223372036 s after it: the product
`9223372037 * 10^9` wraps around in 64 bits.  The same for `PX 9223372036855`. -/
theorem C20_duration_wraps :
    strconv.Atoi (lit "9223372037") = some 9223372037 ∧
    (set [Value.BulkString (lit "k"), Value.BulkString (lit "v"), Value.BulkString (lit "EX"),
        Value.BulkString (lit "9223372036")] 0 Store.empty).2 (lit "k")
      = some ⟨lit "v", some 9223372036000000000⟩ ∧
    (set [Value.BulkString (lit "k"), Value.BulkString (lit "v"), Value.BulkString (lit "EX"),
        Value.BulkString (lit "9223372037")] 0 Store.empty).2 (lit "k")
      = some ⟨lit "v", some (-9223372036709551616)⟩ ∧
    (set [Value.BulkString (lit "k"), Value.BulkString (lit "v"), Value.BulkString (lit "PX"),
        Value.BulkString (lit "9223372036855")] 0 Store.empty).2 (lit "k")
      = some ⟨lit "v", some (-9223372036854551616)⟩ := by
  refine ⟨by decide, by decide, by decide, by decide⟩

end Gedis

namespace Gedis
namespace resp

theorem readLineLoop_noCR (input line : Bytes) (n : Nat) (l : Bytes) (m : Nat) (rest : Bytes)
    (hline : CR ∉ line.dropLast)
    (h : Reader.readLineLoop line n input = .ok (l, m, rest)) : CR ∉ l := by
  induction input generalizing line n with
  | nil => simp [Reader.readLineLoop] at h
  | cons b input ih =>
    rw [Reader.readLineLoop] at h
    split at h
    · simp only [Result.ok.injEq, Prod.mk.injEq] at h
      rw [← h.1]
      have : (line ++ [b]).take ((line ++ [b]).length - 2) = line.dropLast := by
        rw [List.dropLast_eq_take]
        simp only [List.length_append, List.length_singleton]
        rw [List.take_append_of_le_length (by omega)]
        congr 1
      rw [this]
      exact hline
    · rename_i hcond
      apply ih (line ++ [b]) (n + 1) _ h
      rw [List.dropLast_concat]
      intro hmem
      rcases List.eq_nil_or_concat line with hnil | ⟨init, last, hl⟩
      · rw [hnil] at hmem
        simp at hmem
      · subst hl
        rw [List.concat_eq_append] at hline hmem hcond
        rw [List.dropLast_concat] at hline
        rcases List.mem_append.mp hmem with hm | hm
        · exact hline hm
        · simp only [List.mem_singleton] at hm
          apply hcond
          refine ⟨by simp, ?_⟩
          rw [List.get?_eq_getElem?]
          have hlen : (init ++ [last] ++ [b]).length - 2 = init.length := by simp
          rw [hlen, List.append_assoc, List.getElem?_append_right (le_refl _)]
          simp [hm]

theorem readLine_noCR (input l : Bytes) (m : Nat) (rest : Bytes)
    (h : Reader.readLine input = .ok (l, m, rest)) : CR ∉ l :=
  readLineLoop_noCR input [] 0 l m rest (by simp) h

theorem ParseInt_range (s : Bytes) (n : Int) (h : strconv.ParseInt s = some n) :
    -2 ^ 63 ≤ n ∧ n < 2 ^ 63 := by
  cases s with
  | nil => simp [strconv.ParseInt] at h
  | cons c cs =>
    rw [strconv.ParseInt] at h
    generalize (if c = 43 ∨ c = 45 then cs else c :: cs) = digits at h
    by_cases hd : digits = []
    · rw [if_pos hd] at h
      exact absurd h (by simp)
    · rw [if_neg hd] at h
      cases hp : strconv.parseDigits digits 0 with
      | none =>
        rw [hp] at h
        exact absurd h (by simp)
      | some un =>
        rw [hp] at h
        try dsimp only at h
        by_cases hc : c = 45
        · rw [if_pos hc] at h
          by_cases hu : un ≤ 2 ^ 63
          · rw [if_pos hu] at h
            simp only [Option.some.injEq] at h
            omega
          · rw [if_neg hu] at h
            exact absurd h (by simp)
        · rw [if_neg hc] at h
          by_cases hu : un < 2 ^ 63
          · rw [if_pos hu] at h
            simp only [Option.some.injEq] at h
            omega
          · rw [if_neg hu] at h
            exact absurd h (by simp)

theorem readArrayLoop_LineSafe (R : Bytes → Result (Value × Bytes))
    (hR : ∀ i v r, R i = .ok (v, r) → v.LineSafe)
    (n : Nat) (arr : List Value) (input : Bytes) (v : Value) (rest : Bytes)
    (harr : ∀ x ∈ arr, x.LineSafe)
    (h : Reader.readArrayLoop R n arr input = .ok (v, rest)) :
    ∃ arr2, v = Value.Arr arr2 ∧ arr2.length = arr.length + n ∧ ∀ x ∈ arr2, x.LineSafe := by
  induction n generalizing arr input with
  | zero =>
    simp only [Reader.readArrayLoop, Result.ok.injEq, Prod.mk.injEq] at h
    exact ⟨arr, h.1.symm, rfl, harr⟩
  | succ n ih =>
    rw [Reader.readArrayLoop] at h
    split at h
    · simp at h
    · simp at h
    · rename_i val r hval
      have hv := hR _ _ _ hval
      obtain ⟨arr2, h1, h2, h3⟩ := ih (arr ++ [val]) r (by
        intro x hx
        rcases List.mem_append.mp hx with hx | hx
        · exact harr x hx
        · simp only [List.mem_singleton] at hx
          rw [hx]
          exact hv) h
      refine ⟨arr2, h1, ?_, h3⟩
      rw [h2]
      simp
      omega

theorem readSimpleString_noCR (input : Bytes) (v : Value) (rest : Bytes)
    (h : Reader.readSimpleString input = .ok (v, rest)) :
    ∃ s, v = Value.SimpleString s ∧ CR ∉ s := by
  unfold Reader.readSimpleString at h
  split at h
  · simp at h
  · simp at h
  · rename_i line m r hl
    simp only [Result.ok.injEq, Prod.mk.injEq] at h
    exact ⟨line, h.1.symm, readLine_noCR _ _ _ _ hl⟩

/-- Every value the reader returns is built from the six wire variants and holds no
CR byte in a simple string or error text. -/
theorem ReadFuel_LineSafe (fuel : Nat) (input : Bytes) (v : Value) (rest : Bytes)
    (h : Reader.ReadFuel fuel input = .ok (v, rest)) : v.LineSafe := by
  induction fuel generalizing input v rest with
  | zero => simp [Reader.ReadFuel] at h
  | succ fuel ih =>
    cases input with
    | nil => simp [Reader.ReadFuel] at h
    | cons t tl =>
      rw [Reader.ReadFuel] at h
      split at h
      · -- array
        unfold Reader.readArray at h
        split at h
        · simp at h
        · simp at h
        · rename_i line m r hl
          split at h
          · simp at h
          · rename_i len hlen
            split at h
            · simp at h
            · rename_i hcap
              obtain ⟨arr2, h1, h2, h3⟩ := readArrayLoop_LineSafe _
                (fun i v r hi => ih i v r hi) _ [] _ _ _ (by simp) h
              rw [h1]
              refine Value.Built.Arr arr2 ?_ h3
              rw [h2]
              simp only [List.length_nil, Nat.zero_add]
              unfold maxAlloc sizeofValue at hcap ⊢
              push_cast at hcap
              omega
      · split at h
        · -- bulk
          unfold Reader.readBulk at h
          split at h
          · simp at h
          · simp at h
          · rename_i line m r hl
            split at h
            · simp at h
            · rename_i len hlen
              have hr := ParseInt_range _ _ hlen
              split at h
              · simp only [Result.ok.injEq, Prod.mk.injEq] at h
                rw [← h.1]
                exact Value.Built.Null
              · split at h
                · simp at h
                · rename_i hcap
                  split at h
                  · simp at h
                  · simp at h
                  · rename_i bulk r2 hf
                    split at h
                    · simp at h
                    · simp at h
                    · simp only [Result.ok.injEq, Prod.mk.injEq] at h
                      rw [← h.1]
                      refine Value.Built.BulkString bulk ?_
                      unfold Reader.ReadFull at hf
                      split at hf
                      · simp only [Result.ok.injEq, Prod.mk.injEq] at hf
                        rw [← hf.1]
                        simp only [List.length_take]
                        unfold maxAlloc at hcap ⊢
                        push_cast at hcap
                        omega
                      · split at hf <;> simp at hf
        · split at h
          · obtain ⟨s, hs, hcr⟩ := readSimpleString_noCR _ _ _ h
            rw [hs]
            exact Value.Built.SimpleString s hcr
          · split at h
            · split at h
              · rename_i v2 r2 hs
                obtain ⟨s, hs2, hcr⟩ := readSimpleString_noCR _ _ _ hs
                simp only [Result.ok.injEq, Prod.mk.injEq] at h
                rw [← h.1, hs2]
                exact Value.Built.Error s hcr
              · simp at h
              · simp at h
            · split at h
              · unfold Reader.readInteger at h
                split at h
                · simp at h
                · simp at h
                · split at h
                  · simp at h
                  · rename_i i64 hp
                    have hr := ParseInt_range _ _ hp
                    simp only [Result.ok.injEq, Prod.mk.injEq] at h
                    rw [← h.1]
                    exact Value.Built.Integer i64 hr.1 hr.2
              · simp at h

/-- A value that `decode` returns on some bytes is line-safe, so that it comes back
from its own encoding. -/
theorem Decoded_LineSafe (v : Value) (h : v.Decoded) : v.LineSafe := by
  obtain ⟨input, rest, h⟩ := h
  exact ReadFuel_LineSafe _ _ _ _ h

/-- A declared length above the allocation limit makes the reader panic in `make`,
as a negative one does: a bulk string of 2^63 - 1 or of 2^48 + 1 bytes, and an array
of 2^63 - 1 elements. -/
theorem Read_above_maxAlloc :
    Reader.Read (lit "$9223372036854775807\r\n") = .panic ∧
    Reader.Read (lit "$281474976710657\r\n") = .panic ∧
    Reader.Read (lit "*9223372036854775807\r\n") = .panic := by
  refine ⟨by decide, by decide, by decide⟩

end resp
end Gedis

namespace Gedis
open resp

/-- A property of every entry of `Handlers` follows from the thirteen entries. -/
theorem Handlers_forall (P : Bytes → Handler → Prop)
    (hPING : P (lit "PING") (Handler.pure ping))
    (hECHO : P (lit "ECHO") (Handler.pure echo))
    (hSET : P (lit "SET") (Handler.store (fun args now kv => set args (now 0) kv)))
    (hGET : P (lit "GET") (Handler.store (fun args now kv => get args (now 0) kv)))
    (hDEL : P (lit "DEL") (Handler.store (fun args _ kv => del args kv)))
    (hEXISTS : P (lit "EXISTS") (Handler.store «exists»))
    (hTTL : P (lit "TTL") (Handler.store (fun args now kv => ttl args (now 0) kv)))
    (hSUBSCRIBE : P (lit "SUBSCRIBE") (fun args w _ st => subscribe args w st))
    (hPUBLISH : P (lit "PUBLISH") (fun args _ _ st => .ok (publish args st)))
    (hCOMMAND : P (lit "COMMAND") (Handler.pure command))
    (hCLIENT : P (lit "CLIENT") (Handler.pure client))
    (hINFO : P (lit "INFO") (Handler.pure info))
    (hSELECT : P (lit "SELECT") (Handler.pure selectDB))
    (name : Bytes) (handler : Handler) (h : Handlers name = some handler) : P name handler := by
  unfold Handlers at h
  by_cases h1 : name = lit "PING"
  · rw [if_pos h1] at h; injection h with h; subst h; subst h1; exact hPING
  rw [if_neg h1] at h
  by_cases h2 : name = lit "ECHO"
  · rw [if_pos h2] at h; injection h with h; subst h; subst h2; exact hECHO
  rw [if_neg h2] at h
  by_cases h3 : name = lit "SET"
  · rw [if_pos h3] at h; injection h with h; subst h; subst h3; exact hSET
  rw [if_neg h3] at h
  by_cases h4 : name = lit "GET"
  · rw [if_pos h4] at h; injection h with h; subst h; subst h4; exact hGET
  rw [if_neg h4] at h
  by_cases h5 : name = lit "DEL"
  · rw [if_pos h5] at h; injection h with h; subst h; subst h5; exact hDEL
  rw [if_neg h5] at h
  by_cases h6 : name = lit "EXISTS"
  · rw [if_pos h6] at h; injection h with h; subst h; subst h6; exact hEXISTS
  rw [if_neg h6] at h
  by_cases h7 : name = lit "TTL"
  · rw [if_pos h7] at h; injection h with h; subst h; subst h7; exact hTTL
  rw [if_neg h7] at h
  by_cases h8 : name = lit "SUBSCRIBE"
  · rw [if_pos h8] at h; injection h with h; subst h; subst h8; exact hSUBSCRIBE
  rw [if_neg h8] at h
  by_cases h9 : name = lit "PUBLISH"
  · rw [if_pos h9] at h; injection h with h; subst h; subst h9; exact hPUBLISH
  rw [if_neg h9] at h
  by_cases h10 : name = lit "COMMAND"
  · rw [if_pos h10] at h; injection h with h; subst h; subst h10; exact hCOMMAND
  rw [if_neg h10] at h
  by_cases h11 : name = lit "CLIENT"
  · rw [if_pos h11] at h; injection h with h; subst h; subst h11; exact hCLIENT
  rw [if_neg h11] at h
  by_cases h12 : name = lit "INFO"
  · rw [if_pos h12] at h; injection h with h; subst h; subst h12; exact hINFO
  rw [if_neg h12] at h
  by_cases h13 : name = lit "SELECT"
  · rw [if_pos h13] at h; injection h with h; subst h; subst h13; exact hSELECT
  rw [if_neg h13] at h
  exact Option.noConfusion h

/-- The map `Handlers` has no entry exactly for the names outside `registeredNames`. -/
theorem Handlers_none_iff (name : Bytes) : Handlers name = none ↔ name ∉ registeredNames := by
  constructor
  · intro hnone hmem
    have hsome : (Handlers name).isSome = true := by
      unfold registeredNames at hmem
      simp only [List.mem_cons, List.mem_singleton, List.not_mem_nil, or_false] at hmem
      rcases hmem with h | h | h | h | h | h | h | h | h | h | h | h | h <;> subst h <;> rfl
    rw [hnone] at hsome
    exact absurd hsome (by decide)
  · intro h
    unfold registeredNames at h
    simp only [List.mem_cons, List.mem_singleton, List.not_mem_nil, or_false, not_or] at h
    obtain ⟨h1, h2, h3, h4, h5, h6, h7, h8, h9, h10, h11, h12, h13⟩ := h
    unfold Handlers
    rw [if_neg h1, if_neg h2, if_neg h3, if_neg h4, if_neg h5, if_neg h6, if_neg h7, if_neg h8,
      if_neg h9, if_neg h10, if_neg h11, if_neg h12, if_neg h13]

theorem publish_frame (args : List Value) (st : World) :
    (publish args st).2.kv = st.kv ∧ (publish args st).2.aofFile = st.aofFile ∧
      (publish args st).2.Subs = st.Subs ∧ (publish args st).2.out = st.out := by
  unfold publish
  split
  · dsimp only
    cases st.Subs _ with
    | none => exact ⟨rfl, rfl, rfl, rfl⟩
    | some subscribers => exact ⟨rfl, rfl, rfl, rfl⟩
  · exact ⟨rfl, rfl, rfl, rfl⟩

/-- Every handler called with a writer returns, and does not touch the log. -/
theorem Handlers_returns (name : Bytes) (handler : Handler) (h : Handlers name = some handler)
    (args : List Value) (conn : Nat) (now : Nat → Int) (st : World) :
    ∃ result st2, handler args (some conn) now st = .ok (result, st2) ∧
      st2.aofFile = st.aofFile := by
  revert args conn now st
  refine Handlers_forall
    (fun _ handler => ∀ (args : List Value) (conn : Nat) (now : Nat → Int) (st : World),
      ∃ result st2, handler args (some conn) now st = .ok (result, st2) ∧
        st2.aofFile = st.aofFile)
    ?_ ?_ ?_ ?_ ?_ ?_ ?_ ?_ ?_ ?_ ?_ ?_ ?_ name handler h
  case refine_8 =>
    intro args conn now st
    exact ⟨Value.Ignore, subscribeLoop conn args 0 st, rfl, (subscribeLoop_frame conn args 0 st).2.1⟩
  case refine_9 =>
    intro args conn now st
    exact ⟨(publish args st).1, (publish args st).2, rfl, (publish_frame args st).2.1⟩
  all_goals
    intro args conn now st
    exact ⟨_, _, rfl, rfl⟩

theorem encode_array_ne_nil (value : Value) (hty : value.Typ = "array") : encode value ≠ [] := by
  cases value with
  | mk ty s num bulk arr =>
    change ty = "array" at hty
    subst hty
    simp only [encode, Writer.Write, Writer.write]
    simp only [String.reduceEq, if_false, if_true]
    rw [Writer.writeRange_append]
    simp

/-- The step of the dispatcher on a non-empty request array. -/
theorem handleRequest_array (ToUpper : Bytes → Bytes) (conn : Nat) (now : Nat → Int)
    (value first : Value) (args : List Value) (st : World)
    (hty : value.Typ = "array") (harr : value.Array = first :: args) :
    handleRequest ToUpper conn now value st =
      match Handlers (ToUpper first.Bulk) with
      | none =>
        .ok (st.write conn
          (Value.Error (lit "ERR unknown command '" ++ ToUpper first.Bulk ++ lit "'")))
      | some handler =>
        match handler args (some conn) now
          (if ToUpper first.Bulk = lit "SET" ∨ ToUpper first.Bulk = lit "DEL" then
            { st with aofFile := Writer.Write value st.aofFile } else st) with
        | .error e => .error e
        | .panic => .panic
        | .ok (result, st) =>
          if result.Typ = "ignore" then .ok st else .ok (st.write conn result) := by
  unfold handleRequest
  rw [if_neg (by simp [hty])]
  simp only [harr]

/-- The body of the loop of `handleConnection` is its first part followed by its
second part. -/
theorem handleRequest_steps (ToUpper : Bytes → Bytes) (conn : Nat) (now : Nat → Int)
    (value : Value) (st : World) :
    handleRequest ToUpper conn now value st
      = runRequest ToUpper conn now value (logRequest ToUpper value st) := by
  unfold handleRequest runRequest logRequest
  by_cases hty : value.Typ ≠ "array"
  · simp only [if_pos hty]
  · simp only [if_neg hty]
    cases value.Array with
    | nil => rfl
    | cons first args =>
      simp only
      cases Handlers (ToUpper first.Bulk) with
      | none => rfl
      | some handler => rfl

/-- The bound on the iterations of `handleConnectionLoop` is never used up. -/
theorem handleConnectionLoop_congr (ToUpper : Bytes → Bytes) (conn : Nat) (clock : Nat → Nat → Int)
    (f g i : Nat) (input : Bytes) (st : World) (hf : input.length < f) (hg : input.length < g) :
    handleConnectionLoop ToUpper conn clock f i input st
      = handleConnectionLoop ToUpper conn clock g i input st := by
  induction f generalizing g i input st with
  | zero => omega
  | succ f ih =>
    cases g with
    | zero => omega
    | succ g =>
      rw [handleConnectionLoop, handleConnectionLoop]
      cases hr : Reader.Read input with
      | error e => rfl
      | panic => rfl
      | ok p =>
        obtain ⟨value, rest⟩ := p
        have hlen := Reader.Read_length _ _ _ hr
        simp only
        cases handleRequest ToUpper conn (clock i) value st with
        | error e => rfl
        | panic => rfl
        | ok st2 =>
          simp only
          exact ih g (i + 1) rest st2 (by omega) (by omega)

/-- One iteration of the loop of `handleConnection`: after a request is read and
handled, the loop goes on with the rest of the stream. -/
theorem handleConnection_step (ToUpper : Bytes → Bytes) (conn : Nat) (clock : Nat → Nat → Int)
    (i : Nat) (input rest : Bytes) (value : Value) (st st2 : World)
    (hr : Reader.Read input = .ok (value, rest))
    (hh : handleRequest ToUpper conn (clock i) value st = .ok st2) :
    handleConnection ToUpper conn clock i input st
      = handleConnection ToUpper conn clock (i + 1) rest st2 := by
  unfold handleConnection
  rw [handleConnectionLoop]
  simp only [hr, hh]
  have hlen := Reader.Read_length _ _ _ hr
  exact handleConnectionLoop_congr ToUpper conn clock _ _ _ _ _ (by omega) (by omega)

/-- Claim C12: for every request of type array with a first element, one step of
the dispatcher returns, and the log afterwards differs from the log before exactly
when the upper-cased text of the first element is `SET` or `DEL`.  In that case the
log afterwards is the log before followed by the encoding of the request value as
it was decoded (which reads back as that value), and the handler is run on the
state that already holds the longer log; the handler itself leaves the log as it
is.  For every other name, registered or not, the log is unchanged. -/
theorem C12_log_append (ToUpper : Bytes → Bytes) (conn : Nat) (now : Nat → Int)
    (value first : Value) (args : List Value) (st : World)
    (hty : value.Typ = "array") (harr : value.Array = first :: args) :
    ∃ st2, handleRequest ToUpper conn now value st = .ok st2 ∧
      (st2.aofFile ≠ st.aofFile ↔
        (ToUpper first.Bulk = lit "SET" ∨ ToUpper first.Bulk = lit "DEL")) ∧
      ((ToUpper first.Bulk = lit "SET" ∨ ToUpper first.Bulk = lit "DEL") →
        st2.aofFile = st.aofFile ++ encode value ∧
        (value.Decoded → ∀ rest, Reader.Read (encode value ++ rest) = .ok (value, rest)) ∧
        ∃ handler result st1, Handlers (ToUpper first.Bulk) = some handler ∧
          handler args (some conn) now { st with aofFile := st.aofFile ++ encode value }
            = .ok (result, st1) ∧
          st1.aofFile = st.aofFile ++ encode value ∧
          st2 = if result.Typ = "ignore" then st1 else st1.write conn result) ∧
      (¬ (ToUpper first.Bulk = lit "SET" ∨ ToUpper first.Bulk = lit "DEL") →
        st2.aofFile = st.aofFile) := by
  rw [handleRequest_array ToUpper conn now value first args st hty harr]
  have hne := encode_array_ne_nil value hty
  cases hH : Handlers (ToUpper first.Bulk) with
  | none =>
    have hreg : ¬ (ToUpper first.Bulk = lit "SET" ∨ ToUpper first.Bulk = lit "DEL") := by
      rintro (h | h) <;> rw [h] at hH <;> exact absurd hH (by rw [Handlers_none_iff]; decide)
    refine ⟨_, rfl, ?_, fun h => absurd h hreg, fun _ => rfl⟩
    simp only [World.write, ne_eq, not_true_eq_false, false_iff]
    exact hreg
  | some handler =>
    by_cases hcmd : ToUpper first.Bulk = lit "SET" ∨ ToUpper first.Bulk = lit "DEL"
    · simp only [if_pos hcmd, Write_eq_append]
      obtain ⟨result, st1, hrun, hlog⟩ := Handlers_returns _ handler hH args conn now
        { st with aofFile := st.aofFile ++ encode value }
      simp only [hrun]
      have hlog2 : (if result.Typ = "ignore" then st1 else st1.write conn result).aofFile
          = st.aofFile ++ encode value := by
        split
        · exact hlog
        · exact hlog
      refine ⟨if result.Typ = "ignore" then st1 else st1.write conn result, ?_, ?_, ?_, ?_⟩
      · split <;> rfl
      · rw [hlog2]
        simp only [ne_eq, List.append_right_eq_self, hne, not_false_eq_true, true_iff]
        exact hcmd
      · intro _
        exact ⟨hlog2, fun hd => Read_encode value (Decoded_LineSafe value hd),
          handler, result, st1, rfl, hrun, hlog, rfl⟩
      · intro h
        exact absurd hcmd h
    · simp only [if_neg hcmd]
      obtain ⟨result, st1, hrun, hlog⟩ := Handlers_returns _ handler hH args conn now st
      simp only [hrun]
      have hlog2 : (if result.Typ = "ignore" then st1 else st1.write conn result).aofFile
          = st.aofFile := by
        split
        · exact hlog
        · exact hlog
      refine ⟨if result.Typ = "ignore" then st1 else st1.write conn result, ?_, ?_, ?_, ?_⟩
      · split <;> rfl
      · rw [hlog2]
        simp only [ne_eq, not_true_eq_false, false_iff]
        exact hcmd
      · intro h
        exact absurd h hcmd
      · intro _
        exact hlog2

/-- Claim C12, witness: `set a 1` on the empty state puts the request, its name
still in lower case, into the log, and `get a` after it leaves the log as it
is. -/
theorem C12_log_append_witness :
    (∃ st2, handleRequest strings.ToUpper 0 0
        (Value.Arr [Value.BulkString (lit "set"), Value.BulkString (lit "a"),
          Value.BulkString (lit "1")]) (World.init []) = .ok st2 ∧
      st2.aofFile = lit "*3\r\n$3\r\nset\r\n$1\r\na\r\n$1\r\n1\r\n") ∧
    (∃ st2, handleRequest strings.ToUpper 0 0
        (Value.Arr [Value.BulkString (lit "get"), Value.BulkString (lit "a")])
        (World.init (lit "*3\r\n$3\r\nset\r\n$1\r\na\r\n$1\r\n1\r\n")) = .ok st2 ∧
      st2.aofFile = lit "*3\r\n$3\r\nset\r\n$1\r\na\r\n$1\r\n1\r\n") := by
  constructor
  · obtain ⟨st2, h1, _, h3, _⟩ := C12_log_append strings.ToUpper 0 0
      (Value.Arr [Value.BulkString (lit "set"), Value.BulkString (lit "a"),
        Value.BulkString (lit "1")]) (Value.BulkString (lit "set"))
      [Value.BulkString (lit "a"), Value.BulkString (lit "1")] (World.init []) rfl rfl
    refine ⟨st2, h1, ?_⟩
    rw [(h3 (by decide)).1]
    decide
  · obtain ⟨st2, h1, _, _, h4⟩ := C12_log_append strings.ToUpper 0 0
      (Value.Arr [Value.BulkString (lit "get"), Value.BulkString (lit "a")])
      (Value.BulkString (lit "get")) [Value.BulkString (lit "a")]
      (World.init (lit "*3\r\n$3\r\nset\r\n$1\r\na\r\n$1\r\n1\r\n")) rfl rfl
    refine ⟨st2, h1, ?_⟩
    rw [h4 (by decide)]
    rfl

/-- Claim C13: for every request of type array whose first element, upper-cased,
is not a key of `Handlers`, one step of the dispatcher returns; it writes to the
connection one value, the Error whose text is `ERR unknown command` followed by
the upper-cased name in quotes, so that the text contains the name; the other
connections, the store, the pub/sub registry, the log and the started goroutines
are as before; and the loop of the connection goes on with the bytes that follow
the request. -/
theorem C13_unknown_command (ToUpper : Bytes → Bytes) (conn : Nat) (now : Nat → Int)
    (value first : Value) (args : List Value) (st : World)
    (hty : value.Typ = "array") (harr : value.Array = first :: args)
    (hunk : ToUpper first.Bulk ∉ registeredNames) :
    ∃ st2, handleRequest ToUpper conn now value st = .ok st2 ∧
      st2.out conn = st.out conn ++
        encode (Value.Error (lit "ERR unknown command '" ++ ToUpper first.Bulk ++ lit "'")) ∧
      ToUpper first.Bulk <:+: lit "ERR unknown command '" ++ ToUpper first.Bulk ++ lit "'" ∧
      (∀ c, c ≠ conn → st2.out c = st.out c) ∧
      st2.kv = st.kv ∧ st2.Subs = st.Subs ∧ st2.aofFile = st.aofFile ∧
      st2.started = st.started ∧
      (∀ (clock : Nat → Nat → Int) (i : Nat) (input rest : Bytes), clock i = now →
        Reader.Read input = .ok (value, rest) →
        handleConnection ToUpper conn clock i input st
          = handleConnection ToUpper conn clock (i + 1) rest st2) := by
  have hH := (Handlers_none_iff _).mpr hunk
  have hstep : handleRequest ToUpper conn now value st = .ok (st.write conn
      (Value.Error (lit "ERR unknown command '" ++ ToUpper first.Bulk ++ lit "'"))) := by
    rw [handleRequest_array ToUpper conn now value first args st hty harr, hH]
  refine ⟨_, hstep, ?_, ⟨lit "ERR unknown command '", lit "'", rfl⟩, ?_, rfl, rfl, rfl, rfl, ?_⟩
  · simp [World.write, Write_eq_append]
  · intro c hc
    simp [World.write, hc]
  · intro clock i input rest hclock hr
    exact handleConnection_step ToUpper conn clock i input rest value st _ hr
      (by rw [hclock]; exact hstep)

/-- Claim C13, witness: a connection that sends `foo` and then `PING` is sent the
Error naming `FOO` and then the reply to `PING`. -/
theorem C13_unknown_command_witness :
    (∃ st2, handleRequest strings.ToUpper 0 0 (Value.Arr [Value.BulkString (lit "foo")])
        (World.init []) = .ok st2 ∧
      st2.out 0 = lit "-ERR unknown command 'FOO'\r\n" ∧
      handleConnection strings.ToUpper 0 (fun _ => 0) 0
          (lit "*1\r\n$3\r\nfoo\r\n*1\r\n$4\r\nPING\r\n") (World.init [])
        = handleConnection strings.ToUpper 0 (fun _ => 0) 1 (lit "*1\r\n$4\r\nPING\r\n") st2) ∧
    (∃ st3, handleConnection strings.ToUpper 0 (fun _ => 0) 0
        (lit "*1\r\n$3\r\nfoo\r\n*1\r\n$4\r\nPING\r\n") (World.init []) = .ok st3 ∧
      st3.out 0 = lit "-ERR unknown command 'FOO'\r\n+PONG\r\n") := by
  constructor
  · obtain ⟨st2, h1, h2, _, _, _, _, _, _, h9⟩ := C13_unknown_command strings.ToUpper 0 0
      (Value.Arr [Value.BulkString (lit "foo")]) (Value.BulkString (lit "foo")) []
      (World.init []) rfl rfl (by decide)
    refine ⟨st2, h1, ?_, ?_⟩
    · rw [h2]
      decide
    · exact h9 (fun _ => 0) 0 _ _ rfl (by decide)
  · exact ⟨_, rfl, by decide⟩

end Gedis

namespace Gedis
open resp

theorem scanSetOptions_no_option (value : Bytes → Option Int) (l : List Bytes)
    (last : Option SetOption)
    (h : ∀ b ∈ l, ¬ (equalsIgnoringCase b (lit "EX") = true ∨
      equalsIgnoringCase b (lit "PX") = true)) :
    scanSetOptions value l last = .ok last := by
  induction l with
  | nil => rfl
  | cons tok rest ih =>
    have ht := h tok (List.mem_cons_self _ _)
    rw [scanSetOptions_cons, if_neg (fun e => ht (Or.inl e)), if_neg (fun e => ht (Or.inr e))]
    exact ih (fun b hb => h b (List.mem_cons_of_mem _ hb))

theorem NoExpiry_insert (kv : Store) (key val : Bytes) (h : kv.NoExpiry) :
    (kv.insert key ⟨val, none⟩).NoExpiry := by
  intro k entry hk
  unfold Store.insert at hk
  split at hk
  · injection hk with hk
    rw [← hk]
  · exact h k entry hk

/-- A `SET` without an `EX` or `PX` among its options does not read the clock, and
it stores an entry without expiry. -/
theorem set_no_option (args : List Value)
    (h : ∀ a ∈ args.drop 2, ¬ (equalsIgnoringCase a.Bulk (lit "EX") = true ∨
      equalsIgnoringCase a.Bulk (lit "PX") = true))
    (now now2 : Int) (kv : Store) :
    set args now kv = set args now2 kv ∧ (kv.NoExpiry → (set args now kv).2.NoExpiry) := by
  match args, h with
  | [], _ => exact ⟨rfl, fun h => h⟩
  | [_], _ => exact ⟨rfl, fun h => h⟩
  | key :: val :: options, h =>
    have hs : scanSetOptions int64Value (options.map Value.Bulk) none = .ok none := by
      apply scanSetOptions_no_option
      intro b hb
      obtain ⟨a, ha, rfl⟩ := List.mem_map.mp hb
      exact h a (by simpa using ha)
    rw [set_eq_scan, set_eq_scan, hs]
    exact ⟨rfl, fun hkv => NoExpiry_insert kv _ _ hkv⟩

theorem NoExpiry_expired (kv : Store) (h : kv.NoExpiry) (k : Bytes) (entry : StorageEntry)
    (now : Int) (hk : kv k = some entry) : entry.expired now = false := by
  unfold StorageEntry.expired
  rw [h k entry hk]

theorem NoExpiry_del (args : List Value) (kv : Store) (h : kv.NoExpiry) :
    (del args kv).2.NoExpiry := by
  cases args with
  | nil => exact h
  | cons a args =>
    change (delLoop (a :: args) 0 kv).2.NoExpiry
    rw [delLoop_store]
    intro k entry hk
    dsimp only at hk
    split at hk
    · exact absurd hk (by simp)
    · exact h k entry hk

theorem get_NoExpiry (args : List Value) (now : Int) (kv : Store) (h : kv.NoExpiry) :
    (get args now kv).2 = kv := by
  unfold get
  split
  · rename_i arg
    dsimp only
    cases hk : kv arg.Bulk with
    | none => rfl
    | some entry =>
      simp only [NoExpiry_expired kv h _ entry now hk, Bool.false_eq_true, if_false]
  · rfl

theorem ttl_NoExpiry (args : List Value) (now : Int) (kv : Store) (h : kv.NoExpiry) :
    (ttl args now kv).2 = kv := by
  unfold ttl
  split
  · rename_i arg
    dsimp only
    cases hk : kv arg.Bulk with
    | none => rfl
    | some entry =>
      simp only [NoExpiry_expired kv h _ entry now hk, Bool.false_eq_true, if_false,
        h _ entry hk]
  · rfl

theorem existsLoop_NoExpiry (now : Nat → Int) (args : List Value) (i : Nat) (count : Int)
    (kv : Store) (h : kv.NoExpiry) : (existsLoop now args i count kv).2 = kv := by
  induction args generalizing i count with
  | nil => rfl
  | cons a args ih =>
    rw [existsLoop]
    cases hk : kv a.Bulk with
    | none => exact ih (i + 1) count
    | some entry =>
      simp only [NoExpiry_expired kv h _ entry (now i) hk, Bool.false_eq_true, if_false]
      exact ih (i + 1) (count + 1)

theorem exists_NoExpiry (args : List Value) (now : Nat → Int) (kv : Store) (h : kv.NoExpiry) :
    («exists» args now kv).2 = kv := by
  cases args with
  | nil => rfl
  | cons a args => exact existsLoop_NoExpiry now (a :: args) 0 0 kv h

/-- Every handler other than `SET` and `DEL` leaves a store without expiries as it
is. -/
theorem Handlers_kv (name : Bytes) (handler : Handler) (h : Handlers name = some handler)
    (hSET : name ≠ lit "SET") (hDEL : name ≠ lit "DEL")
    (args : List Value) (w : Option Nat) (now : Nat → Int) (st : World) (result : Value)
    (st2 : World)
    (hkv : st.kv.NoExpiry) (hrun : handler args w now st = .ok (result, st2)) :
    st2.kv = st.kv := by
  revert hSET hDEL args w now st result st2
  refine Handlers_forall
    (fun name handler => name ≠ lit "SET" → name ≠ lit "DEL" →
      ∀ (args : List Value) (w : Option Nat) (now : Nat → Int) (st : World) (result : Value)
        (st2 : World), st.kv.NoExpiry → handler args w now st = .ok (result, st2) →
        st2.kv = st.kv)
    ?_ ?_ ?_ ?_ ?_ ?_ ?_ ?_ ?_ ?_ ?_ ?_ ?_ name handler h
  case refine_3 => exact fun hs => absurd rfl hs
  case refine_5 => exact fun _ hd => absurd rfl hd
  case refine_4 =>
    intro _ _ args w now st result st2 hkv hrun
    simp only [Handler.store, Result.ok.injEq, Prod.mk.injEq] at hrun
    rw [← hrun.2]
    exact get_NoExpiry args (now 0) st.kv hkv
  case refine_6 =>
    intro _ _ args w now st result st2 hkv hrun
    simp only [Handler.store, Result.ok.injEq, Prod.mk.injEq] at hrun
    rw [← hrun.2]
    exact exists_NoExpiry args now st.kv hkv
  case refine_7 =>
    intro _ _ args w now st result st2 hkv hrun
    simp only [Handler.store, Result.ok.injEq, Prod.mk.injEq] at hrun
    rw [← hrun.2]
    exact ttl_NoExpiry args (now 0) st.kv hkv
  case refine_8 =>
    intro _ _ args w now st result st2 hkv hrun
    unfold subscribe at hrun
    dsimp only at hrun
    split at hrun
    · simp only [Result.ok.injEq, Prod.mk.injEq] at hrun
      rw [← hrun.2]
      exact (subscribeLoop_frame _ args 0 st).1
    · split at hrun
      · simp only [Result.ok.injEq, Prod.mk.injEq] at hrun
        rw [← hrun.2]
      · exact absurd hrun (by simp)
  case refine_9 =>
    intro _ _ args w now st result st2 hkv hrun
    simp only [Result.ok.injEq] at hrun
    have e : st2 = (publish args st).2 := by rw [hrun]
    rw [e]
    exact (publish_frame args st).1
  all_goals
    intro _ _ args w now st result st2 hkv hrun
    simp only [Handler.pure, Result.ok.injEq, Prod.mk.injEq] at hrun
    rw [← hrun.2]

theorem ReplayInv_congr (ToUpper : Bytes → Bytes) (st st2 : World)
    (hlog : st2.aofFile = st.aofFile) (hkv : st2.kv = st.kv) (h : ReplayInv ToUpper st) :
    ReplayInv ToUpper st2 := by
  obtain ⟨records, h1, h2, h3, h4⟩ := h
  refine ⟨records, by rw [hlog, h1], h2, by rw [hkv]; exact h3, ?_⟩
  intro clock w0 n hw0
  obtain ⟨w, hw, hwkv⟩ := h4 clock w0 n hw0
  exact ⟨w, hw, by rw [hwkv, hkv]⟩

/-- A logged request extends the relation: the record is appended, and the replay
callback has on the replayed store the effect `effect` that the handler had on the
live store. -/
theorem ReplayInv_append (ToUpper : Bytes → Bytes) (st st2 : World) (value : Value)
    (effect : Store → Store)
    (hsafe : value.LineSafe)
    (hlog : st2.aofFile = st.aofFile ++ encode value) (hkv : st2.kv = effect st.kv)
    (hno : st.kv.NoExpiry → (effect st.kv).NoExpiry)
    (hcb : ∀ (now : Nat → Int) (w : World), ∃ w2,
      main.replayCallback ToUpper now w value = .ok w2 ∧ w2.kv = effect w.kv)
    (h : ReplayInv ToUpper st) : ReplayInv ToUpper st2 := by
  obtain ⟨records, h1, h2, h3, h4⟩ := h
  refine ⟨records ++ [value], ?_, ?_, ?_, ?_⟩
  · rw [hlog, h1]
    simp
  · intro v hv
    rcases List.mem_append.mp hv with hv | hv
    · exact h2 v hv
    · simp only [List.mem_singleton] at hv
      rw [hv]
      exact hsafe
  · rw [hkv]
    exact hno h3
  · intro clock w0 n hw0
    obtain ⟨w, hw, hwkv⟩ := h4 clock w0 n hw0
    obtain ⟨w2, hw2, hw2kv⟩ := hcb (clock (n + records.length)) w
    refine ⟨w2, ?_, by rw [hw2kv, hwkv, hkv]⟩
    rw [List.foldl_append, hw]
    simp only [List.foldl_cons, List.foldl_nil, main.replayStep, hw2, List.length_append,
      List.length_singleton]
    rfl

/-- One step of the dispatcher keeps the relation between the state and its log. -/
theorem handleRequest_ReplayInv (ToUpper : Bytes → Bytes) (conn : Nat) (now : Nat → Int)
    (value : Value) (st : World) (hdec : value.Decoded)
    (hopt : ¬ carriesExpiryOption ToUpper value) (h : ReplayInv ToUpper st) :
    ∃ st2, handleRequest ToUpper conn now value st = .ok st2 ∧ ReplayInv ToUpper st2 := by
  by_cases hty : value.Typ = "array"
  swap
  · exact ⟨st, by unfold handleRequest; rw [if_pos hty], h⟩
  cases harr : value.Array with
  | nil =>
    refine ⟨st, ?_, h⟩
    unfold handleRequest
    rw [if_neg (by simp [hty])]
    simp only [harr]
  | cons first args =>
    rw [handleRequest_array ToUpper conn now value first args st hty harr]
    have hsafe := Decoded_LineSafe value hdec
    cases hH : Handlers (ToUpper first.Bulk) with
    | none => exact ⟨_, rfl, ReplayInv_congr ToUpper st _ rfl rfl h⟩
    | some handler =>
      by_cases hSET : ToUpper first.Bulk = lit "SET"
      · have hhandler : handler = Handler.store (fun args now kv => set args (now 0) kv) := by
          rw [hSET] at hH
          have : Handlers (lit "SET")
              = some (Handler.store (fun args now kv => set args (now 0) kv)) := rfl
          rw [this] at hH
          injection hH with hH
          exact hH.symm
        subst hhandler
        have hargs : ∀ a ∈ args.drop 2, ¬ (equalsIgnoringCase a.Bulk (lit "EX") = true ∨
            equalsIgnoringCase a.Bulk (lit "PX") = true) :=
          fun a ha hc => hopt ⟨first, args, harr, hSET, a, ha, hc⟩
        simp only [if_pos (Or.inl hSET), Handler.store, Write_eq_append]
        have hinv : ∀ st2 : World, st2.aofFile = st.aofFile ++ encode value →
            st2.kv = (set args (now 0) st.kv).2 → ReplayInv ToUpper st2 := by
          intro st2 hlog hkv
          refine ReplayInv_append ToUpper st st2 value (fun kv => (set args (now 0) kv).2) hsafe
            hlog hkv (set_no_option args hargs (now 0) (now 0) st.kv).2 ?_ h
          intro t w
          refine ⟨{ w with kv := (set args (t 0) w.kv).2 }, ?_, ?_⟩
          · simp only [main.replayCallback, harr, hSET]
            rfl
          · exact congrArg Prod.snd (set_no_option args hargs (t 0) (now 0) w.kv).1
        split
        · exact ⟨_, rfl, hinv _ rfl rfl⟩
        · exact ⟨_, rfl, hinv _ rfl rfl⟩
      · by_cases hDEL : ToUpper first.Bulk = lit "DEL"
        · have hhandler : handler = Handler.store (fun args _ kv => del args kv) := by
            rw [hDEL] at hH
            have : Handlers (lit "DEL")
                = some (Handler.store (fun args _ kv => del args kv)) := rfl
            rw [this] at hH
            injection hH with hH
            exact hH.symm
          subst hhandler
          simp only [if_pos (Or.inr hDEL), Handler.store, Write_eq_append]
          have hinv : ∀ st2 : World, st2.aofFile = st.aofFile ++ encode value →
              st2.kv = (del args st.kv).2 → ReplayInv ToUpper st2 := by
            intro st2 hlog hkv
            refine ReplayInv_append ToUpper st st2 value (fun kv => (del args kv).2) hsafe hlog
              hkv (NoExpiry_del args st.kv) ?_ h
            intro t w
            refine ⟨{ w with kv := (del args w.kv).2 }, ?_, rfl⟩
            simp only [main.replayCallback, harr, hDEL]
            rfl
          split
          · exact ⟨_, rfl, hinv _ rfl rfl⟩
          · exact ⟨_, rfl, hinv _ rfl rfl⟩
        · rw [if_neg (by rintro (e | e); exact hSET e; exact hDEL e)]
          obtain ⟨result, st1, hrun, hlog⟩ := Handlers_returns _ handler hH args conn now st
          have hkv := Handlers_kv _ handler hH hSET hDEL args (some conn) now st result st1
            h.choose_spec.2.2.1 hrun
          simp only [hrun]
          split
          · exact ⟨_, rfl, ReplayInv_congr ToUpper st _ hlog hkv h⟩
          · exact ⟨_, rfl, ReplayInv_congr ToUpper st _ hlog hkv h⟩

theorem handleRequests_ReplayInv (ToUpper : Bytes → Bytes) (conn : Nat)
    (clock : Nat → Nat → Int) (values : List Value) (i : Nat) (st : World)
    (hdec : ∀ v ∈ values, v.Decoded)
    (hopt : ∀ v ∈ values, ¬ carriesExpiryOption ToUpper v) (h : ReplayInv ToUpper st) :
    ∃ live, handleRequests ToUpper conn clock values i st = .ok live ∧
      ReplayInv ToUpper live := by
  induction values generalizing i st with
  | nil => exact ⟨st, rfl, h⟩
  | cons v vs ih =>
    obtain ⟨st2, hstep, hinv⟩ := handleRequest_ReplayInv ToUpper conn (clock i) v st
      (hdec v (List.mem_cons_self _ _)) (hopt v (List.mem_cons_self _ _)) h
    rw [handleRequests]
    simp only [hstep]
    exact ih (i + 1) st2 (fun r hr => hdec r (List.mem_cons_of_mem _ hr))
      (fun r hr => hopt r (List.mem_cons_of_mem _ hr)) hinv

theorem ReplayInv_init (ToUpper : Bytes → Bytes) : ReplayInv ToUpper (World.init []) := by
  refine ⟨[], rfl, by simp, ?_, ?_⟩
  · intro k entry hk
    exact absurd hk (by simp [World.init, Store.empty])
  · intro clock w0 n hw0
    exact ⟨w0, rfl, hw0⟩

/-- A request with at most two arguments behind the command name carries no
option. -/
theorem not_carriesExpiryOption_of_short (ToUpper : Bytes → Bytes) (value : Value)
    (h : value.Array.length ≤ 3) : ¬ carriesExpiryOption ToUpper value := by
  rintro ⟨first, args, harr, _, a, ha, _⟩
  rw [harr] at h
  simp only [List.length_cons] at h
  rw [List.drop_eq_nil_of_le (by omega)] at ha
  exact absurd ha (by simp)

/-- Replay fidelity while one connection is served: for every sequence of requests
of one connection, each a value that `decode` returns and none a `SET` that carries
an `EX` or `PX` option, handled one after the other from the empty store and the
empty log with no step of another goroutine in between, the replay of the log, at
whatever instants, reads the log to its end and returns a store equal to the live
store. -/
theorem replay_one_connection (ToUpper : Bytes → Bytes) (conn : Nat)
    (clock replayClock : Nat → Nat → Int) (values : List Value)
    (hdec : ∀ v ∈ values, v.Decoded)
    (hopt : ∀ v ∈ values, ¬ carriesExpiryOption ToUpper v) :
    ∃ live, handleRequests ToUpper conn clock values 0 (World.init []) = .ok live ∧
      ∃ replayed, main.replay ToUpper replayClock live.aofFile = .ok replayed ∧
        replayed.kv = live.kv := by
  obtain ⟨live, hlive, records, h1, h2, _, h4⟩ :=
    handleRequests_ReplayInv ToUpper conn clock values 0 (World.init []) hdec hopt
      (ReplayInv_init ToUpper)
  obtain ⟨w, hw, hwkv⟩ := h4 replayClock (World.init live.aofFile) 0 rfl
  refine ⟨live, hlive, w, ?_, hwkv⟩
  unfold main.replay
  have hread := aof.aof_Read_encode (main.replayStep ToUpper replayClock) records h2
    (.ok (World.init live.aofFile, 0))
  rw [← h1, hw] at hread
  rw [hread]

/-- The replay of the logs of the specification: the log `SET a 1`, `SET a 2`,
`DEL a` replays to a store where `a` is absent, and the log `SET a 1` to a store
where `GET a` returns `1`; and the requests `SET a 1`, `SET a 2`, `DEL a` of one
connection leave a log whose replay gives the live store. -/
theorem replay_examples :
    (∃ live, handleRequests strings.ToUpper 0 (fun _ _ => 0)
        [Value.Arr [Value.BulkString (lit "SET"), Value.BulkString (lit "a"),
            Value.BulkString (lit "1")],
          Value.Arr [Value.BulkString (lit "SET"), Value.BulkString (lit "a"),
            Value.BulkString (lit "2")],
          Value.Arr [Value.BulkString (lit "DEL"), Value.BulkString (lit "a")]]
        0 (World.init []) = .ok live ∧
      ∃ replayed, main.replay strings.ToUpper (fun _ _ => 0) live.aofFile = .ok replayed ∧
        replayed.kv = live.kv) ∧
    (∃ replayed, main.replay strings.ToUpper (fun _ _ => 0)
        (lit "*3\r\n$3\r\nSET\r\n$1\r\na\r\n$1\r\n1\r\n*3\r\n$3\r\nSET\r\n$1\r\na\r\n$1\r\n2\r\n*2\r\n$3\r\nDEL\r\n$1\r\na\r\n")
        = .ok replayed ∧ replayed.kv (lit "a") = none) ∧
    (∃ replayed, main.replay strings.ToUpper (fun _ _ => 0)
        (lit "*3\r\n$3\r\nSET\r\n$1\r\na\r\n$1\r\n1\r\n") = .ok replayed ∧
      (get [Value.BulkString (lit "a")] 0 replayed.kv).1 = Value.BulkString (lit "1")) := by
  refine ⟨replay_one_connection strings.ToUpper 0 (fun _ _ => 0) (fun _ _ => 0) _ ?_ ?_,
    ⟨_, rfl, by decide⟩, ⟨_, rfl, by decide⟩⟩
  · intro r hr
    simp only [List.mem_cons, List.mem_singleton, List.not_mem_nil, or_false] at hr
    rcases hr with rfl | rfl | rfl
    · exact ⟨lit "*3\r\n$3\r\nSET\r\n$1\r\na\r\n$1\r\n1\r\n", [], by decide⟩
    · exact ⟨lit "*3\r\n$3\r\nSET\r\n$1\r\na\r\n$1\r\n2\r\n", [], by decide⟩
    · exact ⟨lit "*2\r\n$3\r\nDEL\r\n$1\r\na\r\n", [], by decide⟩
  · intro r hr
    simp only [List.mem_cons, List.mem_singleton, List.not_mem_nil, or_false] at hr
    rcases hr with rfl | rfl | rfl <;>
      exact not_carriesExpiryOption_of_short _ _ (by decide)

/-- Claim C11, the code at the failing input: connection 0 sends `SET a 1` and
connection 1 sends `SET a 2`, both from the empty store and the empty log.  The
goroutine of connection 0 appends its request to the log, then the goroutine of
connection 1 appends its request and runs its handler, and then the handler of
connection 0 runs.  Each step is a part of the loop of `handleConnection` in
program order.  The live store then maps `a` to `1`; the log holds `SET a 1` before
`SET a 2`, and its replay returns a store that maps `a` to `2`. -/
theorem C11_log_order_race :
    ∃ st1 live replayed,
      runRequest strings.ToUpper 1 (fun _ => 0)
          (Value.Arr [Value.BulkString (lit "SET"), Value.BulkString (lit "a"),
            Value.BulkString (lit "2")])
          (logRequest strings.ToUpper
            (Value.Arr [Value.BulkString (lit "SET"), Value.BulkString (lit "a"),
              Value.BulkString (lit "2")])
            (logRequest strings.ToUpper
              (Value.Arr [Value.BulkString (lit "SET"), Value.BulkString (lit "a"),
                Value.BulkString (lit "1")])
              (World.init []))) = .ok st1 ∧
      runRequest strings.ToUpper 0 (fun _ => 0)
          (Value.Arr [Value.BulkString (lit "SET"), Value.BulkString (lit "a"),
            Value.BulkString (lit "1")]) st1 = .ok live ∧
      live.aofFile
        = lit "*3\r\n$3\r\nSET\r\n$1\r\na\r\n$1\r\n1\r\n*3\r\n$3\r\nSET\r\n$1\r\na\r\n$1\r\n2\r\n" ∧
      live.kv (lit "a") = some ⟨lit "1", none⟩ ∧
      live.out 0 = lit "+OK\r\n" ∧ live.out 1 = lit "+OK\r\n" ∧
      main.replay strings.ToUpper (fun _ _ => 0) live.aofFile = .ok replayed ∧
      replayed.kv (lit "a") = some ⟨lit "2", none⟩ := by
  refine ⟨_, _, _, rfl, rfl, by decide, by decide, by decide, by decide, rfl, by decide⟩

end Gedis
